import Mathlib

/-!
Verification development for the MgmtLit evidence-consolidation pipeline.

The Python sources (`mgmtlit/models.py`, `mgmtlit/utils.py`,
`mgmtlit/agents.py`, `mgmtlit/postprocess.py`) are shallowly embedded here:
strings are `List Char`, Python `None`-able fields are `Option`, and every
function is translated directly from its source counterpart (the doc comment
of each definition names the Python function it embeds).
-/

set_option maxRecDepth 4000

namespace Mgmt

/-- Strings are modelled as lists of characters. -/
abbrev Str := List Char

/-- Whitespace in the sense of Python `str.strip` / regex `\s` (ASCII part). -/
def isPySpace (c : Char) : Bool :=
  c == ' ' || c == '\t' || c == '\n' || c == '\r' || c == '\x0b' || c == '\x0c'

/-- Python `str.lstrip()`. -/
def lstrip (s : Str) : Str := s.dropWhile isPySpace

/-- Python `str.rstrip()`. -/
def rstrip (s : Str) : Str := (s.reverse.dropWhile isPySpace).reverse

/-- Python `str.strip()`. -/
def pstrip (s : Str) : Str := rstrip (lstrip s)

/-- Python `str.lower()` (ASCII case folding). -/
def lowerStr (s : Str) : Str := s.map Char.toLower

/-- Does `s` start with `p`? (Python `str.startswith`.) -/
def startsWithStr : Str → Str → Bool
  | _, [] => true
  | [], _ :: _ => false
  | c :: cs, p :: ps => c == p && startsWithStr cs ps

/-- Substring containment, Python `p in s`. -/
def containsStr : Str → Str → Bool
  | [], pat => pat.isEmpty
  | c :: cs, pat => startsWithStr (c :: cs) pat || containsStr cs pat

/-- Helper for `splitWs`: accumulates the current word reversed. -/
def splitWsAux : Str → Str → List Str
  | [], acc => if acc.isEmpty then [] else [acc.reverse]
  | c :: cs, acc =>
    if isPySpace c then
      if acc.isEmpty then splitWsAux cs [] else acc.reverse :: splitWsAux cs []
    else splitWsAux cs (c :: acc)

/-- Python `str.split()` with no argument: split on whitespace runs, dropping
empty fields. -/
def splitWs (s : Str) : List Str := splitWsAux s []

/-- Join a list of strings with a separator (Python `sep.join(xs)`). -/
def joinSep (sep : Str) : List Str → Str
  | [] => []
  | [x] => x
  | x :: y :: rest => x ++ sep ++ joinSep sep (y :: rest)

/-- Helper for `splitChar`. -/
def splitCharAux (sep : Char) : Str → Str → List Str
  | [], acc => [acc.reverse]
  | c :: cs, acc =>
    if c == sep then acc.reverse :: splitCharAux sep cs []
    else splitCharAux sep cs (c :: acc)

/-- Python `str.split(sep)` for a single-character separator (keeps empties). -/
def splitChar (sep : Char) (s : Str) : List Str := splitCharAux sep s []

/-- Count of elements satisfying a boolean predicate (Python `sum(1 for ...)`). -/
def countB (p : α → Bool) (l : List α) : Nat := (l.filter p).length

/-- Fuelled helper for `firstOccs` (structural recursion so that the kernel
can evaluate it; the fuel is always at least the list length). -/
def firstOccsF : Nat → List Str → List Str
  | 0, _ => []
  | _ + 1, [] => []
  | fuel + 1, k :: ks => k :: firstOccsF fuel (ks.filter (fun k2 => !(k2 == k)))

/-- First occurrences of keys, in order (Python `dict.fromkeys` ordering). -/
def firstOccs (l : List Str) : List Str := firstOccsF l.length l

/-! ### The `Paper` data model (`mgmtlit/models.py`) -/

/-- `models.Paper` (the dataclass; `relevance_score` is a rational stand-in for
the Python float). -/
structure Paper where
  source : Str
  paper_id : Str
  title : Str
  authors : List Str
  year : Option Int
  venue : Option Str
  doi : Option Str
  url : Option Str
  abstract : Option Str
  citation_count : Option Int
  fields : List Str
  relevance_score : ℚ
deriving DecidableEq

/-- `Paper.canonical_key`: lowercased/stripped DOI when the `doi` field is
truthy (present and non-empty), else the whitespace-normalized lowercased
title. -/
def canonicalKey (p : Paper) : Str :=
  match p.doi with
  | some d => if d.isEmpty then joinSep [' '] (splitWs (lowerStr p.title))
              else pstrip (lowerStr d)
  | none => joinSep [' '] (splitWs (lowerStr p.title))

/-! ### Dedup engine (`mgmtlit/utils.py`, `dedupe_papers`) -/

/-- Association-list lookup (first match), modelling Python `dict.get`. -/
def lookupA (k : Str) : List (Str × α) → Option α
  | [] => none
  | (k2, v) :: rest => if k2 == k then some v else lookupA k rest

/-- In-place update of the value stored at key `k` (Python `d[k] = v` when the
key is already present: position is preserved). -/
def updateAssoc (k : Str) (v : α) : List (Str × α) → List (Str × α)
  | [] => []
  | (k2, v2) :: rest =>
    if k2 == k then (k2, v) :: rest else (k2, v2) :: updateAssoc k v rest

/-- The `(citation_count or 0, len(abstract or ""))` quality tuple used by
`dedupe_papers`. -/
def scoreOf (p : Paper) : Int × Nat :=
  (p.citation_count.getD 0, (p.abstract.getD []).length)

/-- Python `>` on the quality tuples (lexicographic). `ltTuple a b` means
`b > a`. -/
def ltTuple (a b : Int × Nat) : Bool :=
  a.1 < b.1 || (a.1 == b.1 && a.2 < b.2)

/-- The loop body of `utils.dedupe_papers`, threading the `winners` dict as an
insertion-ordered association list. -/
def dedupeAux : List Paper → List (Str × Paper) → List (Str × Paper)
  | [], acc => acc
  | p :: ps, acc =>
    let k := canonicalKey p
    match lookupA k acc with
    | none => dedupeAux ps (acc ++ [(k, p)])
    | some prev =>
      if ltTuple (scoreOf prev) (scoreOf p) then dedupeAux ps (updateAssoc k p acc)
      else dedupeAux ps acc

/-- `utils.dedupe_papers`: returns `list(winners.values())`. -/
def dedupePapers (ps : List Paper) : List Paper :=
  (dedupeAux ps []).map (·.2)

/-- Group of papers sharing a canonical key (used to state the dedupe merge
policy from the spec). -/
def groupOf (k : Str) (ps : List Paper) : List Paper :=
  ps.filter (fun p => canonicalKey p == k)

/-- First paper attaining the lexicographically greatest quality tuple among
`best :: rest` (ties keep the earlier paper). -/
def pickWinner : Paper → List Paper → Paper
  | best, [] => best
  | best, p :: ps =>
    if ltTuple (scoreOf best) (scoreOf p) then pickWinner p ps else pickWinner best ps

/-- A placeholder paper (only used for the impossible empty-group case of
`winnerOf`). -/
def dummyPaper : Paper :=
  { source := [], paper_id := [], title := [], authors := [], year := none,
    venue := none, doi := none, url := none, abstract := none,
    citation_count := none, fields := [], relevance_score := 0 }

instance : Inhabited Paper := ⟨dummyPaper⟩

/-- The winner of the group of papers with canonical key `k`: the first paper
attaining the lexicographically greatest quality tuple. -/
def winnerOf (k : Str) (ps : List Paper) : Paper :=
  match groupOf k ps with
  | [] => dummyPaper
  | g :: gs => pickWinner g gs

/-- Modelled from the spec: the dedupe contract of spec section 4.1 — group by
canonical key, keep the paper with the lexicographically greatest
`(citation_count or 0, len(abstract or ""))` tuple (first one on ties), and
list winners in first-seen key order. -/
def dedupePapersSpec (ps : List Paper) : List Paper :=
  (firstOccs (ps.map canonicalKey)).map (fun k => winnerOf k ps)

/-! ### Plans and outlines (`mgmtlit/models.py`, `mgmtlit/agents.py`) -/

/-- `models.QueryPlan`. -/
structure QueryPlan where
  topic : Str
  description : Str
  facets : List Str
  subquestions : List Str
  keywords : List Str
deriving DecidableEq

/-- `agents.DomainPlan`. -/
structure DomainPlan where
  index : Nat
  name : Str
  focus : Str
  key_questions : List Str
  search_terms : List Str
deriving DecidableEq

/-- `agents.SynthesisSection`. -/
structure SynthesisSection where
  index : Nat
  heading : Str
  purpose : Str
  word_target : Int
  domain_indices : List Int
deriving DecidableEq

/-- `agents.SynthesisOutline`. -/
structure SynthesisOutline where
  created_on : Str
  total_papers : Nat
  sections : List SynthesisSection
  notes_for_writers : Str
deriving DecidableEq

/-! ### Relevance scoring (`agents._score_paper`) -/

/-- The searchable text of `_score_paper`:
`f"{paper.title} {(paper.abstract or '')} {' '.join(paper.fields)}".lower()`. -/
def scoreText (p : Paper) : Str :=
  lowerStr (p.title ++ [' '] ++ p.abstract.getD [] ++ [' '] ++ joinSep [' '] p.fields)

/-- `keyword_hits` of `_score_paper`. -/
def keywordHits (p : Paper) (plan : QueryPlan) : Nat :=
  countB (fun kw => containsStr (scoreText p) (lowerStr kw)) plan.keywords

/-- `facet_hits` of `_score_paper`. -/
def facetHits (p : Paper) (plan : QueryPlan) : Nat :=
  countB (fun f => (splitWs (lowerStr f)).any (fun t => containsStr (scoreText p) t))
    plan.facets

/-- `domain_hits` of `_score_paper` for a present domain: tokens of
`(name + " " + focus + " " + " ".join(search_terms)).lower().split()`, first
25 only, counted when truthy and contained in the text. -/
def domainTokenHits (p : Paper) (d : DomainPlan) : Nat :=
  let toks := splitWs (lowerStr (d.name ++ [' '] ++ d.focus ++ [' '] ++
    joinSep [' '] d.search_terms))
  countB (fun t => !t.isEmpty && containsStr (scoreText p) t) (toks.take 25)

/-- `agents._score_paper` (floats modelled as rationals; the expression tree
mirrors the source line for line, including the Python truthiness test in
`paper.year and paper.year >= 2018`). -/
def scorePaper (p : Paper) (plan : QueryPlan) (domain : Option DomainPlan) : ℚ :=
  let kh := keywordHits p plan
  let fh := facetHits p plan
  let dh := match domain with
    | none => 0
    | some d => domainTokenHits p d
  let citeScore := min ((p.citation_count.getD 0 : ℚ) / 200) 2
  let recencyBoost : ℚ := match p.year with
    | none => 0
    | some y => if y == 0 then 0 else if 2018 ≤ y then 0.4 else 0
  (kh : ℚ) * 0.9 + (fh : ℚ) * 0.35 + (dh : ℚ) * 0.15 + citeScore + recencyBoost

/-- Modelled from the spec: the scoring formula of spec section 4.1,
`0.9*keyword_hits + 0.35*facet_hits + 0.15*domain_token_hits (if domain
given) + min(citation_count/200, 2.0) + (0.4 if year>=2018 else 0)`, with the
hit counters as the spec defines them (identically to the code's). -/
def scorePaperSpec (p : Paper) (plan : QueryPlan) (domain : Option DomainPlan) : ℚ :=
  (0.9 : ℚ) * (keywordHits p plan : ℚ) + (0.35 : ℚ) * (facetHits p plan : ℚ) +
    (match domain with
     | none => 0
     | some d => (0.15 : ℚ) * (domainTokenHits p d : ℚ)) +
    min ((p.citation_count.getD 0 : ℚ) / 200) 2 +
    (match p.year with
     | none => 0
     | some y => if 2018 ≤ y then (0.4 : ℚ) else 0)

/-! ### Paper sanitation (`agents._sanitize_paper`, `_looks_sane_paper`,
`_clean_text`) -/

/-- Fuelled helper for `countOccs`. -/
def countOccsF (pat : Str) : Nat → Str → Nat
  | 0, _ => if pat.isEmpty then 1 else 0
  | _ + 1, [] => if pat.isEmpty then 1 else 0
  | fuel + 1, c :: cs =>
    if startsWithStr (c :: cs) pat then 1 + countOccsF pat fuel (cs.drop (pat.length - 1))
    else countOccsF pat fuel cs

/-- Non-overlapping occurrence count, Python `str.count`. -/
def countOccs (pat s : Str) : Nat := countOccsF pat s.length s

/-- The catalog-dump markers of `_looks_sane_paper`. -/
def badMarkers : List Str :=
  ["download pdf", "view description", "creative commons license",
   "article:", "volume", "issue"].map String.toList

/-- `agents._looks_sane_paper`. -/
def looksSanePaper (p : Paper) : Bool :=
  let title := lowerStr p.title
  if title.length < 8 then false
  else if 260 < title.length then false
  else if 3 ≤ countB (fun m => containsStr title m) badMarkers then false
  else if 1 < countOccs ("http".toList) title then false
  else true

/-! ### LLM JSON responses and the planner parsing core
(`agents.PlannerAgent.run`, `agents.SynthesisPlannerAgent.run`,
`agents._as_string_list`, `_parse_domains`, `_parse_sections`,
`_fallback_query_plan`, `_fallback_domains`) -/

/-- Values of a parsed JSON document, as handed back by `LLMBackend.ask_json`
(numbers restricted to integers, which is all the parsing code consumes). -/
inductive JVal where
  | jnull : JVal
  | jbool : Bool → JVal
  | jnum : Int → JVal
  | jstr : Str → JVal
  | jarr : List JVal → JVal
  | jobj : List (Str × JVal) → JVal

/-- Python truthiness of a parsed JSON value. -/
def truthyJ : JVal → Bool
  | .jnull => false
  | .jbool b => b
  | .jnum n => !(n == 0)
  | .jstr s => !s.isEmpty
  | .jarr xs => !xs.isEmpty
  | .jobj fs => !fs.isEmpty

/-- Python `x or y`. -/
def jOr (x y : JVal) : JVal := if truthyJ x then x else y

/-- Python `dict.get(k)` (missing key gives `None`). -/
def getJ (fs : List (Str × JVal)) (k : Str) : JVal :=
  match lookupA k fs with
  | some v => v
  | none => .jnull

/-- Python `dict.get(k, d)`. -/
def getJD (fs : List (Str × JVal)) (k : Str) (d : JVal) : JVal :=
  match lookupA k fs with
  | some v => v
  | none => d

/-- Fuelled digit accumulator for `natStr` (fuel `n` always suffices). -/
def natStrF : Nat → Nat → Str → Str
  | 0, n, acc => Nat.digitChar n :: acc
  | fuel + 1, n, acc =>
    if n < 10 then Nat.digitChar n :: acc
    else natStrF fuel (n / 10) (Nat.digitChar (n % 10) :: acc)

/-- Python `str(n)` for a natural number. -/
def natStr (n : Nat) : Str := natStrF n n []

/-- Python `str(n)` for an integer. -/
def intStr (n : Int) : Str :=
  if n < 0 then '-' :: natStr n.natAbs else natStr n.toNat

mutual

/-- Python `str(x)` on a parsed JSON value. Container cases render via the
`repr` of the parsed Python object (quoting simplified: no escaping inside
strings, which the pipeline never relies on). -/
def pyStr : JVal → Str
  | .jnull => "None".toList
  | .jbool true => "True".toList
  | .jbool false => "False".toList
  | .jnum n => intStr n
  | .jstr s => s
  | .jarr xs => '[' :: pyReprSeq xs ++ [']']
  | .jobj fs => '\x7b' :: pyReprObj fs ++ ['\x7d']

/-- Python `repr(x)` on a parsed JSON value (strings quoted). -/
def pyRepr : JVal → Str
  | .jstr s => '\x27' :: s ++ ['\x27']
  | v => pyStrAsRepr v

/-- Helper sharing the non-string cases between `pyStr` and `pyRepr`. -/
def pyStrAsRepr : JVal → Str
  | .jnull => "None".toList
  | .jbool true => "True".toList
  | .jbool false => "False".toList
  | .jnum n => intStr n
  | .jstr s => s
  | .jarr xs => '[' :: pyReprSeq xs ++ [']']
  | .jobj fs => '\x7b' :: pyReprObj fs ++ ['\x7d']

/-- Comma-joined `repr`s of list elements. -/
def pyReprSeq : List JVal → Str
  | [] => []
  | [x] => pyRepr x
  | x :: y :: rest => pyRepr x ++ ", ".toList ++ pyReprSeq (y :: rest)

/-- Comma-joined `repr`s of dict items. -/
def pyReprObj : List (Str × JVal) → Str
  | [] => []
  | [(k, v)] => '\x27' :: k ++ "\x27: ".toList ++ pyRepr v
  | (k, v) :: e :: rest =>
    '\x27' :: k ++ "\x27: ".toList ++ pyRepr v ++ ", ".toList ++ pyReprObj (e :: rest)

end

/-- `agents._as_string_list`. -/
def asStringList : JVal → List Str
  | .jarr xs => xs.filterMap (fun v =>
      match v with
      | .jstr s => let t := pstrip s; if t.isEmpty then none else some t
      | _ => none)
  | _ => []

/-- Python `enumerate(xs, start=n)`. -/
def enumF (n : Nat) : List α → List (Nat × α)
  | [] => []
  | x :: xs => (n, x) :: enumF (n + 1) xs

/-- Digits-only string to number (helper for Python `int(str)`). -/
def digitsToNat (ds : Str) : Option Nat :=
  if ds.isEmpty then none
  else if ds.all Char.isDigit then
    some (ds.foldl (fun acc c => acc * 10 + (c.toNat - '0'.toNat)) 0)
  else none

/-- Python `int(s)` on a string: strip, optional sign, decimal digits. -/
def parseIntStr (s : Str) : Option Int :=
  match pstrip s with
  | '-' :: ds => (digitsToNat ds).map (fun n => -(n : Int))
  | '+' :: ds => (digitsToNat ds).map (fun n => (n : Int))
  | ds => (digitsToNat ds).map (fun n => (n : Int))

/-- Python `int(x)` on a parsed JSON value (`None`/lists/dicts raise, which the
caller turns into the 600 default; `bool` is an `int` subclass). -/
def pyInt : JVal → Option Int
  | .jnum n => some n
  | .jbool b => some (if b then 1 else 0)
  | .jstr s => parseIntStr s
  | _ => none

/-- `agents._parse_domains`. -/
def parseDomains : JVal → List DomainPlan
  | .jarr xs =>
    ((enumF 1 xs).filterMap (fun iv =>
      match iv.2 with
      | .jobj fs =>
        let name := pstrip (pyStr (jOr (getJ fs ("name".toList)) (.jstr [])))
        if name.isEmpty then none
        else
          let focus0 := pstrip (pyStr (jOr (getJ fs ("focus".toList)) (.jstr [])))
          some { index := iv.1
                 name := name
                 focus := if focus0.isEmpty then
                     "Literature domain for ".toList ++ name
                   else focus0
                 key_questions := (asStringList (getJ fs ("key_questions".toList))).take 4
                 search_terms := (asStringList (getJ fs ("search_terms".toList))).take 10 }
      | _ => none)).take 8
  | _ => []

/-- Markdown level-2 heading marker `"## "`. -/
def h2Mark : Str := ['#', '#', ' ']

/-- Markdown level-3 heading marker `"### "`. -/
def h3Mark : Str := ['#', '#', '#', ' ']

/-- `agents._parse_sections`. -/
def parseSections (v : JVal) (numDomains : Nat) : List SynthesisSection :=
  match v with
  | .jarr xs =>
    ((enumF 1 xs).filterMap (fun iv =>
      match iv.2 with
      | .jobj fs =>
        let heading0 := pstrip (pyStr (jOr (getJ fs ("heading".toList)) (.jstr [])))
        let heading1 := if heading0.isEmpty then
            "## Section ".toList ++ natStr iv.1
          else heading0
        let heading := if startsWithStr heading1 h2Mark then heading1
          else h2Mark ++ pstrip (heading1.dropWhile (fun c => c == '#'))
        let purpose0 := pstrip (pyStr (jOr (getJ fs ("purpose".toList)) (.jstr [])))
        let wt := (pyInt (getJD fs ("word_target".toList) (.jnum 600))).getD 600
        let mapped := match getJ fs ("domain_indices".toList) with
          | .jarr ys => ys.filterMap (fun y =>
              match y with
              | .jnum n => if 1 ≤ n && n ≤ (numDomains : Int) then some n else none
              | .jbool b =>
                let n : Int := if b then 1 else 0
                if 1 ≤ n && n ≤ (numDomains : Int) then some n else none
              | _ => none)
          | _ => []
        some { index := iv.1
               heading := heading
               purpose := if purpose0.isEmpty then
                   "Synthesize key debates and implications.".toList
                 else purpose0
               word_target := max 250 (min wt 1800)
               domain_indices := mapped }
      | _ => none)).take 8
  | _ => []

/-- `agents.DEFAULT_BUSINESS_TERMS`. -/
def defaultBusinessTerms : List Str :=
  ["management", "organization theory", "information systems",
   "digital transformation", "platform ecosystem", "innovation", "strategy",
   "dynamic capabilities", "institutional theory", "routines",
   "organizational learning", "governance", "leadership", "labor process",
   "algorithmic management"].map String.toList

/-- `agents._fallback_query_plan`. -/
def fallbackQueryPlan (topic description : Str) (seedTerms : List Str) : QueryPlan :=
  { topic := topic
    description := description
    facets :=
      ["Core construct definitions", "Theoretical mechanisms and contingencies",
       "Outcomes and performance effects", "Boundary conditions and contexts",
       "Methods and measurement patterns",
       "Managerial and policy implications"].map String.toList
    subquestions :=
      ("How is \x27".toList ++ topic ++
        "\x27 conceptualized across management and IS research?".toList) ::
      (["What dominant theoretical lenses explain observed relationships?",
        "What outcomes are most consistently associated with the focal construct?",
        "Which contexts and boundary conditions moderate effects?",
        "What methodological limitations and identification challenges persist?",
        "What unresolved debates suggest opportunities for future studies?"].map
          String.toList)
    keywords := firstOccs ((seedTerms ++ splitWs (lowerStr topic)).take 35) }

/-- `agents._fallback_domains`. -/
def fallbackDomains (plan : QueryPlan) : List DomainPlan :=
  (enumF 1 (plan.facets.take 6)).map (fun p =>
    { index := p.1
      name := p.2
      focus := "Management literature centered on ".toList ++ lowerStr p.2 ++
        " for topic \x27".toList ++ plan.topic ++ "\x27.".toList
      key_questions :=
        ["What does research report about ".toList ++ lowerStr p.2 ++ "?".toList,
         "How does ".toList ++ lowerStr p.2 ++ " shape findings on ".toList ++
           plan.topic ++ "?".toList]
      search_terms :=
        let sl := (plan.keywords.drop ((p.1 - 1) * 4)).take (p.1 * 4 - (p.1 - 1) * 4)
        if sl.isEmpty then plan.keywords.take 4 else sl })

/-- The parsing core of `agents.PlannerAgent.run` on a successful backend
response (the `QueryPlan(...)` construction and the
`parsed_domains or fallback_domains` choice). -/
def plannerParse (resp : List (Str × JVal)) (topic description : Str)
    (fallbackPlan : QueryPlan) (fallbackDoms : List DomainPlan) :
    QueryPlan × List DomainPlan :=
  let facets := asStringList (getJ resp ("facets".toList))
  let subqs := asStringList (getJ resp ("subquestions".toList))
  let keywords := asStringList (getJ resp ("keywords".toList))
  let plan : QueryPlan :=
    { topic := topic
      description := description
      facets := if facets.isEmpty then fallbackPlan.facets else facets
      subquestions := if subqs.isEmpty then fallbackPlan.subquestions else subqs
      keywords := if keywords.isEmpty then fallbackPlan.keywords else keywords }
  let parsedDomains := parseDomains (getJ resp ("domains".toList))
  (plan, if parsedDomains.isEmpty then fallbackDoms else parsedDomains)

/-- The parsing core of `agents.SynthesisPlannerAgent.run` on a successful
backend response (`date.today().isoformat()` and `len(state.papers)` passed in
as `createdOn` / `totalPapers`). -/
def synthesisParse (resp : List (Str × JVal)) (numDomains : Nat)
    (createdOn : Str) (totalPapers : Nat) (fallback : SynthesisOutline) :
    SynthesisOutline :=
  let sections := parseSections (getJ resp ("sections".toList)) numDomains
  let notes := pstrip (pyStr (jOr (getJ resp ("notes_for_writers".toList)) (.jstr [])))
  if sections.isEmpty then fallback
  else
    { created_on := createdOn
      total_papers := totalPapers
      sections := sections
      notes_for_writers := if notes.isEmpty then fallback.notes_for_writers else notes }

/-! ### BibTeX merge (`postprocess.dedupe_bib` and helpers) -/

/-- The opening brace character. -/
def lbrace : Char := '\x7b'

/-- The closing brace character. -/
def rbrace : Char := '\x7d'

/-- Case-insensitive literal match: consume `pat` (given lowercased) from the
front of the input, as under `re.IGNORECASE`. -/
def dropCI : Str → Str → Option Str
  | [], s => some s
  | _ :: _, [] => none
  | p :: ps, c :: cs => if c.toLower == p then dropCI ps cs else none

/-- Attempt, at the current position, the regex
`NAME\s*=\s*\{([^}]...)\}` used by `_extract_doi` / `_has_abstract` /
`_importance` (with `NAME` matched case-insensitively; `needNonempty` selects
`[^}]+` versus `[^}]*`). Returns the captured group. -/
def tryFieldHere (fname : Str) (needNonempty : Bool) (s : Str) : Option Str :=
  (dropCI fname s).bind fun r1 =>
    match r1.dropWhile isPySpace with
    | '=' :: r3 =>
      let r4 := r3.dropWhile isPySpace
      match r4 with
      | c :: r5 =>
        if c == lbrace then
          let content := r5.takeWhile (fun d => !(d == rbrace))
          match r5.dropWhile (fun d => !(d == rbrace)) with
          | _ :: _ => if needNonempty && content.isEmpty then none else some content
          | [] => none
        else none
      | [] => none
    | _ => none

/-- Leftmost `re.search` for the field pattern of `tryFieldHere`. -/
def searchField (fname : Str) (needNonempty : Bool) : Str → Option Str
  | [] => none
  | c :: cs =>
    match tryFieldHere fname needNonempty (c :: cs) with
    | some v => some v
    | none => searchField fname needNonempty cs

/-- The URL prefixes stripped from DOI values (`_extract_doi`,
`_normalize_doi_value`). -/
def stripDoiPfx (d : Str) : Str :=
  let p1 := "https://doi.org/".toList
  let p2 := "http://doi.org/".toList
  let p3 := "https://dx.doi.org/".toList
  let p4 := "http://dx.doi.org/".toList
  if startsWithStr d p1 then d.drop p1.length
  else if startsWithStr d p2 then d.drop p2.length
  else if startsWithStr d p3 then d.drop p3.length
  else if startsWithStr d p4 then d.drop p4.length
  else d

/-- `postprocess._extract_doi`. -/
def extractDoi (entry : Str) : Option Str :=
  (searchField ("doi".toList) true entry).map (fun g =>
    stripDoiPfx (lowerStr (pstrip g)))

/-- `postprocess._has_abstract`. -/
def hasAbstract (entry : Str) : Bool :=
  match searchField ("abstract".toList) false entry with
  | some g => 10 < (pstrip g).length
  | none => false

/-- `postprocess._importance`. -/
def importance (entry : Str) : Nat :=
  match searchField ("keywords".toList) false entry with
  | none => 1
  | some v =>
    if containsStr v ("High".toList) then 3
    else if containsStr v ("Medium".toList) then 2
    else 1

/-- `postprocess._merge_entry`. -/
def mergeEntry (existing incoming : Str) : Str :=
  let exA := hasAbstract existing
  let inA := hasAbstract incoming
  if exA != inA then (if inA then incoming else existing)
  else if importance existing < importance incoming then incoming
  else existing

/-- Helper for `splitBibChunks`; the accumulator holds the current chunk
reversed. -/
def sbAux : Str → Str → List Str
  | [], cur => [cur.reverse]
  | c :: cs, cur =>
    match cs with
    | '@' :: _ =>
      if c == '\n' then cur.reverse :: sbAux cs [] else sbAux cs (c :: cur)
    | _ => sbAux cs (c :: cur)

/-- The chunking `re.split(r"\n(?=@)", content)` of `dedupe_bib` and
`_parse_bib_entries`. -/
def splitBibChunks (s : Str) : List Str := sbAux s []

/-- Word characters of the regex `\w` (ASCII). -/
def isWordChar (c : Char) : Bool := c.isAlphanum || c == '_'

/-- The entry-header regex `@(\w+)\{([^,]+),` (via `re.match`): returns the
raw type group and the stripped key. -/
def parseEntryHeader (text : Str) : Option (Str × Str) :=
  match text with
  | '@' :: rest =>
    let w := rest.takeWhile isWordChar
    if w.isEmpty then none
    else
      match rest.dropWhile isWordChar with
      | c :: r2 =>
        if c == lbrace then
          let k := r2.takeWhile (fun d => !(d == ','))
          if k.isEmpty then none
          else
            match r2.dropWhile (fun d => !(d == ',')) with
            | ',' :: _ => some (w, pstrip k)
            | _ => none
        else none
      | [] => none
  | _ => none

/-- The mutable state of the `dedupe_bib` loop. -/
structure BibState where
  seen : List (Str × Str)
  byDoi : List (Str × Str)
  comments : List Str
  dups : List Str
deriving DecidableEq

/-- The initial `dedupe_bib` state. -/
def bibInit : BibState := ⟨[], [], [], []⟩

/-- The body of the inner chunk loop of `postprocess.dedupe_bib`. -/
def bibStep (st : BibState) (chunk : Str) : BibState :=
  let text := pstrip chunk
  if text.isEmpty then st
  else if startsWithStr (lowerStr text) ("@comment".toList) then
    { st with comments := st.comments ++ [text] }
  else
    match parseEntryHeader text with
    | none => st
    | some kw =>
      let key := kw.2
      let doi := extractDoi text
      match lookupA key st.seen with
      | some prev =>
        { st with dups := st.dups ++ [key]
                  seen := updateAssoc key (mergeEntry prev text) st.seen }
      | none =>
        match doi with
        | some d =>
          if d.isEmpty then { st with seen := st.seen ++ [(key, text)] }
          else
            match lookupA d st.byDoi with
            | some winnerKey =>
              match lookupA winnerKey st.seen with
              | some wprev =>
                { st with dups := st.dups ++ [key]
                          seen := updateAssoc winnerKey (mergeEntry wprev text) st.seen }
              | none => st
            | none =>
              { st with seen := st.seen ++ [(key, text)]
                        byDoi := st.byDoi ++ [(d, key)] }
        | none => { st with seen := st.seen ++ [(key, text)] }

/-- `dedupe_bib`'s loop over all chunks of all input files. -/
def dedupeBibChunks (chunks : List Str) : BibState := chunks.foldl bibStep bibInit

/-- The output text written by `dedupe_bib`. -/
def bibRender (st : BibState) : Str :=
  let chunks := st.comments.map rstrip ++ st.seen.map (fun kv => rstrip kv.2)
  pstrip (joinSep ("\n\n".toList) chunks) ++ (if chunks.isEmpty then [] else ['\n'])

/-- `postprocess.dedupe_bib` as a pure function of the input file contents:
returns the merged text and the duplicate-key list. -/
def dedupeBibTexts (files : List Str) : Str × List Str :=
  let st := dedupeBibChunks ((files.map splitBibChunks).flatten)
  (bibRender st, st.dups)

/-! ### APA reference generation (`postprocess.generate_bibliography_apa`
and helpers) -/

/-- A parsed BibTeX entry (`_parse_bib_entries` output dict). -/
structure BibEntry where
  etype : Str
  key : Str
  fields : List (Str × Str)
deriving DecidableEq

/-- Python `dict` insert-or-overwrite (`fields[name] = value`). -/
def putAssoc (k : Str) (v : α) (l : List (Str × α)) : List (Str × α) :=
  if (lookupA k l).isSome then updateAssoc k v l else l ++ [(k, v)]

/-- Python `dict.get(k, "")` on a string-valued dict. -/
def getF (fields : List (Str × Str)) (k : Str) : Str :=
  match lookupA k fields with
  | some v => v
  | none => []

/-- Fuelled parser for the captured group `((?:[^{}]|\{[^{}]*\})*)` followed
by the closing `\}`; the accumulator holds the reversed content so far.
Returns the content and the rest of the input. -/
def braceValF : Nat → Str → Str → Option (Str × Str)
  | 0, _, _ => none
  | _ + 1, [], _ => none
  | fuel + 1, c :: cs, acc =>
    if c == rbrace then some (acc.reverse, cs)
    else if c == lbrace then
      let inner := cs.takeWhile (fun d => !(d == lbrace || d == rbrace))
      match cs.dropWhile (fun d => !(d == lbrace || d == rbrace)) with
      | d :: r2 =>
        if d == rbrace then braceValF fuel r2 (rbrace :: (inner.reverse ++ (lbrace :: acc)))
        else none
      | [] => none
    else braceValF fuel cs (c :: acc)

/-- Parse the captured value group of the field regex, starting after the
opening brace. -/
def braceVal (s acc : Str) : Option (Str × Str) := braceValF s.length s acc

/-- Attempt, at the current position, the field regex of `_parse_bib_entries`:
`(\w+)\s*=\s*\{((?:[^{}]|\{[^{}]*\})*)\}`. Returns name, raw value and the
rest of the input after the match. -/
def tryKVHere (s : Str) : Option (Str × Str × Str) :=
  let w := s.takeWhile isWordChar
  if w.isEmpty then none
  else
    match (s.dropWhile isWordChar).dropWhile isPySpace with
    | '=' :: r2 =>
      match r2.dropWhile isPySpace with
      | c :: r4 =>
        if c == lbrace then (braceVal r4 []).map (fun pr => (w, pr.1, pr.2))
        else none
      | [] => none
    | _ => none

/-- Fuelled scan implementing `re.finditer` for the field regex (leftmost,
non-overlapping; the fuel only bounds the number of scan steps, each of which
consumes at least one character, so `length + 1` fuel is always enough). -/
def scanFieldsF : Nat → Str → List (Str × Str)
  | 0, _ => []
  | _ + 1, [] => []
  | fuel + 1, c :: cs =>
    match tryKVHere (c :: cs) with
    | some (n, v, rest) => (n, v) :: scanFieldsF fuel rest
    | none => scanFieldsF fuel cs

/-- All field-regex matches of an entry text, in order. -/
def scanFields (s : Str) : List (Str × Str) := scanFieldsF (s.length + 1) s

/-- The field dict built by `_parse_bib_entries`:
`fields[name.lower()] = value.strip()`. -/
def fieldsOf (text : Str) : List (Str × Str) :=
  (scanFields text).foldl (fun fs nv => putAssoc (lowerStr nv.1) (pstrip nv.2) fs) []

/-- `postprocess._parse_bib_entries`. -/
def parseBibEntries (content : Str) : List BibEntry :=
  (splitBibChunks content).filterMap (fun chunk =>
    let text := pstrip chunk
    if text.isEmpty then none
    else if startsWithStr (lowerStr text) ("@comment".toList) then none
    else
      match parseEntryHeader text with
      | none => none
      | some kw => some { etype := lowerStr kw.1, key := kw.2, fields := fieldsOf text })

/-- `postprocess._normalize_text`:
`unicodedata.normalize("NFKD", s).encode("ascii", "ignore")`. The model keeps
ASCII characters and drops the rest; NFKD decomposition of non-ASCII
characters is not modelled (the embedding is exact on ASCII input). -/
def normalizeTextAscii (s : Str) : Str := s.filter (fun c => c.toNat < 128)

/-- Fuelled splitter on a multi-character separator, Python `str.split(sep)`
(keeps empty fields; `sep` non-empty at every call site). -/
def splitSubF (sep : Str) : Nat → Str → Str → List Str
  | 0, _, cur => [cur.reverse]
  | _ + 1, [], cur => [cur.reverse]
  | fuel + 1, c :: cs, cur =>
    if startsWithStr (c :: cs) sep then
      cur.reverse :: splitSubF sep fuel (cs.drop (sep.length - 1)) []
    else splitSubF sep fuel cs (c :: cur)

/-- Python `s.split(sep)` for non-empty `sep`. -/
def splitSub (sep s : Str) : List Str := splitSubF sep s.length s []

/-- `postprocess._first_author_surname`. -/
def firstAuthorSurname (authorField : Str) : Str :=
  let first := pstrip ((splitSub (" and ".toList) authorField).headD [])
  if first.contains ',' then pstrip (first.takeWhile (fun c => !(c == ',')))
  else
    match (splitWs first).reverse with
    | p :: _ => p
    | [] => []

/-- Is character `i` of `text` a word character (`false` out of range)? -/
def wordAt (text : Str) (i : Nat) : Bool :=
  match text.drop i with
  | c :: _ => isWordChar c
  | [] => false

/-- The regex `\b` at position `i` of `text`. -/
def wordBoundary (text : Str) (i : Nat) : Bool :=
  (if i == 0 then false else wordAt text (i - 1)) != wordAt text i

/-- Case-insensitive prefix match (the `re.IGNORECASE` surname literal). -/
def startsWithCI : Str → Str → Bool
  | _, [] => true
  | [], _ :: _ => false
  | c :: cs, p :: ps => c.toLower == p.toLower && startsWithCI cs ps

/-- The citation test of `_find_cited_entries`: some whole-word
case-insensitive occurrence of `surname` in `text` has the `year` string
within the 60-character window on either side. -/
def hasCitationHit (text surname year : Str) : Bool :=
  (List.range (text.length + 1)).any (fun i =>
    startsWithCI (text.drop i) surname &&
    wordBoundary text i && wordBoundary text (i + surname.length) &&
    containsStr
      ((text.drop (i - 60)).take (min text.length (i + surname.length + 60) - (i - 60)))
      year)

/-- The per-entry filtering loop of `_find_cited_entries` (before sorting);
`seenDoi` is the DOI dedup set. -/
def fceAux (text : Str) : List BibEntry → List Str → List BibEntry
  | [], _ => []
  | e :: es, seenDoi =>
    let author := pstrip (getF e.fields ("author".toList))
    let year := pstrip (getF e.fields ("year".toList))
    if author.isEmpty || year.isEmpty then fceAux text es seenDoi
    else
      let surname := firstAuthorSurname author
      if surname.isEmpty then fceAux text es seenDoi
      else if hasCitationHit text (normalizeTextAscii surname) year then
        let doi := lowerStr (pstrip (getF e.fields ("doi".toList)))
        if doi.isEmpty then e :: fceAux text es seenDoi
        else
          let d := stripDoiPfx doi
          if seenDoi.contains d then fceAux text es seenDoi
          else e :: fceAux text es (seenDoi ++ [d])
      else fceAux text es seenDoi

/-- Code-point lexicographic order on strings (Python `<` on `str`). -/
def lexLtStr : Str → Str → Bool
  | [], [] => false
  | [], _ :: _ => true
  | _ :: _, [] => false
  | a :: l1, b :: l2 =>
    if a.toNat < b.toNat then true
    else if b.toNat < a.toNat then false
    else lexLtStr l1 l2

/-- Python `<=` on `(str, str)` sort keys. -/
def pairLeKey (a b : Str × Str) : Bool :=
  lexLtStr a.1 b.1 || (a.1 == b.1 && (lexLtStr a.2 b.2 || a.2 == b.2))

/-- Stable insert for insertion sort (places `a` before the first element it
is `le`-related to). -/
def ordIns (le : α → α → Bool) (a : α) : List α → List α
  | [] => [a]
  | b :: l => if le a b then a :: b :: l else b :: ordIns le a l

/-- Stable insertion sort; with a non-strict `le` this matches Python
`list.sort` (stable, ascending). -/
def stableSortBy (le : α → α → Bool) : List α → List α
  | [] => []
  | a :: l => ordIns le a (stableSortBy le l)

/-- The sort key of `_find_cited_entries`:
`(_first_author_surname(...).lower(), str(fields.get("year", "")))`. -/
def citedSortKey (e : BibEntry) : Str × Str :=
  (lowerStr (firstAuthorSurname (getF e.fields ("author".toList))),
   getF e.fields ("year".toList))

/-- `postprocess._find_cited_entries`. -/
def findCitedEntries (reviewText : Str) (entries : List BibEntry) : List BibEntry :=
  stableSortBy (fun a b => pairLeKey (citedSortKey a) (citedSortKey b))
    (fceAux (normalizeTextAscii reviewText) entries [])

/-- `postprocess._clean_ws`. -/
def cleanWs (s : Str) : Str := joinSep [' '] (splitWs s)

/-- `postprocess._format_single_author_apa`. -/
def formatSingleAuthorApa (author : Str) : Str :=
  let lastAndInit : Str × List Str :=
    if author.contains ',' then
      (pstrip (author.takeWhile (fun c => !(c == ','))),
       splitWs (pstrip ((author.dropWhile (fun c => !(c == ','))).drop 1)))
    else
      match (splitWs author).reverse with
      | [] => ([], [])
      | p :: rest => (p, rest.reverse)
  if !author.contains ',' && (splitWs author).isEmpty then "Unknown".toList
  else
    let initials := joinSep [' '] (lastAndInit.2.filterMap (fun p =>
      match p with
      | c :: _ => if c.isAlpha then some [c, '.'] else none
      | [] => none))
    if initials.isEmpty then lastAndInit.1
    else lastAndInit.1 ++ ", ".toList ++ initials

/-- `postprocess._format_authors_apa`. -/
def formatAuthorsApa (authorField : Str) : Str :=
  let authors := ((splitSub (" and ".toList) authorField).map pstrip).filter
    (fun a => !a.isEmpty)
  let formatted := authors.map formatSingleAuthorApa
  match formatted with
  | [] => "Unknown".toList
  | [a] => a
  | [a, b] => a ++ ", & ".toList ++ b
  | l => joinSep (", ".toList) l.dropLast ++ ", & ".toList ++ l.getLastD []

/-- Python `str.rstrip(".")`. -/
def rstripDots (s : Str) : Str := (s.reverse.dropWhile (fun c => c == '.')).reverse

/-- Python `str.rstrip("\n")`. -/
def rstripNl (s : Str) : Str := (s.reverse.dropWhile (fun c => c == '\n')).reverse

/-- `postprocess._normalize_doi_or_url`. -/
def normalizeDoiOrUrl (doi url : Str) : Str :=
  let d := pstrip doi
  let u := pstrip url
  if !d.isEmpty then "https://doi.org/".toList ++ stripDoiPfx d else u

/-- The per-entry reference line of `_render_references_apa`. -/
def refLineApa (e : BibEntry) : Str :=
  let f := e.fields
  let authorText := formatAuthorsApa (getF f ("author".toList))
  let year := let y := pstrip (getF f ("year".toList))
              if y.isEmpty then "n.d.".toList else y
  let title := cleanWs (rstripDots (getF f ("title".toList)))
  let journal := cleanWs (
    let j0 := getF f ("journal".toList)
    let j1 := if j0.isEmpty then getF f ("booktitle".toList) else j0
    if j1.isEmpty then getF f ("publisher".toList) else j1)
  let volume := cleanWs (getF f ("volume".toList))
  let number := cleanWs (
    let n0 := getF f ("number".toList)
    if n0.isEmpty then getF f ("issue".toList) else n0)
  let pages := cleanWs (getF f ("pages".toList))
  let doi := normalizeDoiOrUrl (pstrip (getF f ("doi".toList)))
    (pstrip (getF f ("url".toList)))
  let head := authorText ++ " (".toList ++ year ++ "). ".toList ++ title ++ ".".toList
  let journalPart :=
    if journal.isEmpty then []
    else
      journal ++
      (if volume.isEmpty then [] else ", ".toList ++ volume) ++
      (if number.isEmpty then [] else "(".toList ++ number ++ ")".toList) ++
      (if pages.isEmpty then [] else ", ".toList ++ pages) ++ ".".toList
  let parts := [head] ++ (if journalPart.isEmpty then [] else [journalPart]) ++
    (if doi.isEmpty then [] else [doi])
  pstrip (joinSep [' '] (parts.filter (fun p => !p.isEmpty)))

/-- `postprocess._render_references_apa`. -/
def renderReferencesApa (entries : List BibEntry) : Str :=
  let lines := ["## References".toList, []] ++
    (entries.map (fun e => [refLineApa e, []])).flatten
  rstripNl (joinSep ['\n'] lines)

/-- Does this position of `text` start a line matching
`^## References\s*$` (`re.MULTILINE`)? -/
def refsLineHere (rem : Str) : Bool :=
  startsWithStr rem ("## References".toList) &&
    ((rem.drop 13).takeWhile (fun c => !(c == '\n'))).all (fun c => isPySpace c)

/-- Index of the first line-start matching `^## References\s*$` in the text
(the `m.start()` of `_apply_references_section`). -/
def frhAux : Str → Nat → Bool → Option Nat
  | [], _, _ => none
  | c :: cs, idx, atStart =>
    if atStart && refsLineHere (c :: cs) then some idx
    else frhAux cs (idx + 1) (c == '\n')

/-- `postprocess._apply_references_section`. -/
def applyReferencesSection (reviewText refs : Str) : Str :=
  match frhAux reviewText 0 true with
  | some idx => rstrip (reviewText.take idx) ++ "\n\n".toList ++ refs ++ ['\n']
  | none => rstrip reviewText ++ "\n\n".toList ++ refs ++ ['\n']

/-- `postprocess.generate_bibliography_apa` as a pure function of the review
text and the bibliography text: returns the updated review and the
`(matched, total)` statistics. -/
def generateBibliographyApa (reviewText bibText : Str) : Str × Nat × Nat :=
  let entries := parseBibEntries bibText
  let cited := findCitedEntries reviewText entries
  let refs := renderReferencesApa cited
  (applyReferencesSection reviewText refs, cited.length, entries.length)

/-! ### Heading normalization (`postprocess.normalize_headings` and helpers) -/

/-- The em-dash character `—`. -/
def emDash : Char := Char.ofNat 8212

/-- Fuelled scanner for `normEmDash`. -/
def normEmDashF : Nat → Str → Str
  | 0, _ => []
  | _ + 1, [] => []
  | fuel + 1, c :: cs =>
    match (c :: cs).dropWhile isPySpace with
    | d :: tl =>
      if d == emDash then ':' :: ' ' :: normEmDashF fuel (tl.dropWhile isPySpace)
      else c :: normEmDashF fuel cs
    | [] => c :: normEmDashF fuel cs

/-- `postprocess._normalize_em_dash`: `re.sub(r"\s*—\s*", ": ", text)`. -/
def normEmDash (s : Str) : Str := normEmDashF s.length s

/-- The `\d{1,2}\s*:\s*(.*)` tail of `RE_SECTION_PREFIX` (the two-digit cap is
the regex's `\d{1,2}` with its required following `:`). -/
def takeDigitsColon (s : Str) : Option Str :=
  let ds := s.takeWhile Char.isDigit
  if ds.isEmpty || 2 < ds.length then none
  else
    match (s.dropWhile Char.isDigit).dropWhile isPySpace with
    | ':' :: rest => some (rest.dropWhile isPySpace)
    | _ => none

/-- The regex `RE_SECTION_PREFIX = ^(?:Section\s+\d{1,2}\s*:\s*)(.*)` with
`re.IGNORECASE`, returning the captured group. -/
def parseSecLabel (s : Str) : Option Str :=
  (dropCI ("section".toList) s).bind fun r1 =>
    match r1 with
    | c :: cs => if isPySpace c then takeDigitsColon (cs.dropWhile isPySpace) else none
    | [] => none

/-- `postprocess._strip_section_prefix`. -/
def stripSecLabel (title : Str) : Str :=
  match parseSecLabel title with
  | some rest => pstrip rest
  | none => title

/-- The regex `RE_SUBSECTION_PREFIX =
^(?:Subsection\s+)?\d{1,2}\.\d{1,2}\s*:?\s*(.*)` with `re.IGNORECASE`,
returning the captured group. -/
def parseSubLabel (s : Str) : Option Str :=
  let base := match dropCI ("subsection".toList) s with
    | some (c :: cs) => if isPySpace c then cs.dropWhile isPySpace else s
    | some [] => s
    | none => s
  let d1 := base.takeWhile Char.isDigit
  if d1.isEmpty || 2 < d1.length then none
  else
    match base.dropWhile Char.isDigit with
    | '.' :: r2 =>
      let d2 := r2.takeWhile Char.isDigit
      if d2.isEmpty then none
      else
        let r3 := r2.drop (min 2 d2.length)
        let r4 := r3.dropWhile isPySpace
        let r5 := match r4 with
          | ':' :: t => t
          | _ => r4
        some (r5.dropWhile isPySpace)
    | _ => none

/-- `postprocess._strip_subsection_prefix`. -/
def stripSubLabel (title : Str) : Str :=
  match parseSubLabel title with
  | some rest => pstrip rest
  | none => title

/-- The title computed for a level-2 heading line:
`_normalize_em_dash(_strip_section_prefix(raw[3:].strip()))`. -/
def computeTitle (raw : Str) : Str := normEmDash (stripSecLabel (pstrip (raw.drop 3)))

/-- The title computed for a level-3 heading line:
`_normalize_em_dash(_strip_subsection_prefix(raw[4:].strip()))`. -/
def computeSubTitle (raw : Str) : Str := normEmDash (stripSubLabel (pstrip (raw.drop 4)))

/-- `postprocess.INTRO_PATTERNS`. -/
def introPatterns : List Str :=
  ["introduction", "preamble", "overview", "background"].map String.toList

/-- `postprocess.CONCLUSION_PATTERNS`. -/
def conclusionPatterns : List Str :=
  ["conclusion", "summary", "closing remarks", "final remarks",
   "concluding remarks"].map String.toList

/-- `postprocess.EXCLUDED_HEADINGS`. -/
def excludedHeadings : List Str := ["references", "bibliography"].map String.toList

/-- The classification of a level-2 heading in `normalize_headings`. -/
inductive HKind where
  | body | intro | concl | excluded
deriving DecidableEq

/-- The `kind` computation of `normalize_headings` (checks, in source order:
excluded; first-position intro synonym; last-position conclusion synonym;
otherwise body). -/
def headKind (total pos : Nat) (title : Str) : HKind :=
  let lower := pstrip (lowerStr title)
  if excludedHeadings.contains lower then .excluded
  else if pos == 0 && introPatterns.contains lower then .intro
  else if pos == total - 1 && conclusionPatterns.contains lower then .concl
  else .body

/-- The text `"Section {k}: {title}"`. -/
def secLabel (k : Nat) (title : Str) : Str :=
  "Section ".toList ++ natStr k ++ ": ".toList ++ title

/-- A change-log message `f"L{i + 1}: '{raw}' -> '{new}'"`. -/
def changeMsg (i : Nat) (raw newL : Str) : Str :=
  "L".toList ++ natStr (i + 1) ++ ": \x27".toList ++ raw ++
    "\x27 -> \x27".toList ++ newL ++ ['\x27']

/-- The new text of a level-3 heading line: numbered under a body section
(`### N.M title`), bare `### title` otherwise. -/
def subNewLine (kind : HKind) (bc sc : Nat) (l : Str) : Str :=
  match kind with
  | .body => h3Mark ++ natStr bc ++ ['.'] ++ natStr (sc + 1) ++ [' '] ++ computeSubTitle l
  | _ => h3Mark ++ computeSubTitle l

/-- The `sub_count` update: incremented only under a body section. -/
def subScNew (kind : HKind) (sc : Nat) : Nat :=
  match kind with
  | .body => sc + 1
  | _ => sc

/-- The level-3 sub-loop of `normalize_headings` over the line indices of one
section span; `sc` is `sub_count`. Returns replacement pairs and change
messages in order. -/
def buildSubs (lines : List Str) (kind : HKind) (bc : Nat) :
    List Nat → Nat → List (Nat × Str) × List Str
  | [], _ => ([], [])
  | j :: js, sc =>
    let l := lines.getD j []
    if startsWithStr l h3Mark then
      let newL := subNewLine kind bc sc l
      let tail := buildSubs lines kind bc js (subScNew kind sc)
      if newL == l then tail
      else ((j, newL) :: tail.1, changeMsg j l newL :: tail.2)
    else buildSubs lines kind bc js sc

/-- The `body_count` update: incremented only for a body section. -/
def bcStep (kind : HKind) (bc : Nat) : Nat :=
  match kind with
  | .body => bc + 1
  | _ => bc

/-- The new text of a level-2 heading line: `## Section K: title` for a
body section, bare `## title` for intro/conclusion. -/
def headNewLine (kind : HKind) (k : Nat) (title : Str) : Str :=
  match kind with
  | .body => h2Mark ++ secLabel k title
  | _ => h2Mark ++ title

/-- The index one past the current section span: the next section-line index,
or the number of lines for the last section. -/
def secEndOf (lines : List Str) : List Nat → Nat
  | j :: _ => j
  | [] => lines.length

/-- The main heading loop of `normalize_headings` over the section-line index
list, carrying the position and `body_count`. Returns the `replacements`
dict entries and the `changes` list, in write order. -/
def buildAux (lines : List Str) (total : Nat) :
    List Nat → Nat → Nat → List (Nat × Str) × List Str
  | [], _, _ => ([], [])
  | i :: restIdxs, pos, bc =>
    let raw := lines.getD i []
    let title := computeTitle raw
    let kind := headKind total pos title
    if kind == HKind.excluded then buildAux lines total restIdxs (pos + 1) bc
    else
      let bc2 := bcStep kind bc
      let newL := headNewLine kind bc2 title
      let headPart : List (Nat × Str) × List Str :=
        if newL == raw then ([], []) else ([(i, newL)], [changeMsg i raw newL])
      let subs := buildSubs lines kind bc2
        (List.range' (i + 1) (secEndOf lines restIdxs - (i + 1))) 0
      let rest := buildAux lines total restIdxs (pos + 1) bc2
      (headPart.1 ++ subs.1 ++ rest.1, headPart.2 ++ subs.2 ++ rest.2)

/-- Index of the first line whose strip is `---` (helper for
`frontmatterEnd`). -/
def findDashes : List Str → Option Nat
  | [] => none
  | l :: ls =>
    if pstrip l == ['-', '-', '-'] then some 0 else (findDashes ls).map (· + 1)

/-- The `frontmatter_end` computation of `normalize_headings` (0 when the
first line is not `---` or no closing `---` exists). -/
def frontmatterEnd (lines : List Str) : Nat :=
  match lines with
  | [] => 0
  | l0 :: rest =>
    if pstrip l0 == ['-', '-', '-'] then
      match findDashes rest with
      | some j => j + 2
      | none => 0
    else 0

/-- `line.startswith("## ") and not line.startswith("### ")`. -/
def isSecLine (l : Str) : Bool := startsWithStr l h2Mark && !startsWithStr l h3Mark

/-- The `section_lines` list of `normalize_headings`. -/
def secIdxs (lines : List Str) (fm : Nat) : List Nat :=
  (List.range lines.length).filter (fun i => decide (fm ≤ i) && isSecLine (lines.getD i []))

/-- Lookup in the `replacements` dict (last write wins, as for a Python
dict; in fact keys are written at most once). -/
def lookupRepl (i : Nat) (repl : List (Nat × Str)) : Option Str :=
  (repl.reverse.find? (fun p => p.1 == i)).map (·.2)

/-- Helper for `applyRepl`, walking the lines with their indices. -/
def applyReplFrom (repl : List (Nat × Str)) : Nat → List Str → List Str
  | _, [] => []
  | i, l :: ls =>
    (match lookupRepl i repl with
     | some v => v
     | none => l) :: applyReplFrom repl (i + 1) ls

/-- The replacement application loop `for idx, value in replacements.items():
lines[idx] = value`. -/
def applyRepl (repl : List (Nat × Str)) (lines : List Str) : List Str :=
  applyReplFrom repl 0 lines

/-- `postprocess.normalize_headings` as a pure function: returns the new
content and the change messages. -/
def normalizeHeadings (content : Str) : Str × List Str :=
  let lines := splitChar '\n' content
  let fm := frontmatterEnd lines
  let idxs := secIdxs lines fm
  if idxs.isEmpty then (content, [])
  else
    let rc := buildAux lines idxs.length idxs 0 0
    (joinSep ['\n'] (applyRepl rc.1 lines), rc.2)

/-- The body-section counter value before position `n`: how many of the first
`n` heading positions classify as body (used to state the renumbering
contract positionally). -/
def bodyCountBefore (total : Nat) (titles : List Str) (n : Nat) : Nat :=
  countB (fun q => headKind total q.1 q.2 == HKind.body) (enumF 0 (titles.take n))

/-- Modelled from the spec (section 4.4, with the prefix-stripping rule as the
code implements it): what the `n`-th level-2 heading line must become —
excluded headings untouched; a first-position intro synonym or last-position
conclusion synonym kept bare; anything else renumbered `## Section K: Title`
with `K` counting only earlier body sections. -/
def specHeadLine (total : Nat) (titles : List Str) (n : Nat) (raw : Str) : Str :=
  let t := titles.getD n []
  match headKind total n t with
  | .excluded => raw
  | .body => h2Mark ++ secLabel (bodyCountBefore total titles n + 1) t
  | _ => h2Mark ++ t

/-! ## Theorems

All definitions are above; everything below is proof. -/

theorem lookupA_none_iff {α : Type} (k : Str) (l : List (Str × α)) :
    lookupA k l = none ↔ ∀ kv ∈ l, kv.1 ≠ k := by
  induction l with
  | nil => simp [lookupA]
  | cons hd tl ih =>
    obtain ⟨k2, v⟩ := hd
    simp only [lookupA, List.mem_cons]
    cases h : (k2 == k) with
    | true =>
      simp only [if_pos rfl, reduceIte]
      constructor
      · intro hc; exact absurd hc (by simp)
      · intro hall
        exact absurd (beq_iff_eq.mp h) (hall (k2, v) (Or.inl rfl))
    | false =>
      have hne : k2 ≠ k := by
        intro he; rw [he] at h; simp at h
      simp only [h, Bool.false_eq_true, if_false, ih]
      constructor
      · intro hall kv hkv
        rcases hkv with he | hm
        · rw [he]; exact hne
        · exact hall kv hm
      · intro hall kv hm
        exact hall kv (Or.inr hm)

theorem lookupA_append {α : Type} (k : Str) (l1 l2 : List (Str × α)) :
    lookupA k (l1 ++ l2) =
      match lookupA k l1 with
      | some v => some v
      | none => lookupA k l2 := by
  induction l1 with
  | nil => simp [lookupA]
  | cons hd tl ih =>
    obtain ⟨k2, v⟩ := hd
    simp only [List.cons_append, lookupA]
    split <;> simp [ih]

theorem updateAssoc_keys {α : Type} (k : Str) (v : α) (l : List (Str × α)) :
    (updateAssoc k v l).map Prod.fst = l.map Prod.fst := by
  induction l with
  | nil => rfl
  | cons hd tl ih =>
    obtain ⟨k2, v2⟩ := hd
    simp only [updateAssoc]
    split <;> simp [ih]

theorem updateAssoc_of_not_mem {α : Type} (k : Str) (v : α) (l : List (Str × α))
    (h : ∀ kv ∈ l, kv.1 ≠ k) : updateAssoc k v l = l := by
  induction l with
  | nil => rfl
  | cons hd tl ih =>
    obtain ⟨k2, v2⟩ := hd
    have hne : k2 ≠ k := h (k2, v2) (List.mem_cons_self _ _)
    simp only [updateAssoc]
    rw [if_neg (by simpa using hne),
      ih (fun kv hkv => h kv (List.mem_cons_of_mem _ hkv))]

theorem updateAssoc_lookup_self {α : Type} (k : Str) (v : α) (l : List (Str × α))
    (h : lookupA k l = some v) : updateAssoc k v l = l := by
  induction l with
  | nil => simp [lookupA] at h
  | cons hd tl ih =>
    obtain ⟨k2, v2⟩ := hd
    simp only [lookupA] at h
    simp only [updateAssoc]
    split
    · rename_i hb
      rw [if_pos hb] at h
      cases h; rfl
    · rename_i hb
      rw [if_neg hb] at h
      rw [ih h]

theorem mem_updateAssoc {α : Type} {k : Str} {v : α} {l : List (Str × α)}
    {kv : Str × α} (h : kv ∈ updateAssoc k v l) :
    kv ∈ l ∨ (kv.1 = k ∧ kv.2 = v) := by
  induction l with
  | nil => simp [updateAssoc] at h
  | cons hd tl ih =>
    obtain ⟨k2, v2⟩ := hd
    simp only [updateAssoc] at h
    by_cases hb : (k2 == k) = true
    · rw [if_pos hb] at h
      rcases List.mem_cons.mp h with he | hm
      · right; rw [he]; exact ⟨beq_iff_eq.mp hb, rfl⟩
      · left; exact List.mem_cons_of_mem _ hm
    · rw [if_neg hb] at h
      rcases List.mem_cons.mp h with he | hm
      · left; rw [he]; exact List.mem_cons_self _ _
      · rcases ih hm with h1 | h1
        · left; exact List.mem_cons_of_mem _ h1
        · right; exact h1

theorem pickWinner_mem (q : Paper) (g : List Paper) :
    pickWinner q g ∈ q :: g := by
  induction g generalizing q with
  | nil => simp [pickWinner]
  | cons p ps ih =>
    simp only [pickWinner]
    split
    · have := ih p
      simp only [List.mem_cons] at this ⊢
      tauto
    · have := ih q
      simp only [List.mem_cons] at this ⊢
      tauto

theorem firstOccsF_sub : ∀ (fuel : Nat) (l : List Str), ∀ x ∈ firstOccsF fuel l, x ∈ l := by
  intro fuel
  induction fuel with
  | zero => intro l x hx; simp [firstOccsF] at hx
  | succ f ih =>
    intro l x hx
    cases l with
    | nil => simp [firstOccsF] at hx
    | cons k ks =>
      simp only [firstOccsF] at hx
      rcases List.mem_cons.mp hx with he | hm
      · rw [he]; exact List.mem_cons_self _ _
      · exact List.mem_cons_of_mem _ (List.mem_of_mem_filter (ih _ x hm))

theorem firstOccs_sub (l : List Str) : ∀ x ∈ firstOccs l, x ∈ l :=
  firstOccsF_sub l.length l

theorem firstOccsF_nodup : ∀ (fuel : Nat) (l : List Str), (firstOccsF fuel l).Nodup := by
  intro fuel
  induction fuel with
  | zero => intro l; simp [firstOccsF]
  | succ f ih =>
    intro l
    cases l with
    | nil => simp [firstOccsF]
    | cons k ks =>
      simp only [firstOccsF]
      refine List.nodup_cons.mpr ⟨?_, ih _⟩
      intro hmem
      have := List.of_mem_filter (firstOccsF_sub _ _ _ hmem)
      simp at this

theorem firstOccs_nodup (l : List Str) : (firstOccs l).Nodup :=
  firstOccsF_nodup l.length l

theorem firstOccsF_irrel : ∀ (f1 : Nat) (l : List Str) (f2 : Nat),
    l.length ≤ f1 → l.length ≤ f2 → firstOccsF f1 l = firstOccsF f2 l := by
  intro f1
  induction f1 with
  | zero =>
    intro l f2 h1 _
    have hl : l = [] := List.length_eq_zero.mp (Nat.le_zero.mp h1)
    subst hl
    cases f2 <;> simp [firstOccsF]
  | succ f ih =>
    intro l f2 h1 h2
    cases l with
    | nil => cases f2 <;> simp [firstOccsF]
    | cons k ks =>
      cases f2 with
      | zero => simp at h2
      | succ f2 =>
        simp only [firstOccsF, List.cons.injEq, true_and]
        simp only [List.length_cons, Nat.add_le_add_iff_right] at h1 h2
        exact ih _ f2 (le_trans (List.length_filter_le _ _) h1)
          (le_trans (List.length_filter_le _ _) h2)

theorem firstOccs_cons (k : Str) (ks : List Str) :
    firstOccs (k :: ks) = k :: firstOccs (ks.filter (fun k2 => !(k2 == k))) := by
  show firstOccsF (k :: ks).length (k :: ks) = _
  simp only [List.length_cons, firstOccsF, List.cons.injEq, true_and]
  exact firstOccsF_irrel ks.length _ _ (List.length_filter_le _ _) le_rfl

theorem lookupA_some_mem {α : Type} {k : Str} {v : α} :
    ∀ {l : List (Str × α)}, lookupA k l = some v → (k, v) ∈ l := by
  intro l
  induction l with
  | nil => intro h; simp [lookupA] at h
  | cons hd tl ih =>
    obtain ⟨k2, v2⟩ := hd
    intro h
    simp only [lookupA] at h
    by_cases hb : (k2 == k) = true
    · rw [if_pos hb] at h
      cases h
      rw [beq_iff_eq.mp hb]
      exact List.mem_cons_self _ _
    · rw [if_neg hb] at h
      exact List.mem_cons_of_mem _ (ih h)

theorem pickWinner_cons (q p : Paper) (g : List Paper) :
    pickWinner q (p :: g) =
      pickWinner (if ltTuple (scoreOf q) (scoreOf p) then p else q) g := by
  simp only [pickWinner]
  split <;> simp_all

theorem groupOf_cons_self {p : Paper} {k : Str} (h : canonicalKey p = k)
    (ps : List Paper) : groupOf k (p :: ps) = p :: groupOf k ps := by
  simp [groupOf, List.filter_cons, h]

theorem groupOf_cons_ne {p : Paper} {k : Str} (h : canonicalKey p ≠ k)
    (ps : List Paper) : groupOf k (p :: ps) = groupOf k ps := by
  simp [groupOf, List.filter_cons, h]

theorem winnerOf_cons_self {p : Paper} {k : Str} (h : canonicalKey p = k)
    (ps : List Paper) : winnerOf k (p :: ps) = pickWinner p (groupOf k ps) := by
  unfold winnerOf
  rw [groupOf_cons_self h]

theorem winnerOf_cons_ne {p : Paper} {k : Str} (h : canonicalKey p ≠ k)
    (ps : List Paper) : winnerOf k (p :: ps) = winnerOf k ps := by
  unfold winnerOf
  rw [groupOf_cons_ne h]

theorem updateAssoc_map_winner (p : Paper) (ps : List Paper) :
    ∀ (acc : List (Str × Paper)) (prev : Paper),
    (acc.map Prod.fst).Nodup →
    lookupA (canonicalKey p) acc = some prev →
    (updateAssoc (canonicalKey p)
        (if ltTuple (scoreOf prev) (scoreOf p) then p else prev) acc).map
      (fun kv => (kv.1, pickWinner kv.2 (groupOf kv.1 ps)))
    = acc.map (fun kv => (kv.1, pickWinner kv.2 (groupOf kv.1 (p :: ps)))) := by
  intro acc
  induction acc with
  | nil => intro prev _ h; simp [lookupA] at h
  | cons hd tl ih =>
    obtain ⟨k2, v2⟩ := hd
    intro prev hnd hl
    simp only [lookupA] at hl
    simp only [updateAssoc]
    by_cases hb : (k2 == canonicalKey p) = true
    · rw [if_pos hb] at hl ⊢
      cases hl
      have hk2 : k2 = canonicalKey p := beq_iff_eq.mp hb
      simp only [List.map_cons]
      congr 1
      · have : groupOf k2 (p :: ps) = p :: groupOf k2 ps :=
          groupOf_cons_self hk2.symm ps
        rw [this, pickWinner_cons]
      · apply List.map_congr_left
        intro kv hkv
        have hne : kv.1 ≠ canonicalKey p := by
          intro he
          have : k2 ∈ tl.map Prod.fst := by
            rw [hk2, ← he]; exact List.mem_map_of_mem _ hkv
          simp only [List.map_cons, List.nodup_cons] at hnd
          exact hnd.1 this
        rw [groupOf_cons_ne (fun hc => hne hc.symm)]
    · rw [if_neg hb] at hl ⊢
      simp only [List.map_cons] at *
      have hne : k2 ≠ canonicalKey p := by
        intro he; rw [he] at hb; simp at hb
      rw [groupOf_cons_ne (fun hc => hne hc.symm),
        ih prev (List.nodup_cons.mp hnd).2 hl]

theorem firstOccs_nil : firstOccs [] = [] := rfl

theorem dedupeAux_spec : ∀ (ps : List Paper) (acc : List (Str × Paper)),
    (∀ kv ∈ acc, canonicalKey kv.2 = kv.1) →
    (acc.map Prod.fst).Nodup →
    dedupeAux ps acc =
      acc.map (fun kv => (kv.1, pickWinner kv.2 (groupOf kv.1 ps))) ++
      (firstOccs ((ps.map canonicalKey).filter
        (fun k => !(decide (k ∈ acc.map Prod.fst))))).map
        (fun k => (k, winnerOf k ps)) := by
  intro ps
  induction ps with
  | nil =>
    intro acc _ _
    show acc = _
    simp only [List.map_nil, List.filter_nil, firstOccs_nil]
    have : ∀ kv : Str × Paper, (kv.1, pickWinner kv.2 (groupOf kv.1 [])) = kv := by
      intro kv
      have hg : groupOf kv.1 ([] : List Paper) = [] := rfl
      rw [hg]
      exact Prod.mk.eta
    rw [List.map_congr_left (fun kv _ => this kv)]
    simp
  | cons p ps ih =>
    intro acc hkv hnd
    simp only [dedupeAux]
    split
    · rename_i hl
      -- insertion case: the key is fresh
      have hknotmem : canonicalKey p ∉ acc.map Prod.fst := by
        intro hc
        rcases List.mem_map.mp hc with ⟨kv, hkvm, hkve⟩
        exact (lookupA_none_iff _ _ |>.mp hl) kv hkvm hkve
      have hkv2 : ∀ kv ∈ acc ++ [(canonicalKey p, p)], canonicalKey kv.2 = kv.1 := by
        intro kv hkvm
        rcases List.mem_append.mp hkvm with hm | hm
        · exact hkv kv hm
        · simp only [List.mem_singleton] at hm
          rw [hm]
      have hnd2 : ((acc ++ [(canonicalKey p, p)]).map Prod.fst).Nodup := by
        simp only [List.map_append, List.map_cons, List.map_nil]
        rw [List.nodup_append]
        refine ⟨hnd, List.nodup_singleton _, ?_⟩
        intro a ha hb
        rw [List.mem_singleton] at hb
        exact hknotmem (hb ▸ ha)
      rw [ih _ hkv2 hnd2]
      simp only [List.map_append, List.map_cons, List.map_nil, List.filter_cons]
      rw [if_pos (by simp [hknotmem])]
      rw [firstOccs_cons]
      simp only [List.map_cons]
      rw [List.append_assoc]
      congr 1
      · apply List.map_congr_left
        intro kv hkvm
        have hne : kv.1 ≠ canonicalKey p := by
          intro he
          exact hknotmem (he ▸ List.mem_map_of_mem Prod.fst hkvm)
        rw [groupOf_cons_ne (fun hc => hne hc.symm)]
      · simp only [List.singleton_append, List.cons.injEq]
        refine ⟨by rw [winnerOf_cons_self rfl], ?_⟩
        have hff :
            ((List.map canonicalKey ps).filter
              (fun k => !(decide (k ∈ acc.map Prod.fst)))).filter
              (fun k2 => !(k2 == canonicalKey p)) =
            (List.map canonicalKey ps).filter
              (fun k => !(decide (k ∈ acc.map Prod.fst ++ [canonicalKey p]))) := by
          rw [List.filter_filter]
          apply List.filter_congr
          intro x _
          by_cases hx : x = canonicalKey p
          · subst hx
            simp [hknotmem]
          · have h1 : (x == canonicalKey p) = false := by
              simpa using hx
            have h2 : (x ∈ List.map Prod.fst acc ++ [canonicalKey p]) ↔
                (x ∈ List.map Prod.fst acc) := by
              rw [List.mem_append]
              simp [hx]
            rw [h1, decide_eq_decide.mpr h2]
            · simp
            · infer_instance
        rw [← hff]
        apply List.map_congr_left
        intro k2 hk2
        have hk2mem := List.of_mem_filter (firstOccs_sub _ _ hk2)
        have hk2ne : canonicalKey p ≠ k2 := by
          intro he
          rw [← he] at hk2mem
          simp at hk2mem
        rw [winnerOf_cons_ne hk2ne]
    · rename_i prev hl
      -- collision case: merge into the existing slot
      have hkmem : canonicalKey p ∈ acc.map Prod.fst :=
        List.mem_map_of_mem Prod.fst (lookupA_some_mem hl)
      have hprevk : canonicalKey prev = canonicalKey p :=
        hkv (canonicalKey p, prev) (lookupA_some_mem hl)
      have hacc' :
          (if ltTuple (scoreOf prev) (scoreOf p) then
            dedupeAux ps (updateAssoc (canonicalKey p) p acc)
          else dedupeAux ps acc) =
          dedupeAux ps (updateAssoc (canonicalKey p)
            (if ltTuple (scoreOf prev) (scoreOf p) then p else prev) acc) := by
        by_cases hlt : ltTuple (scoreOf prev) (scoreOf p) = true
        · rw [if_pos hlt, if_pos hlt]
        · rw [if_neg hlt, if_neg hlt, updateAssoc_lookup_self _ _ _ hl]
      rw [hacc']
      have hq' : canonicalKey
          (if ltTuple (scoreOf prev) (scoreOf p) then p else prev) =
          canonicalKey p := by
        by_cases hlt : ltTuple (scoreOf prev) (scoreOf p) = true
        · rw [if_pos hlt]
        · rw [if_neg hlt]; exact hprevk
      have hkv2 : ∀ kv ∈ updateAssoc (canonicalKey p)
          (if ltTuple (scoreOf prev) (scoreOf p) then p else prev) acc,
          canonicalKey kv.2 = kv.1 := by
        intro kv hkvm
        rcases mem_updateAssoc hkvm with hm | ⟨h1, h2⟩
        · exact hkv kv hm
        · rw [h1, h2]; exact hq'
      have hnd2 : ((updateAssoc (canonicalKey p)
          (if ltTuple (scoreOf prev) (scoreOf p) then p else prev) acc).map
            Prod.fst).Nodup := by
        rw [updateAssoc_keys]; exact hnd
      rw [ih _ hkv2 hnd2]
      rw [updateAssoc_keys]
      simp only [List.map_cons]
      have hfil : (canonicalKey p :: List.map canonicalKey ps).filter
          (fun k => !decide (k ∈ List.map Prod.fst acc)) =
          (List.map canonicalKey ps).filter
          (fun k => !decide (k ∈ List.map Prod.fst acc)) := by
        rw [List.filter_cons, if_neg (by simp [hkmem])]
      rw [hfil]
      congr 1
      · exact updateAssoc_map_winner p ps acc prev hnd hl
      · apply List.map_congr_left
        intro k2 hk2
        have hk2mem := List.of_mem_filter (firstOccs_sub _ _ hk2)
        have hk2ne : canonicalKey p ≠ k2 := by
          intro he
          rw [← he] at hk2mem
          simp [hkmem] at hk2mem
        rw [winnerOf_cons_ne hk2ne]

theorem mem_groupOf_key {k : Str} {ps : List Paper} {q : Paper}
    (h : q ∈ groupOf k ps) : canonicalKey q = k := by
  have := List.of_mem_filter h
  simpa using this

theorem winnerOf_key {k : Str} {ps : List Paper} (h : k ∈ ps.map canonicalKey) :
    canonicalKey (winnerOf k ps) = k := by
  rcases List.mem_map.mp h with ⟨p, hp, hk⟩
  have hg : p ∈ groupOf k ps := List.mem_filter.mpr ⟨hp, by simp [hk]⟩
  unfold winnerOf
  match hgr : groupOf k ps with
  | [] => rw [hgr] at hg; cases hg
  | g :: gs =>
    have hmem : pickWinner g gs ∈ g :: gs := pickWinner_mem g gs
    rw [← hgr] at hmem
    exact mem_groupOf_key hmem

theorem ltTuple_iff (a b : Int × Nat) :
    ltTuple a b = true ↔ a.1 < b.1 ∨ (a.1 = b.1 ∧ a.2 < b.2) := by
  simp [ltTuple]

theorem pickWinner_max (g : List Paper) : ∀ (best : Paper),
    ∀ q ∈ best :: g, ltTuple (scoreOf (pickWinner best g)) (scoreOf q) = false := by
  induction g with
  | nil =>
    intro best q hq
    simp only [List.mem_singleton] at hq
    rw [hq]
    simp only [pickWinner]
    rw [Bool.eq_false_iff]
    intro hc
    have hcP := (ltTuple_iff _ _).mp hc
    omega
  | cons p g ih =>
    intro best q hq
    simp only [pickWinner]
    by_cases hlt : ltTuple (scoreOf best) (scoreOf p) = true
    · rw [if_pos hlt]
      rcases List.mem_cons.mp hq with he | hm
      · rw [he]
        have hwp := ih p p (List.mem_cons_self _ _)
        rw [Bool.eq_false_iff] at hwp ⊢
        intro hc
        have hcP := (ltTuple_iff _ _).mp hc
        have hltP := (ltTuple_iff _ _).mp hlt
        have hwpP : ¬((scoreOf (pickWinner p g)).1 < (scoreOf p).1 ∨
            ((scoreOf (pickWinner p g)).1 = (scoreOf p).1 ∧
             (scoreOf (pickWinner p g)).2 < (scoreOf p).2)) :=
          fun hx => hwp ((ltTuple_iff _ _).mpr hx)
        omega
      · exact ih p q hm
    · rw [if_neg hlt]
      rcases List.mem_cons.mp hq with he | hm
      · rw [he]
        exact ih best best (List.mem_cons_self _ _)
      · rcases List.mem_cons.mp hm with he2 | hm2
        · rw [he2]
          have hwb := ih best best (List.mem_cons_self _ _)
          rw [Bool.eq_false_iff] at hwb ⊢
          intro hc
          have hcP := (ltTuple_iff _ _).mp hc
          have hwbP : ¬((scoreOf (pickWinner best g)).1 < (scoreOf best).1 ∨
              ((scoreOf (pickWinner best g)).1 = (scoreOf best).1 ∧
               (scoreOf (pickWinner best g)).2 < (scoreOf best).2)) :=
            fun hx => hwb ((ltTuple_iff _ _).mpr hx)
          have hltP : ¬((scoreOf best).1 < (scoreOf p).1 ∨
              ((scoreOf best).1 = (scoreOf p).1 ∧
               (scoreOf best).2 < (scoreOf p).2)) :=
            fun hx => hlt ((ltTuple_iff _ _).mpr hx)
          omega
        · exact ih best q (List.mem_cons_of_mem _ hm2)

theorem winnerOf_max {k : Str} {ps : List Paper} (h : k ∈ ps.map canonicalKey) :
    ∀ q ∈ groupOf k ps, ltTuple (scoreOf (winnerOf k ps)) (scoreOf q) = false := by
  intro q hq
  rcases List.mem_map.mp h with ⟨p, hp, hk⟩
  have hg : p ∈ groupOf k ps := List.mem_filter.mpr ⟨hp, by simp [hk]⟩
  unfold winnerOf
  match hgr : groupOf k ps with
  | [] => rw [hgr] at hg; cases hg
  | g :: gs =>
    rw [hgr] at hq
    exact pickWinner_max gs g q hq

theorem dedupePapers_eq_spec (ps : List Paper) :
    dedupePapers ps = dedupePapersSpec ps := by
  unfold dedupePapers dedupePapersSpec
  rw [dedupeAux_spec ps [] (by simp) (by simp)]
  simp only [List.map_nil, List.nil_append]
  have hfil : (ps.map canonicalKey).filter
      (fun k => !decide (k ∈ ([] : List Str))) =
      ps.map canonicalKey := by
    simp
  rw [hfil, List.map_map]
  rfl

theorem dedupePapers_keys (ps : List Paper) :
    (dedupePapers ps).map canonicalKey = firstOccs (ps.map canonicalKey) := by
  rw [dedupePapers_eq_spec]
  unfold dedupePapersSpec
  rw [List.map_map]
  have hpt : ∀ k ∈ firstOccs (ps.map canonicalKey),
      (canonicalKey ∘ fun k => winnerOf k ps) k = id k := by
    intro k hk
    exact winnerOf_key (firstOccs_sub _ _ hk)
  rw [List.map_congr_left hpt, List.map_id]

/-- C3: `dedupe_papers` coincides with the spec's group-by-key /
keep-greatest-tuple / first-seen-order contract, and every kept paper's
quality tuple is maximal in its canonical-key group. -/
theorem c3_dedupe_keeps_best (ps : List Paper) :
    dedupePapers ps = dedupePapersSpec ps ∧
    ∀ p ∈ dedupePapers ps, ∀ q ∈ groupOf (canonicalKey p) ps,
      ltTuple (scoreOf p) (scoreOf q) = false := by
  refine ⟨dedupePapers_eq_spec ps, ?_⟩
  intro p hp q hq
  rw [dedupePapers_eq_spec] at hp
  unfold dedupePapersSpec at hp
  rcases List.mem_map.mp hp with ⟨k, hkm, hke⟩
  have hkmem : k ∈ ps.map canonicalKey := firstOccs_sub _ _ hkm
  have hpk : canonicalKey p = k := by rw [← hke]; exact winnerOf_key hkmem
  rw [hpk] at hq
  rw [← hke]
  exact winnerOf_max hkmem q hq

theorem dedupeAux_fresh : ∀ (ps : List Paper) (acc : List (Str × Paper)),
    (∀ p ∈ ps, lookupA (canonicalKey p) acc = none) →
    (ps.map canonicalKey).Nodup →
    dedupeAux ps acc = acc ++ ps.map (fun p => (canonicalKey p, p)) := by
  intro ps
  induction ps with
  | nil => intro acc _ _; simp [dedupeAux]
  | cons p ps ih =>
    intro acc hfresh hnd
    simp only [dedupeAux]
    rw [hfresh p (List.mem_cons_self _ _)]
    simp only [List.map_cons] at hnd
    have hnd' := List.nodup_cons.mp hnd
    have hfresh2 : ∀ q ∈ ps, lookupA (canonicalKey q) (acc ++ [(canonicalKey p, p)]) = none := by
      intro q hqm
      rw [lookupA_append]
      rw [hfresh q (List.mem_cons_of_mem _ hqm)]
      have hne : canonicalKey p ≠ canonicalKey q := by
        intro he
        exact hnd'.1 (he ▸ List.mem_map_of_mem canonicalKey hqm)
      simp [lookupA, hne]
    rw [ih (acc ++ [(canonicalKey p, p)]) hfresh2 hnd'.2]
    simp

/-- C2: `dedupe_papers` is idempotent, and no two output papers share a
canonical key. -/
theorem c2_dedupe_idempotent_unique_keys (ps : List Paper) :
    dedupePapers (dedupePapers ps) = dedupePapers ps ∧
    ((dedupePapers ps).map canonicalKey).Nodup := by
  have hnodup : ((dedupePapers ps).map canonicalKey).Nodup := by
    rw [dedupePapers_keys]
    exact firstOccs_nodup _
  refine ⟨?_, hnodup⟩
  have hrun := dedupeAux_fresh (dedupePapers ps) []
    (fun p _ => rfl) hnodup
  show (dedupeAux (dedupePapers ps) []).map (·.2) = dedupePapers ps
  rw [hrun]
  simp only [List.nil_append, List.map_map]
  have hcomp : ((fun x : Str × Paper => x.2) ∘ fun p : Paper => (canonicalKey p, p)) = id := rfl
  rw [hcomp, List.map_id]

/-- C7: `_score_paper` computes exactly the spec's formula
`0.9*keyword_hits + 0.35*facet_hits + 0.15*domain_token_hits (when a domain
is given) + min(citation_count/200, 2.0) + (0.4 if year >= 2018 else 0)`. -/
theorem c7_score_formula (p : Paper) (plan : QueryPlan) (d : Option DomainPlan) :
    scorePaper p plan d = scorePaperSpec p plan d := by
  unfold scorePaper scorePaperSpec
  have hrec : (match p.year with
      | none => (0 : ℚ)
      | some y => if y == 0 then 0 else if 2018 ≤ y then 0.4 else 0) =
      (match p.year with
      | none => (0 : ℚ)
      | some y => if 2018 ≤ y then (0.4 : ℚ) else 0) := by
    cases p.year with
    | none => rfl
    | some y =>
      show (if (y == 0) = true then (0 : ℚ) else if (2018 : Int) ≤ y then 0.4 else 0) =
        (if (2018 : Int) ≤ y then (0.4 : ℚ) else 0)
      by_cases hy0 : y = 0
      · subst hy0
        norm_num
      · rw [if_neg (by simpa using hy0)]
  rw [hrec]
  cases d with
  | none => ring
  | some dd => ring

/-- C6 counterexample: a response whose `keywords` parse but whose `facets`
do not makes `PlannerAgent.run` mix model output (the parsed keywords) with
fallback output (the fallback facets) in one result — refuting the
all-or-nothing claim. -/
theorem c6_counterexample :
    let topic : Str := "t".toList
    let desc : Str := "d".toList
    let fp := fallbackQueryPlan topic desc defaultBusinessTerms
    let resp : List (Str × JVal) :=
      [("keywords".toList, .jarr [.jstr ("modelkw".toList)])]
    let plan := (plannerParse resp topic desc fp (fallbackDomains fp)).1
    plan.facets = fp.facets ∧ plan.keywords = ["modelkw".toList] ∧
      plan.keywords ≠ fp.keywords ∧ plan ≠ fp := by
  decide

/-- C6 amended: fallback is per-field, not all-or-nothing. Each planner field
(facets, subquestions, keywords) and the domain list independently falls back
when its own parse is empty, so mixed results are possible; only when every
parse is empty does the planner phase equal the deterministic fallback
exactly. The synthesis phase is all-or-nothing in its section list: zero
parsed sections yield the fallback outline entirely, and otherwise the
parsed sections are used as-is (with only the notes field defaulting). -/
theorem c6_amended_per_field_fallback :
    (∀ (resp : List (Str × JVal)) (topic desc : Str) (seeds : List Str),
      asStringList (getJ resp ("facets".toList)) = [] →
      asStringList (getJ resp ("subquestions".toList)) = [] →
      asStringList (getJ resp ("keywords".toList)) = [] →
      parseDomains (getJ resp ("domains".toList)) = [] →
      plannerParse resp topic desc (fallbackQueryPlan topic desc seeds)
        (fallbackDomains (fallbackQueryPlan topic desc seeds)) =
        (fallbackQueryPlan topic desc seeds,
         fallbackDomains (fallbackQueryPlan topic desc seeds))) ∧
    (∀ (resp : List (Str × JVal)) (nd : Nat) (co : Str) (tp : Nat)
      (fb : SynthesisOutline),
      parseSections (getJ resp ("sections".toList)) nd = [] →
      synthesisParse resp nd co tp fb = fb) ∧
    (∀ (resp : List (Str × JVal)) (nd : Nat) (co : Str) (tp : Nat)
      (fb : SynthesisOutline),
      parseSections (getJ resp ("sections".toList)) nd ≠ [] →
      (synthesisParse resp nd co tp fb).sections =
        parseSections (getJ resp ("sections".toList)) nd) := by
  refine ⟨?_, ?_, ?_⟩
  · intro resp topic desc seeds h1 h2 h3 h4
    unfold plannerParse
    rw [h1, h2, h3, h4]
    rfl
  · intro resp nd co tp fb h
    unfold synthesisParse
    rw [h]
    rfl
  · intro resp nd co tp fb h
    unfold synthesisParse
    rw [if_neg (by simpa using h)]

/-- Witness instantiating `c6_amended_per_field_fallback` at concrete
inputs. -/
theorem c6_amended_witness :
    (plannerParse [] ("t".toList) ("d".toList)
      (fallbackQueryPlan ("t".toList) ("d".toList) defaultBusinessTerms)
      (fallbackDomains (fallbackQueryPlan ("t".toList) ("d".toList)
        defaultBusinessTerms)) =
      (fallbackQueryPlan ("t".toList) ("d".toList) defaultBusinessTerms,
       fallbackDomains (fallbackQueryPlan ("t".toList) ("d".toList)
        defaultBusinessTerms))) ∧
    (synthesisParse [] 0 [] 0 ⟨[], 0, [], []⟩ = ⟨[], 0, [], []⟩) ∧
    ((synthesisParse [("sections".toList, .jarr [.jobj []])] 1 [] 0
        ⟨[], 0, [], []⟩).sections =
      parseSections (getJ [("sections".toList, .jarr [.jobj []])]
        ("sections".toList)) 1) := by
  refine ⟨?_, ?_, ?_⟩
  · exact c6_amended_per_field_fallback.1 [] _ _ _ rfl rfl rfl rfl
  · exact c6_amended_per_field_fallback.2.1 [] 0 [] 0 _ rfl
  · exact c6_amended_per_field_fallback.2.2 _ 1 [] 0 _ (by decide)

theorem bibStep_malformed (st : BibState) (c : Str)
    (h1 : pstrip c ≠ [])
    (h2 : startsWithStr (lowerStr (pstrip c)) ("@comment".toList) = false)
    (h3 : parseEntryHeader (pstrip c) = none) :
    bibStep st c = st := by
  have he : (pstrip c).isEmpty = false := by
    cases hp : pstrip c with
    | nil => exact absurd hp h1
    | cons a l => rfl
  simp only [bibStep]
  rw [he, h2, h3]
  rfl

/-- C10: a non-empty chunk at a `\n@` boundary that is not an `@comment`
block and does not match the `@type{key,` header pattern is silently dropped
by `dedupe_bib`: removing it from the chunk stream changes neither the final
state, nor the merged output text, nor the duplicate-key list. -/
theorem c10_malformed_chunks_dropped (pre post : List Str) (c : Str)
    (h1 : pstrip c ≠ [])
    (h2 : startsWithStr (lowerStr (pstrip c)) ("@comment".toList) = false)
    (h3 : parseEntryHeader (pstrip c) = none) :
    dedupeBibChunks (pre ++ c :: post) = dedupeBibChunks (pre ++ post) ∧
    bibRender (dedupeBibChunks (pre ++ c :: post)) =
      bibRender (dedupeBibChunks (pre ++ post)) ∧
    (dedupeBibChunks (pre ++ c :: post)).dups =
      (dedupeBibChunks (pre ++ post)).dups := by
  have hmain : dedupeBibChunks (pre ++ c :: post) = dedupeBibChunks (pre ++ post) := by
    unfold dedupeBibChunks
    rw [List.foldl_append, List.foldl_append, List.foldl_cons,
      bibStep_malformed _ _ h1 h2 h3]
  exact ⟨hmain, by rw [hmain], by rw [hmain]⟩

/-- Witness instantiating `c10_malformed_chunks_dropped` on a concrete entry
plus a malformed chunk. -/
theorem c10_witness :
    dedupeBibChunks (["@article\x7bk1,\n  title=\x7bT\x7d,\n\x7d".toList] ++
        ("not a bib entry".toList) :: []) =
      dedupeBibChunks (["@article\x7bk1,\n  title=\x7bT\x7d,\n\x7d".toList] ++ []) ∧
    bibRender (dedupeBibChunks (["@article\x7bk1,\n  title=\x7bT\x7d,\n\x7d".toList] ++
        ("not a bib entry".toList) :: [])) =
      bibRender (dedupeBibChunks
        (["@article\x7bk1,\n  title=\x7bT\x7d,\n\x7d".toList] ++ [])) ∧
    (dedupeBibChunks (["@article\x7bk1,\n  title=\x7bT\x7d,\n\x7d".toList] ++
        ("not a bib entry".toList) :: [])).dups =
      (dedupeBibChunks
        (["@article\x7bk1,\n  title=\x7bT\x7d,\n\x7d".toList] ++ [])).dups :=
  c10_malformed_chunks_dropped _ [] _ (by decide) (by decide) (by decide)

/-- C4 counterexample: in a three-entry chain (A and B share key `k1`; B and
C share the normalized DOI `10.1/x`, but B's DOI is never registered because
B arrives as a key collision), the output retains two surviving entries that
both carry the shared DOI — so DOI-sharing entries are not merged into
exactly one surviving entry. -/
theorem c4_counterexample :
    let cA : Str := "@article\x7bk1,\n  title=\x7bT1\x7d,\n\x7d".toList
    let cB : Str := ("@article\x7bk1,\n  title=\x7bT1b\x7d,\n  " ++
      "doi=\x7b10.1/x\x7d,\n  abstract=\x7bdefinitely long enough\x7d,\n\x7d").toList
    let cC : Str := "@article\x7bk2,\n  title=\x7bT2\x7d,\n  doi=\x7b10.1/x\x7d,\n\x7d".toList
    let st := dedupeBibChunks [cA, cB, cC]
    extractDoi (pstrip cB) = some ("10.1/x".toList) ∧
    extractDoi (pstrip cC) = some ("10.1/x".toList) ∧
    st.seen.length = 2 ∧
    st.seen.map (fun kv => extractDoi kv.2) =
      [some ("10.1/x".toList), some ("10.1/x".toList)] := by
  decide

/-- C4 amended: the merge is pairwise at ingestion. For two single-entry
files whose entries have distinct keys but the same non-empty normalized DOI,
where the first lacks a substantive abstract and the second has one, exactly
one entry survives: the second file's text, stored in the first entry's slot
(first-seen position), with the second key reported as the duplicate and the
output text consisting of that single surviving entry. (DOIs of merged-away
entries are not registered, so DOI-based merging is not transitive across
chains — see the counterexample.) -/
theorem c4_amended_pairwise_doi_merge (fA fB : Str) (kA kB wA wB d : Str)
    (hsA : splitBibChunks fA = [fA]) (hsB : splitBibChunks fB = [fB])
    (hcA : startsWithStr (lowerStr (pstrip fA)) ("@comment".toList) = false)
    (hcB : startsWithStr (lowerStr (pstrip fB)) ("@comment".toList) = false)
    (hhA : parseEntryHeader (pstrip fA) = some (wA, kA))
    (hhB : parseEntryHeader (pstrip fB) = some (wB, kB))
    (hk : kA ≠ kB)
    (hdA : extractDoi (pstrip fA) = some d)
    (hdB : extractDoi (pstrip fB) = some d)
    (hd : d ≠ [])
    (habA : hasAbstract (pstrip fA) = false)
    (habB : hasAbstract (pstrip fB) = true) :
    dedupeBibChunks [fA, fB] = ⟨[(kA, pstrip fB)], [(d, kA)], [], [kB]⟩ ∧
    dedupeBibTexts [fA, fB] = (pstrip (rstrip (pstrip fB)) ++ ['\n'], [kB]) := by
  have hneA : (pstrip fA).isEmpty = false := by
    cases hp : pstrip fA with
    | nil => rw [hp] at hhA; exact absurd hhA (by simp [parseEntryHeader])
    | cons a l => rfl
  have hneB : (pstrip fB).isEmpty = false := by
    cases hp : pstrip fB with
    | nil => rw [hp] at hhB; exact absurd hhB (by simp [parseEntryHeader])
    | cons a l => rfl
  have hdne : d.isEmpty = false := by
    cases hp : d with
    | nil => exact absurd hp hd
    | cons a l => rfl
  have hstep1 : bibStep bibInit fA = ⟨[(kA, pstrip fA)], [(d, kA)], [], []⟩ := by
    simp only [bibStep]
    rw [hneA, hcA, hhA, hdA]
    simp only [bibInit, lookupA, hdne]
    rfl
  have hlk : lookupA kB [(kA, pstrip fA)] = none := by
    simp [lookupA, beq_eq_false_iff_ne.mpr hk]
  have hld : lookupA d [(d, kA)] = some kA := by
    simp [lookupA]
  have hlkA : lookupA kA [(kA, pstrip fA)] = some (pstrip fA) := by
    simp [lookupA]
  have hmerge : mergeEntry (pstrip fA) (pstrip fB) = pstrip fB := by
    simp only [mergeEntry]
    rw [habA, habB]
    rfl
  have hstep2 : bibStep ⟨[(kA, pstrip fA)], [(d, kA)], [], []⟩ fB =
      ⟨[(kA, pstrip fB)], [(d, kA)], [], [kB]⟩ := by
    simp only [bibStep]
    rw [hneB, hcB, hhB, hdB]
    simp only [hlk, hdne, Bool.false_eq_true, if_false, hld, hlkA, hmerge]
    simp [updateAssoc]
  have hchunks : dedupeBibChunks [fA, fB] = ⟨[(kA, pstrip fB)], [(d, kA)], [], [kB]⟩ := by
    unfold dedupeBibChunks
    rw [List.foldl_cons, hstep1, List.foldl_cons, hstep2]
    rfl
  refine ⟨hchunks, ?_⟩
  unfold dedupeBibTexts
  rw [show ([fA, fB].map splitBibChunks).flatten = [fA, fB] by
    rw [List.map_cons, List.map_cons, List.map_nil, hsA, hsB]; rfl]
  rw [hchunks]
  unfold bibRender
  rfl

/-- Witness instantiating `c4_amended_pairwise_doi_merge` on the spec's
two-file scenario: entry B's URL-prefixed DOI matches entry A's plain DOI. -/
theorem c4_amended_witness :
    dedupeBibChunks
      ["@article\x7bkey1,\n  title=\x7bA\x7d,\n  doi=\x7b10.1000/x\x7d,\n  keywords=\x7bx, Low\x7d,\n\x7d\n".toList,
       "@article\x7bkey2,\n  title=\x7bA2\x7d,\n  doi=\x7bhttps://doi.org/10.1000/x\x7d,\n  keywords=\x7bx, High\x7d,\n abstract=\x7bLong enough abstract text here.\x7d\n\x7d\n".toList] =
      ⟨[("key1".toList,
         pstrip "@article\x7bkey2,\n  title=\x7bA2\x7d,\n  doi=\x7bhttps://doi.org/10.1000/x\x7d,\n  keywords=\x7bx, High\x7d,\n abstract=\x7bLong enough abstract text here.\x7d\n\x7d\n".toList)],
        [("10.1000/x".toList, "key1".toList)], [], ["key2".toList]⟩ ∧
    dedupeBibTexts
      ["@article\x7bkey1,\n  title=\x7bA\x7d,\n  doi=\x7b10.1000/x\x7d,\n  keywords=\x7bx, Low\x7d,\n\x7d\n".toList,
       "@article\x7bkey2,\n  title=\x7bA2\x7d,\n  doi=\x7bhttps://doi.org/10.1000/x\x7d,\n  keywords=\x7bx, High\x7d,\n abstract=\x7bLong enough abstract text here.\x7d\n\x7d\n".toList] =
      (pstrip (rstrip (pstrip "@article\x7bkey2,\n  title=\x7bA2\x7d,\n  doi=\x7bhttps://doi.org/10.1000/x\x7d,\n  keywords=\x7bx, High\x7d,\n abstract=\x7bLong enough abstract text here.\x7d\n\x7d\n".toList)) ++ ['\n'],
       ["key2".toList]) :=
  c4_amended_pairwise_doi_merge _ _ _ _ ("article".toList) ("article".toList) _
    (by decide) (by decide) (by decide) (by decide) (by decide) (by decide)
    (by decide) (by decide) (by decide) (by decide) (by decide) (by decide)

set_option maxHeartbeats 2000000 in
/-- C8: on the Smith scenario, `generate_bibliography_apa` detects the
citation (whole-word surname match with the year in the 60-character window)
and produces a References section whose entry contains
`Smith, J., & Doe, J. (2020).`. -/
theorem c8_apa_smith_scenario :
    let review : Str := "As argued by Smith (2020), this is important.".toList
    let bib : Str := ("@article\x7bsmith2020,\n  author = \x7bSmith, John and Doe, Jane\x7d,\n" ++
      "  year = \x7b2020\x7d,\n  title = \x7bA study on organizations\x7d,\n" ++
      "  journal = \x7bManagement Journal\x7d,\n  volume = \x7b12\x7d,\n" ++
      "  number = \x7b3\x7d,\n  pages = \x7b10-20\x7d,\n  doi = \x7b10.1000/xyz\x7d\n\x7d\n").toList
    let res := generateBibliographyApa review bib
    res.2 = (1, 1) ∧
    containsStr res.1 ("Smith, J., & Doe, J. (2020).".toList) = true ∧
    containsStr res.1 ("## References".toList) = true := by
  decide

/-! ### String utility lemmas -/

theorem dropWhile_idem (p : Char → Bool) (s : Str) :
    (s.dropWhile p).dropWhile p = s.dropWhile p := by
  induction s with
  | nil => rfl
  | cons a as ih =>
    by_cases h : p a = true
    · rw [List.dropWhile_cons_of_pos h]; exact ih
    · rw [List.dropWhile_cons_of_neg h, List.dropWhile_cons_of_neg h]

theorem dropWhile_eq_self_of_all {p : Char → Bool} {s : Str}
    (h : ∀ c ∈ s, p c = false) : s.dropWhile p = s := by
  induction s with
  | nil => rfl
  | cons a as _ =>
    rw [List.dropWhile_cons_of_neg]
    rw [h a (List.mem_cons_self a as)]
    exact Bool.false_ne_true

theorem dropWhile_append_of_ne {p : Char → Bool} {l1 : Str} (l2 : Str)
    (h : l1.dropWhile p ≠ []) :
    (l1 ++ l2).dropWhile p = l1.dropWhile p ++ l2 := by
  induction l1 with
  | nil => exact absurd rfl h
  | cons a as ih =>
    by_cases ha : p a = true
    · rw [List.cons_append, List.dropWhile_cons_of_pos ha,
        List.dropWhile_cons_of_pos ha]
      exact ih (by rwa [List.dropWhile_cons_of_pos ha] at h)
    · rw [List.cons_append, List.dropWhile_cons_of_neg ha,
        List.dropWhile_cons_of_neg ha, List.cons_append]

theorem dropWhile_append_singleton {p : Char → Bool} {c : Char}
    (hc : ¬p c = true) (l : Str) :
    (l ++ [c]).dropWhile p = l.dropWhile p ++ [c] := by
  induction l with
  | nil => simp [List.dropWhile_cons_of_neg hc]
  | cons a as ih =>
    by_cases ha : p a = true
    · rw [List.cons_append, List.dropWhile_cons_of_pos ha,
        List.dropWhile_cons_of_pos ha]
      exact ih
    · rw [List.cons_append, List.dropWhile_cons_of_neg ha,
        List.dropWhile_cons_of_neg ha, List.cons_append]

theorem lstrip_lstrip (s : Str) : lstrip (lstrip s) = lstrip s :=
  dropWhile_idem isPySpace s

theorem rstrip_rstrip (s : Str) : rstrip (rstrip s) = rstrip s := by
  unfold rstrip
  rw [List.reverse_reverse, dropWhile_idem]

theorem rstrip_front (s : Str) : rstrip s <+: s := by
  have h : s.reverse.dropWhile isPySpace <:+ s.reverse := List.dropWhile_suffix _
  have h2 := List.reverse_prefix.mpr h
  rwa [List.reverse_reverse] at h2

theorem lstrip_suffix (s : Str) : lstrip s <:+ s := List.dropWhile_suffix _

theorem pstrip_sublist (s : Str) : List.Sublist (pstrip s) s :=
  ((rstrip_front (lstrip s)).sublist).trans (lstrip_suffix s).sublist

theorem mem_pstrip {c : Char} {s : Str} (h : c ∈ pstrip s) : c ∈ s :=
  (pstrip_sublist s).subset h

theorem lstrip_rstrip_of_fix {s : Str} (h : lstrip s = s) :
    lstrip (rstrip s) = rstrip s := by
  cases hr : rstrip s with
  | nil => rfl
  | cons c t =>
    have hp := rstrip_front s
    rw [hr] at hp
    obtain ⟨u, hu⟩ := hp
    by_cases hc : isPySpace c = true
    · exfalso
      rw [← hu, List.cons_append] at h
      rw [lstrip, List.dropWhile_cons_of_pos hc] at h
      have hlen := congrArg List.length h
      have hle : ((t ++ u).dropWhile isPySpace).length ≤ (t ++ u).length :=
        (List.dropWhile_suffix _).length_le
      simp only [List.length_cons] at hlen
      omega
    · rw [lstrip, List.dropWhile_cons_of_neg hc]

theorem lstrip_pstrip (s : Str) : lstrip (pstrip s) = pstrip s :=
  lstrip_rstrip_of_fix (lstrip_lstrip s)

theorem rstrip_pstrip (s : Str) : rstrip (pstrip s) = pstrip s :=
  rstrip_rstrip (lstrip s)

theorem pstrip_pstrip (s : Str) : pstrip (pstrip s) = pstrip s := by
  conv_lhs => rw [pstrip]
  rw [lstrip_pstrip, rstrip_pstrip]

theorem lstrip_of_pstrip_fix {s : Str} (h : pstrip s = s) : lstrip s = s := by
  conv_lhs => rw [← h]
  rw [lstrip_pstrip, h]

theorem rstrip_of_pstrip_fix {s : Str} (h : pstrip s = s) : rstrip s = s := by
  conv_lhs => rw [← h]
  rw [rstrip_pstrip, h]

theorem rstrip_cons_of_neg {c : Char} (s : Str) (hc : ¬isPySpace c = true) :
    rstrip (c :: s) = c :: rstrip s := by
  unfold rstrip
  rw [List.reverse_cons, dropWhile_append_singleton hc, List.reverse_append,
    List.reverse_singleton, List.singleton_append]

theorem pstrip_cons_of_neg {c : Char} (s : Str) (hc : ¬isPySpace c = true) :
    pstrip (c :: s) = c :: rstrip s := by
  rw [pstrip, lstrip, List.dropWhile_cons_of_neg hc, rstrip_cons_of_neg s hc]

/-! ### Digit and case lemmas -/

theorem digitChar_isDigit {d : Nat} (h : d < 10) :
    (Nat.digitChar d).isDigit = true := by
  interval_cases d <;> decide

theorem natStrF_digits : ∀ (fuel n : Nat) (acc : Str), n ≤ fuel →
    (∀ c ∈ acc, c.isDigit = true) → ∀ c ∈ natStrF fuel n acc, c.isDigit = true := by
  intro fuel
  induction fuel with
  | zero =>
    intro n acc hn hacc c hc
    interval_cases n
    rw [natStrF] at hc
    rcases List.mem_cons.mp hc with h | h
    · rw [h]; decide
    · exact hacc c h
  | succ fuel ih =>
    intro n acc hn hacc c hc
    rw [natStrF] at hc
    by_cases h10 : n < 10
    · rw [if_pos h10] at hc
      rcases List.mem_cons.mp hc with h | h
      · rw [h]; exact digitChar_isDigit h10
      · exact hacc c h
    · rw [if_neg h10] at hc
      refine ih (n / 10) _ ?_ ?_ c hc
      · have := Nat.div_lt_self (by omega : 0 < n) (by omega : 1 < 10)
        omega
      · intro c2 hc2
        rcases List.mem_cons.mp hc2 with h | h
        · rw [h]; exact digitChar_isDigit (Nat.mod_lt n (by omega))
        · exact hacc c2 h

theorem natStr_digits (n : Nat) : ∀ c ∈ natStr n, c.isDigit = true :=
  natStrF_digits n n [] le_rfl (by intro c hc; cases hc)

theorem natStr_one_digit {k : Nat} (h : k < 10) :
    natStr k = [Nat.digitChar k] := by
  match k with
  | 0 => rfl
  | m + 1 => rw [natStr, natStrF, if_pos h]

theorem natStr_two_digit {k : Nat} (h1 : 10 ≤ k) (h2 : k ≤ 99) :
    natStr k = [Nat.digitChar (k / 10), Nat.digitChar (k % 10)] := by
  obtain ⟨m, rfl⟩ : ∃ m, k = m + 2 := ⟨k - 2, by omega⟩
  rw [natStr, natStrF, if_neg (by omega)]
  have hd : (m + 2) / 10 < 10 := by omega
  obtain ⟨p, hp⟩ : ∃ p, m + 1 = p + 1 := ⟨m, rfl⟩
  rw [hp, natStrF, if_pos hd]

theorem isDigit_false_of_space {c : Char} (h : isPySpace c = true) :
    c.isDigit = false := by
  rw [isPySpace] at h
  simp only [Bool.or_eq_true, beq_iff_eq] at h
  rcases h with ((((h | h) | h) | h) | h) | h <;> rw [h] <;> decide

theorem isPySpace_false_of_digit {c : Char} (h : c.isDigit = true) :
    isPySpace c = false := by
  cases hsp : isPySpace c with
  | false => rfl
  | true => rw [isDigit_false_of_space hsp] at h; cases h

theorem takeWhile_append_all {p : Char → Bool} {l1 : Str}
    (h1 : ∀ c ∈ l1, p c = true) {x : Char} (hx : p x = false) (l2 : Str) :
    (l1 ++ x :: l2).takeWhile p = l1 ∧ (l1 ++ x :: l2).dropWhile p = x :: l2 := by
  induction l1 with
  | nil =>
    constructor
    · rw [List.nil_append, List.takeWhile_cons, hx]
      simp
    · rw [List.nil_append, List.dropWhile_cons_of_neg (by rw [hx]; exact Bool.false_ne_true)]
  | cons a as ih =>
    have ha : p a = true := h1 a (List.mem_cons_self a as)
    have ih2 := ih (fun c hc => h1 c (List.mem_cons_of_mem a hc))
    constructor
    · rw [List.cons_append, List.takeWhile_cons, ha, ih2.1]
      simp
    · rw [List.cons_append, List.dropWhile_cons_of_pos ha, ih2.2]

/-! ### startsWithStr and dropCI lemmas -/

theorem startsWithStr_nil (s : Str) : startsWithStr s [] = true := by
  cases s <;> rfl

theorem startsWithStr_append (p r : Str) : startsWithStr (p ++ r) p = true := by
  induction p with
  | nil => exact startsWithStr_nil r
  | cons a as ih =>
    rw [List.cons_append, startsWithStr, ih, beq_self_eq_true]
    rfl

theorem exists_of_startsWithStr : ∀ {s p : Str}, startsWithStr s p = true →
    ∃ r, s = p ++ r := by
  intro s p
  induction p generalizing s with
  | nil => intro _; exact ⟨s, rfl⟩
  | cons a as ih =>
    intro h
    match s with
    | [] => cases h
    | c :: cs =>
      rw [startsWithStr, Bool.and_eq_true, beq_iff_eq] at h
      obtain ⟨r, hr⟩ := ih h.2
      exact ⟨r, by rw [h.1, hr, List.cons_append]⟩

theorem dropCI_suffix : ∀ (pat s r : Str), dropCI pat s = some r → r <:+ s := by
  intro pat
  induction pat with
  | nil =>
    intro s r h
    rw [dropCI] at h
    cases h
    exact List.suffix_rfl
  | cons p ps ih =>
    intro s r h
    match s with
    | [] => cases h
    | c :: cs =>
      rw [dropCI] at h
      by_cases hc : (c.toLower == p) = true
      · rw [if_pos hc] at h
        exact (ih cs r h).trans (List.suffix_cons c cs)
      · rw [if_neg hc] at h
        cases h

theorem dropCI_lower_startsWith : ∀ (pat s r : Str), dropCI pat s = some r →
    startsWithStr (lowerStr s) pat = true := by
  intro pat
  induction pat with
  | nil => intro s r _; exact startsWithStr_nil _
  | cons p ps ih =>
    intro s r h
    match s with
    | [] => cases h
    | c :: cs =>
      rw [dropCI] at h
      by_cases hc : (c.toLower == p) = true
      · rw [if_pos hc] at h
        rw [lowerStr, List.map_cons, startsWithStr, ← lowerStr, ih cs r h, hc]
        rfl
      · rw [if_neg hc] at h
        cases h

/-! ### Suffix and membership lemmas for the title computations -/

theorem takeDigitsColon_suffix {s r : Str} (h : takeDigitsColon s = some r) :
    r <:+ s := by
  rw [takeDigitsColon] at h
  by_cases hg : (s.takeWhile Char.isDigit).isEmpty || decide (2 < (s.takeWhile Char.isDigit).length)
  · rw [if_pos hg] at h; cases h
  · rw [if_neg hg] at h
    cases hm : (s.dropWhile Char.isDigit).dropWhile isPySpace with
    | nil => rw [hm] at h; cases h
    | cons d tl =>
      rw [hm] at h
      split at h
      next rest heq =>
        rw [List.cons.injEq] at heq
        cases h
        refine ((List.dropWhile_suffix _).trans ?_)
        rw [← heq.2]
        refine (List.suffix_cons d tl).trans ?_
        rw [← hm]
        exact (List.dropWhile_suffix _).trans (List.dropWhile_suffix _)
      next => cases h

theorem parseSecLabel_suffix {s r : Str} (h : parseSecLabel s = some r) :
    r <:+ s := by
  rw [parseSecLabel] at h
  cases hd : dropCI "section".toList s with
  | none => rw [hd] at h; cases h
  | some r1 =>
    rw [hd] at h
    cases r1 with
    | nil => cases h
    | cons c cs =>
      replace h : (if isPySpace c = true then
          takeDigitsColon (List.dropWhile isPySpace cs) else none) = some r := h
      by_cases hc : isPySpace c = true
      · rw [if_pos hc] at h
        refine (takeDigitsColon_suffix h).trans ?_
        refine (List.dropWhile_suffix _).trans ?_
        exact (List.suffix_cons c cs).trans (dropCI_suffix _ s _ hd)
      · rw [if_neg hc] at h
        cases h

/-! ### Character provenance of the computed titles -/

theorem mem_dropWhile {p : Char → Bool} {c : Char} {s : Str}
    (h : c ∈ s.dropWhile p) : c ∈ s :=
  (List.dropWhile_suffix p).sublist.subset h

theorem mem_normEmDashF : ∀ (fuel : Nat) (s : Str) (c : Char),
    c ∈ normEmDashF fuel s → c ∈ s ∨ c = ':' ∨ c = ' ' := by
  intro fuel
  induction fuel with
  | zero => intro s c hc; cases hc
  | succ fuel ih =>
    intro s c hc
    match s with
    | [] => cases hc
    | a :: as =>
      rw [normEmDashF] at hc
      cases hdw : (a :: as).dropWhile isPySpace with
      | nil =>
        rw [hdw] at hc
        rcases List.mem_cons.mp hc with h | h
        · exact Or.inl (h ▸ List.mem_cons_self a as)
        · rcases ih as c h with h2 | h2
          · exact Or.inl (List.mem_cons_of_mem a h2)
          · exact Or.inr h2
      | cons d tl =>
        rw [hdw] at hc
        replace hc : c ∈ (if (d == emDash) = true
            then ':' :: ' ' :: normEmDashF fuel (tl.dropWhile isPySpace)
            else a :: normEmDashF fuel as) := hc
        by_cases hdash : (d == emDash) = true
        · rw [if_pos hdash] at hc
          rcases List.mem_cons.mp hc with h | h
          · exact Or.inr (Or.inl h)
          · rcases List.mem_cons.mp h with h2 | h2
            · exact Or.inr (Or.inr h2)
            · rcases ih _ c h2 with h3 | h3
              · refine Or.inl ?_
                have : c ∈ d :: tl := List.mem_cons_of_mem d (mem_dropWhile h3)
                rw [← hdw] at this
                exact mem_dropWhile this
              · exact Or.inr h3
        · rw [if_neg hdash] at hc
          rcases List.mem_cons.mp hc with h | h
          · exact Or.inl (h ▸ List.mem_cons_self a as)
          · rcases ih as c h with h2 | h2
            · exact Or.inl (List.mem_cons_of_mem a h2)
            · exact Or.inr h2

theorem mem_normEmDash {s : Str} {c : Char} (h : c ∈ normEmDash s) :
    c ∈ s ∨ c = ':' ∨ c = ' ' :=
  mem_normEmDashF s.length s c h

theorem mem_stripSecLabel {t : Str} {c : Char} (h : c ∈ stripSecLabel t) :
    c ∈ t := by
  rw [stripSecLabel] at h
  cases hp : parseSecLabel t with
  | none => rw [hp] at h; exact h
  | some rest =>
    rw [hp] at h
    exact (parseSecLabel_suffix hp).sublist.subset (mem_pstrip h)

theorem mem_computeTitle {raw : Str} {c : Char} (h : c ∈ computeTitle raw) :
    c ∈ raw ∨ c = ':' ∨ c = ' ' := by
  rw [computeTitle] at h
  rcases mem_normEmDash h with h2 | h2
  · exact Or.inl ((List.drop_subset 3 raw) (mem_pstrip (mem_stripSecLabel h2)))
  · exact Or.inr h2

theorem mem_parseSubLabel {s r : Str} (h : parseSubLabel s = some r) :
    ∀ c ∈ r, c ∈ s := by
  simp only [parseSubLabel] at h
  split at h
  · cases h
  · split at h
    next r2 heq =>
      split at h
      · cases h
      · injection h with h
        intro c hc
        rw [← h] at hc
        have hc2 := mem_dropWhile hc
        have hcr2 : c ∈ r2 := by
          split at hc2
          next t heq2 =>
            have hcE : c ∈ (r2.drop
                (min 2 (r2.takeWhile Char.isDigit).length)).dropWhile isPySpace :=
              heq2.symm ▸ (List.mem_cons_of_mem ':' hc2)
            exact (List.drop_subset _ _) (mem_dropWhile hcE)
          next =>
            exact (List.drop_subset _ _) (mem_dropWhile hc2)
        have hcX := mem_dropWhile (heq.symm ▸ (List.mem_cons_of_mem '.' hcr2))
        revert hcX
        cases hd : dropCI ("subsection".toList) s with
        | none => intro hcX; exact hcX
        | some r1 =>
          cases r1 with
          | nil => intro hcX; exact hcX
          | cons c2 cs =>
            intro hcX
            replace hcX : c ∈ (if isPySpace c2 = true
                then cs.dropWhile isPySpace else s) := hcX
            by_cases hc2sp : isPySpace c2 = true
            · rw [if_pos hc2sp] at hcX
              refine (dropCI_suffix _ s _ hd).sublist.subset ?_
              exact List.mem_cons_of_mem c2 (mem_dropWhile hcX)
            · rw [if_neg hc2sp] at hcX
              exact hcX
    next => cases h

theorem mem_stripSubLabel {t : Str} {c : Char} (h : c ∈ stripSubLabel t) :
    c ∈ t := by
  rw [stripSubLabel] at h
  cases hp : parseSubLabel t with
  | none => rw [hp] at h; exact h
  | some rest =>
    rw [hp] at h
    exact mem_parseSubLabel hp c (mem_pstrip h)

theorem mem_computeSubTitle {raw : Str} {c : Char} (h : c ∈ computeSubTitle raw) :
    c ∈ raw ∨ c = ':' ∨ c = ' ' := by
  rw [computeSubTitle] at h
  rcases mem_normEmDash h with h2 | h2
  · exact Or.inl ((List.drop_subset 4 raw) (mem_pstrip (mem_stripSubLabel h2)))
  · exact Or.inr h2

/-! ### Fixed points of the title computations -/

theorem normEmDashF_of_not_mem : ∀ (fuel : Nat) (s : Str), s.length ≤ fuel →
    emDash ∉ s → normEmDashF fuel s = s := by
  intro fuel
  induction fuel with
  | zero =>
    intro s hlen _
    match s with
    | [] => rfl
  | succ fuel ih =>
    intro s hlen hmem
    match s with
    | [] => rfl
    | a :: as =>
      rw [normEmDashF]
      cases hdw : (a :: as).dropWhile isPySpace with
      | nil =>
        rw [List.cons.injEq]
        refine ⟨rfl, ih as ?_ ?_⟩
        · simp only [List.length_cons] at hlen; omega
        · intro hx; exact hmem (List.mem_cons_of_mem a hx)
      | cons d tl =>
        have hd : (d == emDash) = false := by
          apply beq_false_of_ne
          intro hde
          apply hmem
          have : d ∈ (a :: as).dropWhile isPySpace := by
            rw [hdw]; exact List.mem_cons_self d tl
          exact hde ▸ mem_dropWhile this
        show (if (d == emDash) = true
            then ':' :: ' ' :: normEmDashF fuel (tl.dropWhile isPySpace)
            else a :: normEmDashF fuel as) = a :: as
        rw [hd]
        simp only [Bool.false_eq_true, if_false]
        rw [List.cons.injEq]
        refine ⟨rfl, ih as ?_ ?_⟩
        · simp only [List.length_cons] at hlen; omega
        · intro hx; exact hmem (List.mem_cons_of_mem a hx)

theorem normEmDash_of_not_mem {s : Str} (h : emDash ∉ s) : normEmDash s = s :=
  normEmDashF_of_not_mem s.length s le_rfl h

theorem stripSecLabel_stripped {t : Str} (h : pstrip t = t) :
    pstrip (stripSecLabel t) = stripSecLabel t := by
  rw [stripSecLabel]
  cases hp : parseSecLabel t with
  | none => exact h
  | some rest => exact pstrip_pstrip rest

/-! ### Parse-back lemmas: already-normalized headings re-derive the same title -/

theorem rstrip_of_all_nonspace {l : Str} (h : ∀ c ∈ l, isPySpace c = false) :
    rstrip l = l := by
  rw [rstrip, dropWhile_eq_self_of_all, List.reverse_reverse]
  intro c hc
  exact h c (List.mem_reverse.mp hc)

theorem dropWhile_append_of_nil {p : Char → Bool} {l1 : Str} (l2 : Str)
    (h : l1.dropWhile p = []) : (l1 ++ l2).dropWhile p = l2.dropWhile p := by
  induction l1 with
  | nil => rfl
  | cons a as ih =>
    by_cases ha : p a = true
    · rw [List.dropWhile_cons_of_pos ha] at h
      rw [List.cons_append, List.dropWhile_cons_of_pos ha]
      exact ih h
    · rw [List.dropWhile_cons_of_neg ha] at h
      cases h

theorem rstrip_append_of_nil {a b : Str} (h : rstrip b = []) :
    rstrip (a ++ b) = rstrip a := by
  have hb : b.reverse.dropWhile isPySpace = [] := by
    have := congrArg List.reverse h
    rwa [rstrip, List.reverse_reverse, List.reverse_nil] at this
  rw [rstrip, List.reverse_append, dropWhile_append_of_nil _ hb, rstrip]

theorem rstrip_append_of_ne {a b : Str} (h : rstrip b ≠ []) :
    rstrip (a ++ b) = a ++ rstrip b := by
  have hb : b.reverse.dropWhile isPySpace ≠ [] := by
    intro hx
    apply h
    rw [rstrip, hx, List.reverse_nil]
  rw [rstrip, List.reverse_append, dropWhile_append_of_ne _ hb,
    List.reverse_append, List.reverse_reverse, rstrip]

theorem rstrip_cons_of_ne {c : Char} {s : Str} (h : rstrip s ≠ []) :
    rstrip (c :: s) = c :: rstrip s := by
  have : rstrip ([c] ++ s) = [c] ++ rstrip s := rstrip_append_of_ne h
  rwa [List.singleton_append, List.singleton_append] at this

theorem rstrip_append_last {l : Str} {c : Char} (hc : isPySpace c = false) :
    rstrip (l ++ [c]) = l ++ [c] := by
  rw [rstrip, List.reverse_append, List.reverse_singleton, List.singleton_append,
    List.dropWhile_cons_of_neg (by rw [hc]; exact Bool.false_ne_true),
    List.reverse_cons, List.reverse_reverse]

theorem rstrip_append_space {l : Str} {c : Char} (hc : isPySpace c = true) :
    rstrip (l ++ [c]) = rstrip l := by
  rw [rstrip, List.reverse_append, List.reverse_singleton, List.singleton_append,
    List.dropWhile_cons_of_pos hc, rstrip]

theorem startsWith_pstrip {X pat : Str} (hne : pat ≠ [])
    (hns : ∀ c ∈ pat, isPySpace c = false)
    (h : startsWithStr X pat = true) : startsWithStr (pstrip X) pat = true := by
  obtain ⟨r, rfl⟩ := exists_of_startsWithStr h
  match pat, hne with
  | p :: ps, _ =>
    have hp : isPySpace p = false := hns p (List.mem_cons_self p ps)
    rw [pstrip, lstrip, List.cons_append,
      List.dropWhile_cons_of_neg (by rw [hp]; exact Bool.false_ne_true),
      ← List.cons_append]
    by_cases hr : rstrip r = []
    · rw [rstrip_append_of_nil hr, rstrip_of_all_nonspace hns]
      have := startsWithStr_append (p :: ps) []
      rwa [List.append_nil] at this
    · rw [rstrip_append_of_ne hr]
      exact startsWithStr_append (p :: ps) (rstrip r)

theorem parseSecLabel_none_of_not_section {T : Str}
    (hn : startsWithStr (pstrip (lowerStr T)) ("section".toList) = false) :
    parseSecLabel T = none := by
  cases hp : parseSecLabel T with
  | none => rfl
  | some r =>
    exfalso
    rw [parseSecLabel] at hp
    cases hd : dropCI ("section".toList) T with
    | none => rw [hd] at hp; cases hp
    | some r1 =>
      have h1 := dropCI_lower_startsWith _ _ _ hd
      have h2 := startsWith_pstrip (by decide)
        (by decide) h1
      rw [hn] at h2
      cases h2

theorem natStr_ne_nil {k : Nat} (h2 : k ≤ 99) : natStr k ≠ [] := by
  by_cases h : k < 10
  · rw [natStr_one_digit h]; simp
  · rw [natStr_two_digit (by omega) h2]; simp

theorem natStr_len_le {k : Nat} (h2 : k ≤ 99) : (natStr k).length ≤ 2 := by
  by_cases h : k < 10
  · rw [natStr_one_digit h]; simp
  · rw [natStr_two_digit (by omega) h2]; simp

theorem takeDigitsColon_concrete {ds R : Str} (hne : ds ≠ [])
    (hdig : ∀ c ∈ ds, c.isDigit = true) (hlen : ds.length ≤ 2) :
    takeDigitsColon (ds ++ ':' :: R) = some (R.dropWhile isPySpace) := by
  obtain ⟨tw, dw⟩ := takeWhile_append_all hdig (show Char.isDigit ':' = false by decide) R
  rw [takeDigitsColon]
  simp only [tw, dw]
  have hempty : ds.isEmpty = false := by
    cases ds with
    | nil => exact absurd rfl hne
    | cons _ _ => rfl
  have hdec : decide (2 < ds.length) = false := by
    rw [decide_eq_false_iff_not]
    omega
  rw [hempty, hdec]
  simp only [Bool.or_self, Bool.false_eq_true, if_false]
  rw [List.dropWhile_cons_of_neg (by decide)]
  rfl

theorem dropCI_section_literal (q : Str) :
    dropCI ("section".toList) ("Section ".toList ++ q) = some (' ' :: q) := rfl

theorem parseSecLabel_concrete {ds R : Str} (hne : ds ≠ [])
    (hdig : ∀ c ∈ ds, c.isDigit = true) (hlen : ds.length ≤ 2) :
    parseSecLabel ("Section ".toList ++ (ds ++ ':' :: R)) =
      some (R.dropWhile isPySpace) := by
  rw [parseSecLabel, dropCI_section_literal]
  show (if isPySpace ' ' = true then
      takeDigitsColon ((ds ++ ':' :: R).dropWhile isPySpace) else none) =
    some (R.dropWhile isPySpace)
  rw [if_pos (by decide)]
  obtain ⟨d, ds', rfl⟩ : ∃ d ds', ds = d :: ds' := by
    cases ds with
    | nil => exact absurd rfl hne
    | cons d ds' => exact ⟨d, ds', rfl⟩
  have hd : isPySpace d = false :=
    isPySpace_false_of_digit (hdig d (List.mem_cons_self d ds'))
  rw [List.cons_append,
    List.dropWhile_cons_of_neg (by rw [hd]; exact Bool.false_ne_true),
    ← List.cons_append]
  exact takeDigitsColon_concrete hne hdig hlen

/-! ### Title stability of normalized heading lines -/

theorem lstrip_section (Y : Str) :
    lstrip ("Section ".toList ++ Y) = "Section ".toList ++ Y := by
  show lstrip ('S' :: ("ection ".toList ++ Y)) = "Section ".toList ++ Y
  rw [lstrip, List.dropWhile_cons_of_neg (by decide)]
  rfl

theorem computeTitle_secLabel {k : Nat} {T : Str} (h2 : k ≤ 99)
    (hT : pstrip T = T) (hdash : emDash ∉ T) :
    computeTitle (h2Mark ++ secLabel k T) = T := by
  have hds_ne := natStr_ne_nil h2
  have hds_dig := natStr_digits k
  have hds_len := natStr_len_le h2
  rw [computeTitle]
  have hdrop : (h2Mark ++ secLabel k T).drop 3 = secLabel k T := List.drop_left h2Mark _
  rw [hdrop]
  have hcolon : (": ".toList : Str) = ':' :: [' '] := rfl
  have hsl : secLabel k T = "Section ".toList ++ (natStr k ++ (':' :: (' ' :: T))) := by
    rw [secLabel, hcolon]
    simp
  rw [hsl]
  by_cases hTnil : T = []
  · subst hTnil
    have hps : pstrip ("Section ".toList ++ (natStr k ++ (':' :: (' ' :: [])))) =
        "Section ".toList ++ (natStr k ++ [':']) := by
      have hassoc : "Section ".toList ++ (natStr k ++ [':', ' ']) =
          ("Section ".toList ++ (natStr k ++ [':'])) ++ [' '] := by
        simp
      rw [hassoc, pstrip]
      have hl : lstrip (("Section ".toList ++ (natStr k ++ [':'])) ++ [' ']) =
          ("Section ".toList ++ (natStr k ++ [':'])) ++ [' '] := by
        have h0 := lstrip_section ((natStr k ++ [':']) ++ [' '])
        rwa [← List.append_assoc] at h0
      rw [hl, rstrip_append_space (by decide)]
      have e5 : rstrip (natStr k ++ [':']) = natStr k ++ [':'] :=
        rstrip_append_last (by decide)
      rw [rstrip_append_of_ne (by rw [e5]; simp), e5]
    rw [hps, stripSecLabel, parseSecLabel_concrete hds_ne hds_dig hds_len]
    rfl
  · have hrT : rstrip T = T := rstrip_of_pstrip_fix hT
    have hlT : lstrip T = T := lstrip_of_pstrip_fix hT
    have hr1 : rstrip (' ' :: T) = ' ' :: T := by
      rw [rstrip_cons_of_ne (by rw [hrT]; exact hTnil), hrT]
    have e3 : rstrip (':' :: (' ' :: T)) = ':' :: (' ' :: T) := by
      rw [rstrip_cons_of_ne (by rw [hr1]; exact List.cons_ne_nil _ _), hr1]
    have e4 : rstrip (natStr k ++ (':' :: (' ' :: T))) =
        natStr k ++ (':' :: (' ' :: T)) := by
      rw [rstrip_append_of_ne (by rw [e3]; exact List.cons_ne_nil _ _), e3]
    have hps : pstrip ("Section ".toList ++ (natStr k ++ (':' :: (' ' :: T)))) =
        "Section ".toList ++ (natStr k ++ (':' :: (' ' :: T))) := by
      rw [pstrip, lstrip_section, rstrip_append_of_ne (by rw [e4]; simp), e4]
    rw [hps, stripSecLabel, parseSecLabel_concrete hds_ne hds_dig hds_len]
    show normEmDash (pstrip ((' ' :: T).dropWhile isPySpace)) = T
    rw [List.dropWhile_cons_of_pos (by decide)]
    have hlc : T.dropWhile isPySpace = T := hlT
    rw [hlc, hT]
    exact normEmDash_of_not_mem hdash

theorem computeTitle_bare {T : Str} (hT : pstrip T = T) (hdash : emDash ∉ T)
    (hp : parseSecLabel T = none) : computeTitle (h2Mark ++ T) = T := by
  rw [computeTitle]
  have hdrop : (h2Mark ++ T).drop 3 = T := List.drop_left h2Mark T
  rw [hdrop, hT, stripSecLabel, hp]
  exact normEmDash_of_not_mem hdash

theorem h2_not_h3 (t : Str) : startsWithStr (h2Mark ++ t) h3Mark = false := rfl

theorem isSecLine_h2 (t : Str) : isSecLine (h2Mark ++ t) = true := by
  rw [isSecLine, startsWithStr_append, h2_not_h3]
  rfl

/-! ### Replacement-dictionary lemmas -/

theorem lookupRepl_nil (i : Nat) : lookupRepl i [] = none := rfl

theorem lookupRepl_append (i : Nat) (a b : List (Nat × Str)) :
    lookupRepl i (a ++ b) = (lookupRepl i b).or (lookupRepl i a) := by
  rw [lookupRepl, lookupRepl, lookupRepl, List.reverse_append, List.find?_append]
  cases hb : b.reverse.find? (fun p => p.1 == i) with
  | none => rfl
  | some q => rfl

theorem lookupRepl_eq_none {i : Nat} {repl : List (Nat × Str)}
    (h : ∀ q ∈ repl, q.1 ≠ i) : lookupRepl i repl = none := by
  rw [lookupRepl]
  have hf : repl.reverse.find? (fun p => p.1 == i) = none := by
    rw [List.find?_eq_none]
    intro q hq hcontra
    have hqi : q.1 = i := by simpa using hcontra
    exact h q (List.mem_reverse.mp hq) hqi
  rw [hf]
  rfl

theorem lookupRepl_mem {i : Nat} {repl : List (Nat × Str)} {v : Str}
    (h : lookupRepl i repl = some v) : (i, v) ∈ repl := by
  rw [lookupRepl] at h
  cases hf : repl.reverse.find? (fun p => p.1 == i) with
  | none => rw [hf] at h; cases h
  | some q =>
    rw [hf] at h
    have hq1 : (q.1 == i) = true := by
      have h0 := List.find?_some hf
      simpa using h0
    have hqm : q ∈ repl := List.mem_reverse.mp (List.mem_of_find?_eq_some hf)
    have hv : q.2 = v := by
      cases h
      rfl
    have : q = (i, v) := by
      obtain ⟨q1, q2⟩ := q
      simp only [beq_iff_eq] at hq1
      simp only at hv
      rw [hq1, hv]
    rwa [this] at hqm

theorem lookupRepl_single_self (i : Nat) (v : Str) :
    lookupRepl i [(i, v)] = some v := by
  simp [lookupRepl]

theorem applyReplFrom_length (repl : List (Nat × Str)) :
    ∀ (ls : List Str) (i : Nat), (applyReplFrom repl i ls).length = ls.length := by
  intro ls
  induction ls with
  | nil => intro i; rfl
  | cons l ls ih =>
    intro i
    rw [applyReplFrom, List.length_cons, List.length_cons, ih]

theorem applyRepl_length (repl : List (Nat × Str)) (lines : List Str) :
    (applyRepl repl lines).length = lines.length :=
  applyReplFrom_length repl lines 0

theorem applyReplFrom_getD (repl : List (Nat × Str)) :
    ∀ (ls : List Str) (i j : Nat), j < ls.length →
    (applyReplFrom repl i ls).getD j [] =
      (match lookupRepl (i + j) repl with
       | some v => v
       | none => ls.getD j []) := by
  intro ls
  induction ls with
  | nil => intro i j hj; cases hj
  | cons l ls ih =>
    intro i j hj
    cases j with
    | zero => rfl
    | succ j =>
      rw [applyReplFrom, List.getD_cons_succ, List.getD_cons_succ]
      have harith : i + 1 + j = i + (j + 1) := by omega
      rw [ih (i + 1) j (by simpa using Nat.lt_of_succ_lt_succ hj), harith]

theorem applyRepl_getD {repl : List (Nat × Str)} {lines : List Str} {j : Nat}
    (hj : j < lines.length) :
    (applyRepl repl lines).getD j [] =
      (match lookupRepl j repl with
       | some v => v
       | none => lines.getD j []) := by
  rw [applyRepl, applyReplFrom_getD repl lines 0 j hj, Nat.zero_add]

theorem applyRepl_nil (lines : List Str) : applyRepl [] lines = lines := by
  rw [applyRepl]
  have : ∀ (ls : List Str) (i : Nat), applyReplFrom [] i ls = ls := by
    intro ls
    induction ls with
    | nil => intro i; rfl
    | cons l ls ih => intro i; rw [applyReplFrom, lookupRepl_nil, ih]
  exact this lines 0

theorem applyReplFrom_forall {P : Str → Prop} {repl : List (Nat × Str)}
    (hv : ∀ q ∈ repl, P q.2) :
    ∀ (ls : List Str) (i : Nat), (∀ l ∈ ls, P l) →
    ∀ l ∈ applyReplFrom repl i ls, P l := by
  intro ls
  induction ls with
  | nil => intro i _ l hl; cases hl
  | cons x xs ih =>
    intro i hls l hl
    rw [applyReplFrom] at hl
    rcases List.mem_cons.mp hl with h | h
    · cases hlk : lookupRepl i repl with
      | none => rw [hlk] at h; exact h ▸ hls x (List.mem_cons_self x xs)
      | some v =>
        rw [hlk] at h
        exact h ▸ hv (i, v) (lookupRepl_mem hlk)
    · exact ih (i + 1) (fun y hy => hls y (List.mem_cons_of_mem x hy)) l h

/-! ### Structure of the replacement entries produced by the heading loops -/

theorem no_nl_natStr (k : Nat) : ('\n' : Char) ∉ natStr k := by
  intro hx
  have := natStr_digits k _ hx
  exact absurd this (by decide)

theorem no_nl_title {raw : Str} (h : ('\n' : Char) ∉ raw) :
    ('\n' : Char) ∉ computeTitle raw := by
  intro hx
  rcases mem_computeTitle hx with h2 | h2 | h2
  · exact h h2
  · exact absurd h2 (by decide)
  · exact absurd h2 (by decide)

theorem no_nl_subtitle {raw : Str} (h : ('\n' : Char) ∉ raw) :
    ('\n' : Char) ∉ computeSubTitle raw := by
  intro hx
  rcases mem_computeSubTitle hx with h2 | h2 | h2
  · exact h h2
  · exact absurd h2 (by decide)
  · exact absurd h2 (by decide)

theorem no_nl_secLabel {k : Nat} {T : Str} (h : ('\n' : Char) ∉ T) :
    ('\n' : Char) ∉ secLabel k T := by
  intro hx
  rw [secLabel] at hx
  simp only [List.mem_append] at hx
  rcases hx with ((hx | hx) | hx) | hx
  · exact absurd hx (by decide)
  · exact no_nl_natStr k hx
  · exact absurd hx (by decide)
  · exact h hx

theorem contains_excluded {total pos : Nat} {T : Str}
    (hc : excludedHeadings.contains (pstrip (lowerStr T)) = true) :
    headKind total pos T = HKind.excluded := by
  have hm : pstrip (lowerStr T) ∈ excludedHeadings := by simpa using hc
  simp [headKind, hm]

theorem no_nl_subNewLine {kind : HKind} {bc sc : Nat} {l : Str}
    (h : ('\n' : Char) ∉ l) : ('\n' : Char) ∉ subNewLine kind bc sc l := by
  cases kind with
  | body =>
    intro hx
    simp only [subNewLine, List.mem_append] at hx
    rcases hx with ((((hx | hx) | hx) | hx) | hx) | hx
    · exact absurd hx (by decide)
    · exact no_nl_natStr bc hx
    · exact absurd hx (by decide)
    · exact no_nl_natStr (sc + 1) hx
    · exact absurd hx (by decide)
    · exact no_nl_subtitle h hx
  | intro =>
    intro hx
    simp only [subNewLine, List.mem_append] at hx
    rcases hx with hx | hx
    · exact absurd hx (by decide)
    · exact no_nl_subtitle h hx
  | concl =>
    intro hx
    simp only [subNewLine, List.mem_append] at hx
    rcases hx with hx | hx
    · exact absurd hx (by decide)
    · exact no_nl_subtitle h hx
  | excluded =>
    intro hx
    simp only [subNewLine, List.mem_append] at hx
    rcases hx with hx | hx
    · exact absurd hx (by decide)
    · exact no_nl_subtitle h hx

theorem headNewLine_h2 (kind : HKind) (k : Nat) (T : Str) :
    ∃ t, headNewLine kind k T = h2Mark ++ t := by
  cases kind with
  | body => exact ⟨secLabel k T, rfl⟩
  | intro => exact ⟨T, rfl⟩
  | concl => exact ⟨T, rfl⟩
  | excluded => exact ⟨T, rfl⟩

theorem no_nl_headNewLine {kind : HKind} {k : Nat} {T : Str}
    (h : ('\n' : Char) ∉ T) : ('\n' : Char) ∉ headNewLine kind k T := by
  cases kind with
  | body =>
    intro hx
    simp only [headNewLine, List.mem_append] at hx
    rcases hx with hx | hx
    · exact absurd hx (by decide)
    · exact no_nl_secLabel h hx
  | intro =>
    intro hx
    simp only [headNewLine, List.mem_append] at hx
    rcases hx with hx | hx
    · exact absurd hx (by decide)
    · exact h hx
  | concl =>
    intro hx
    simp only [headNewLine, List.mem_append] at hx
    rcases hx with hx | hx
    · exact absurd hx (by decide)
    · exact h hx
  | excluded =>
    intro hx
    simp only [headNewLine, List.mem_append] at hx
    rcases hx with hx | hx
    · exact absurd hx (by decide)
    · exact h hx

theorem buildSubs_entries (lines : List Str) (kind : HKind) (bc : Nat) :
    ∀ (js : List Nat) (sc : Nat), ∀ q ∈ (buildSubs lines kind bc js sc).1,
    q.1 ∈ js ∧ startsWithStr (lines.getD q.1 []) h3Mark = true ∧
      (('\n' : Char) ∉ lines.getD q.1 [] → ('\n' : Char) ∉ q.2) := by
  intro js
  induction js with
  | nil => intro sc q hq; cases hq
  | cons j js ih =>
    intro sc q hq
    simp only [buildSubs] at hq
    by_cases hs : startsWithStr (lines.getD j []) h3Mark = true
    · rw [if_pos hs] at hq
      by_cases hb : (subNewLine kind bc sc (lines.getD j []) == lines.getD j []) = true
      · rw [if_pos hb] at hq
        obtain ⟨h1, h2, h3⟩ := ih (subScNew kind sc) q hq
        exact ⟨List.mem_cons_of_mem j h1, h2, h3⟩
      · rw [if_neg hb] at hq
        rcases List.mem_cons.mp hq with h | h
        · subst h
          exact ⟨List.mem_cons_self j js, hs, fun hnl => no_nl_subNewLine hnl⟩
        · obtain ⟨h1, h2, h3⟩ := ih (subScNew kind sc) q h
          exact ⟨List.mem_cons_of_mem j h1, h2, h3⟩
    · rw [if_neg hs] at hq
      obtain ⟨h1, h2, h3⟩ := ih sc q hq
      exact ⟨List.mem_cons_of_mem j h1, h2, h3⟩

set_option maxHeartbeats 1000000 in
theorem buildAux_entries (lines : List Str) (total : Nat) :
    ∀ (suf : List Nat) (pos bc : Nat), ∀ q ∈ (buildAux lines total suf pos bc).1,
    ((q.1 ∈ suf ∧ (∃ t, q.2 = h2Mark ++ t) ∧
        excludedHeadings.contains
          (pstrip (lowerStr (computeTitle (lines.getD q.1 [])))) = false)
      ∨ startsWithStr (lines.getD q.1 []) h3Mark = true) ∧
    (('\n' : Char) ∉ lines.getD q.1 [] → ('\n' : Char) ∉ q.2) := by
  intro suf
  induction suf with
  | nil => intro pos bc q hq; cases hq
  | cons i rest ih =>
    intro pos bc q hq
    simp only [buildAux] at hq
    by_cases hex : (headKind total pos (computeTitle (lines.getD i []))
        == HKind.excluded) = true
    · rw [if_pos hex] at hq
      obtain ⟨hor, hnl⟩ := ih (pos + 1) bc q hq
      refine ⟨?_, hnl⟩
      rcases hor with ⟨h1, h2, h3⟩ | h
      · exact Or.inl ⟨List.mem_cons_of_mem i h1, h2, h3⟩
      · exact Or.inr h
    · rw [if_neg hex] at hq
      have hcont : excludedHeadings.contains
          (pstrip (lowerStr (computeTitle (lines.getD i [])))) = false := by
        cases hc : excludedHeadings.contains
            (pstrip (lowerStr (computeTitle (lines.getD i [])))) with
        | false => rfl
        | true =>
          exfalso
          apply hex
          rw [contains_excluded hc]
          rfl
      by_cases hb : (headNewLine (headKind total pos (computeTitle (lines.getD i [])))
          (bcStep (headKind total pos (computeTitle (lines.getD i []))) bc)
          (computeTitle (lines.getD i [])) == lines.getD i []) = true
      · rw [if_pos hb] at hq
        rcases List.mem_append.mp hq with h1 | h1
        · rcases List.mem_append.mp h1 with h2 | h2
          · exact absurd h2 (List.not_mem_nil q)
          · obtain ⟨hj1, hj2, hj3⟩ := buildSubs_entries lines _ _ _ _ q h2
            exact ⟨Or.inr hj2, hj3⟩
        · obtain ⟨hor, hnl⟩ := ih (pos + 1)
            (bcStep (headKind total pos (computeTitle (lines.getD i []))) bc) q h1
          refine ⟨?_, hnl⟩
          rcases hor with ⟨ha, hb2, hc2⟩ | h
          · exact Or.inl ⟨List.mem_cons_of_mem i ha, hb2, hc2⟩
          · exact Or.inr h
      · rw [if_neg hb] at hq
        rcases List.mem_append.mp hq with h1 | h1
        · rcases List.mem_append.mp h1 with h2 | h2
          · have hq2 : q = (i, headNewLine
                (headKind total pos (computeTitle (lines.getD i [])))
                (bcStep (headKind total pos (computeTitle (lines.getD i []))) bc)
                (computeTitle (lines.getD i []))) := by
              rcases List.mem_cons.mp h2 with h3 | h3
              · exact h3
              · exact absurd h3 (List.not_mem_nil q)
            subst hq2
            refine ⟨Or.inl ⟨List.mem_cons_self i rest, headNewLine_h2 _ _ _, hcont⟩, ?_⟩
            intro hnl
            exact no_nl_headNewLine (no_nl_title hnl)
          · obtain ⟨hj1, hj2, hj3⟩ := buildSubs_entries lines _ _ _ _ q h2
            exact ⟨Or.inr hj2, hj3⟩
        · obtain ⟨hor, hnl⟩ := ih (pos + 1)
            (bcStep (headKind total pos (computeTitle (lines.getD i []))) bc) q h1
          refine ⟨?_, hnl⟩
          rcases hor with ⟨ha, hb2, hc2⟩ | h
          · exact Or.inl ⟨List.mem_cons_of_mem i ha, hb2, hc2⟩
          · exact Or.inr h

/-! ### Positional characterization of the heading replacements -/

theorem not_h3_of_secLine {l : Str} (h : isSecLine l = true) :
    startsWithStr l h3Mark = false := by
  rw [isSecLine, Bool.and_eq_true] at h
  simpa using h.2

theorem lookupRepl_buildSubs_none {lines : List Str} {kind : HKind}
    {bc : Nat} {js : List Nat} {sc : Nat} {i : Nat}
    (hsec : isSecLine (lines.getD i []) = true) :
    lookupRepl i ((buildSubs lines kind bc js sc).1) = none := by
  apply lookupRepl_eq_none
  intro q hq hqi
  obtain ⟨_, h2, _⟩ := buildSubs_entries lines kind bc js sc q hq
  rw [hqi] at h2
  rw [not_h3_of_secLine hsec] at h2
  cases h2

theorem lookupRepl_buildAux_none {lines : List Str} {total : Nat}
    {suf : List Nat} {pos bc : Nat} {i : Nat}
    (hsec : isSecLine (lines.getD i []) = true) (hni : i ∉ suf) :
    lookupRepl i ((buildAux lines total suf pos bc).1) = none := by
  apply lookupRepl_eq_none
  intro q hq hqi
  obtain ⟨hor, _⟩ := buildAux_entries lines total suf pos bc q hq
  rcases hor with ⟨h1, _, _⟩ | h
  · exact hni (hqi ▸ h1)
  · rw [hqi] at h
    rw [not_h3_of_secLine hsec] at h
    cases h

theorem countB_cons {α : Type} (p : α → Bool) (x : α) (l : List α) :
    countB p (x :: l) = (if p x = true then 1 else 0) + countB p l := by
  by_cases h : p x = true
  · rw [countB, List.filter_cons, if_pos h, List.length_cons, if_pos h, countB]
    omega
  · rw [countB, List.filter_cons, if_neg h, if_neg h, countB]
    omega

theorem bcStep_body {kind : HKind} (bc : Nat) (h : (kind == HKind.body) = true) :
    bcStep kind bc = bc + 1 := by
  cases kind with
  | body => rfl
  | intro => cases h
  | concl => cases h
  | excluded => cases h

theorem bcStep_not_body {kind : HKind} (bc : Nat)
    (h : ¬(kind == HKind.body) = true) : bcStep kind bc = bc := by
  cases kind with
  | body => exact absurd rfl h
  | intro => rfl
  | concl => rfl
  | excluded => rfl

theorem getD_mem {l : List Nat} {m : Nat} (h : m < l.length) :
    l.getD m 0 ∈ l := by
  rw [List.getD_eq_getElem l 0 h]
  exact List.getElem_mem h

set_option maxHeartbeats 2000000 in
theorem buildAux_line (lines : List Str) (total : Nat) :
    ∀ (suf : List Nat) (pos bc n : Nat), n < suf.length →
    (∀ i ∈ suf, isSecLine (lines.getD i []) = true) →
    suf.Pairwise (fun a b => a ≠ b) →
    (match lookupRepl (suf.getD n 0) ((buildAux lines total suf pos bc).1) with
     | some v => v
     | none => lines.getD (suf.getD n 0) []) =
    (if (headKind total (pos + n) (computeTitle (lines.getD (suf.getD n 0) []))
        == HKind.excluded) = true then lines.getD (suf.getD n 0) []
     else headNewLine
       (headKind total (pos + n) (computeTitle (lines.getD (suf.getD n 0) [])))
       (bcStep (headKind total (pos + n) (computeTitle (lines.getD (suf.getD n 0) [])))
         (bc + countB (fun p => headKind total p.1 p.2 == HKind.body)
           (enumF pos ((suf.take n).map (fun j => computeTitle (lines.getD j []))))))
       (computeTitle (lines.getD (suf.getD n 0) []))) := by
  intro suf
  induction suf with
  | nil => intro pos bc n hn; cases hn
  | cons i rest ih =>
    intro pos bc n hn hsec hpw
    obtain ⟨hpw1, hpw2⟩ := List.pairwise_cons.mp hpw
    have hseci : isSecLine (lines.getD i []) = true := hsec i (List.mem_cons_self i rest)
    cases n with
    | zero =>
      simp only [List.getD_cons_zero, Nat.add_zero, List.take_zero, List.map_nil,
        enumF, countB, List.filter_nil, List.length_nil]
      simp only [buildAux]
      by_cases hex : (headKind total pos (computeTitle (lines.getD i []))
          == HKind.excluded) = true
      · rw [if_pos hex, if_pos hex]
        rw [lookupRepl_buildAux_none hseci (fun hmem => hpw1 i hmem rfl)]
      · rw [if_neg hex, if_neg hex]
        rw [lookupRepl_append, lookupRepl_buildAux_none hseci
          (fun hmem => hpw1 i hmem rfl), Option.none_or]
        rw [lookupRepl_append, lookupRepl_buildSubs_none hseci, Option.none_or]
        by_cases hbq : (headNewLine
            (headKind total pos (computeTitle (lines.getD i [])))
            (bcStep (headKind total pos (computeTitle (lines.getD i []))) bc)
            (computeTitle (lines.getD i [])) == lines.getD i []) = true
        · rw [if_pos hbq, lookupRepl_nil]
          exact (eq_of_beq hbq).symm
        · rw [if_neg hbq, lookupRepl_single_self]
    | succ m =>
      have hm : m < rest.length := by
        simp only [List.length_cons] at hn
        omega
      have hIH := ih (pos + 1) (bcStep (headKind total pos
        (computeTitle (lines.getD i []))) bc) m hm
        (fun j hj => hsec j (List.mem_cons_of_mem i hj)) hpw2
      simp only [List.getD_cons_succ]
      simp only [buildAux]
      have harith : pos + 1 + m = pos + (m + 1) := by omega
      rw [harith] at hIH
      have hcount : countB (fun p => headKind total p.1 p.2 == HKind.body)
          (enumF pos (((i :: rest).take (m + 1)).map
            (fun j => computeTitle (lines.getD j [])))) =
          (if (headKind total pos (computeTitle (lines.getD i []))
            == HKind.body) = true then 1 else 0) +
          countB (fun p => headKind total p.1 p.2 == HKind.body)
            (enumF (pos + 1) ((rest.take m).map
              (fun j => computeTitle (lines.getD j [])))) := by
        rw [List.take_succ_cons, List.map_cons]
        rw [show enumF pos (computeTitle (lines.getD i []) ::
            (rest.take m).map (fun j => computeTitle (lines.getD j []))) =
          (pos, computeTitle (lines.getD i [])) ::
            enumF (pos + 1) ((rest.take m).map
              (fun j => computeTitle (lines.getD j []))) from rfl]
        rw [countB_cons]
      by_cases hex : (headKind total pos (computeTitle (lines.getD i []))
          == HKind.excluded) = true
      · rw [if_pos hex]
        have hexb : (headKind total pos (computeTitle (lines.getD i []))
            == HKind.body) = false := by
          rw [eq_of_beq hex]
          rfl
        rw [hcount, hexb]
        rw [show bcStep (headKind total pos (computeTitle (lines.getD i []))) bc
          = bc from bcStep_not_body bc (by rw [hexb]; exact Bool.false_ne_true)] at hIH
        simp only [Bool.false_eq_true, if_false, Nat.zero_add]
        exact hIH
      · rw [if_neg hex]
        rw [lookupRepl_append, lookupRepl_append]
        have hik : i ≠ rest.getD m 0 := hpw1 _ (getD_mem hm)
        have hsecm : isSecLine (lines.getD (rest.getD m 0) []) = true :=
          hsec _ (List.mem_cons_of_mem i (getD_mem hm))
        have hsub : lookupRepl (rest.getD m 0)
            ((buildSubs lines (headKind total pos (computeTitle (lines.getD i [])))
              (bcStep (headKind total pos (computeTitle (lines.getD i []))) bc)
              (List.range' (i + 1) (secEndOf lines rest - (i + 1))) 0).1) = none :=
          lookupRepl_buildSubs_none hsecm
        have hhp : ∀ hp1 : List (Nat × Str),
            (∀ q ∈ hp1, q.1 = i) →
            lookupRepl (rest.getD m 0) hp1 = none := by
          intro hp1 hall
          apply lookupRepl_eq_none
          intro q hq hqi
          exact hik (by rw [← hall q hq, hqi])
        rw [hsub, Option.none_or]
        by_cases hbq : (headNewLine
            (headKind total pos (computeTitle (lines.getD i [])))
            (bcStep (headKind total pos (computeTitle (lines.getD i []))) bc)
            (computeTitle (lines.getD i [])) == lines.getD i []) = true
        · rw [if_pos hbq]
          rw [hhp ([] : List (Nat × Str)) (fun q hq => absurd hq (List.not_mem_nil q))]
          rw [Option.or_none, hcount]
          by_cases hkb : (headKind total pos (computeTitle (lines.getD i []))
              == HKind.body) = true
          · rw [hkb]
            rw [bcStep_body bc hkb] at hIH ⊢
            simp only [if_true]
            rw [show bc + (1 + countB (fun p => headKind total p.1 p.2 == HKind.body)
                (enumF (pos + 1) ((rest.take m).map
                  (fun j => computeTitle (lines.getD j []))))) =
              bc + 1 + countB (fun p => headKind total p.1 p.2 == HKind.body)
                (enumF (pos + 1) ((rest.take m).map
                  (fun j => computeTitle (lines.getD j [])))) from by omega]
            exact hIH
          · have hkbf : (headKind total pos (computeTitle (lines.getD i []))
                == HKind.body) = false := by
              cases hx : (headKind total pos (computeTitle (lines.getD i []))
                  == HKind.body) with
              | false => rfl
              | true => exact absurd hx hkb
            rw [hkbf]
            rw [bcStep_not_body bc hkb] at hIH ⊢
            simp only [Bool.false_eq_true, if_false, Nat.zero_add]
            exact hIH
        · rw [if_neg hbq]
          rw [hhp [(i, headNewLine
              (headKind total pos (computeTitle (lines.getD i [])))
              (bcStep (headKind total pos (computeTitle (lines.getD i []))) bc)
              (computeTitle (lines.getD i [])))]
            (by intro q hq; rcases List.mem_cons.mp hq with h | h
                · rw [h]
                · exact absurd h (List.not_mem_nil q))]
          rw [Option.or_none, hcount]
          by_cases hkb : (headKind total pos (computeTitle (lines.getD i []))
              == HKind.body) = true
          · rw [hkb]
            rw [bcStep_body bc hkb] at hIH ⊢
            simp only [if_true]
            rw [show bc + (1 + countB (fun p => headKind total p.1 p.2 == HKind.body)
                (enumF (pos + 1) ((rest.take m).map
                  (fun j => computeTitle (lines.getD j []))))) =
              bc + 1 + countB (fun p => headKind total p.1 p.2 == HKind.body)
                (enumF (pos + 1) ((rest.take m).map
                  (fun j => computeTitle (lines.getD j [])))) from by omega]
            exact hIH
          · have hkbf : (headKind total pos (computeTitle (lines.getD i []))
                == HKind.body) = false := by
              cases hx : (headKind total pos (computeTitle (lines.getD i []))
                  == HKind.body) with
              | false => rfl
              | true => exact absurd hx hkb
            rw [hkbf]
            rw [bcStep_not_body bc hkb] at hIH ⊢
            simp only [Bool.false_eq_true, if_false, Nat.zero_add]
            exact hIH

/-! ### Line splitting and joining -/

theorem splitCharAux_ne_nil (sep : Char) : ∀ (s acc : Str),
    splitCharAux sep s acc ≠ [] := by
  intro s
  induction s with
  | nil => intro acc; simp [splitCharAux]
  | cons c cs ih =>
    intro acc
    rw [splitCharAux]
    by_cases hc : (c == sep) = true
    · rw [if_pos hc]
      simp
    · rw [if_neg hc]
      exact ih (c :: acc)

theorem splitChar_ne_nil (sep : Char) (s : Str) : splitChar sep s ≠ [] :=
  splitCharAux_ne_nil sep s []

theorem splitCharAux_no_sep (sep : Char) : ∀ (s acc : Str), sep ∉ acc →
    ∀ l ∈ splitCharAux sep s acc, sep ∉ l := by
  intro s
  induction s with
  | nil =>
    intro acc hacc l hl
    rw [splitCharAux] at hl
    rcases List.mem_cons.mp hl with h | h
    · rw [h]
      intro hx
      exact hacc (List.mem_reverse.mp hx)
    · exact absurd h (List.not_mem_nil l)
  | cons c cs ih =>
    intro acc hacc l hl
    rw [splitCharAux] at hl
    by_cases hc : (c == sep) = true
    · rw [if_pos hc] at hl
      rcases List.mem_cons.mp hl with h | h
      · rw [h]
        intro hx
        exact hacc (List.mem_reverse.mp hx)
      · exact ih [] (List.not_mem_nil sep) l h
    · rw [if_neg hc] at hl
      refine ih (c :: acc) ?_ l hl
      intro hx
      rcases List.mem_cons.mp hx with h | h
      · have hcs : c ≠ sep := by simpa using hc
        exact hcs h.symm
      · exact hacc h


theorem not_mem_splitChar (sep : Char) (s : Str) :
    ∀ l ∈ splitChar sep s, sep ∉ l :=
  splitCharAux_no_sep sep s [] (List.not_mem_nil sep)

theorem splitCharAux_skip (sep : Char) : ∀ (l r acc : Str), sep ∉ l →
    splitCharAux sep (l ++ r) acc = splitCharAux sep r (l.reverse ++ acc) := by
  intro l
  induction l with
  | nil => intro r acc _; rw [List.nil_append, List.reverse_nil, List.nil_append]
  | cons c cs ih =>
    intro r acc hl
    have hc : (c == sep) = false := by
      apply beq_false_of_ne
      intro h
      exact hl (h ▸ List.mem_cons_self c cs)
    rw [List.cons_append, splitCharAux, hc]
    simp only [Bool.false_eq_true, if_false]
    rw [ih r (c :: acc) (fun hx => hl (List.mem_cons_of_mem c hx))]
    rw [List.reverse_cons, List.append_assoc, List.singleton_append]

theorem splitChar_joinSep (sep : Char) : ∀ (ls : List Str), ls ≠ [] →
    (∀ l ∈ ls, sep ∉ l) → splitChar sep (joinSep [sep] ls) = ls := by
  intro ls
  induction ls with
  | nil => intro h; exact absurd rfl h
  | cons x rest ih =>
    intro _ hno
    cases rest with
    | nil =>
      have hx : sep ∉ x := hno x (List.mem_cons_self x [])
      rw [joinSep, splitChar]
      have hskip := splitCharAux_skip sep x [] [] hx
      rw [List.append_nil, List.append_nil] at hskip
      rw [hskip, splitCharAux, List.reverse_reverse]
    | cons y ys =>
      rw [joinSep, splitChar]
      have hx : sep ∉ x := hno x (List.mem_cons_self x (y :: ys))
      rw [show x ++ [sep] ++ joinSep [sep] (y :: ys) =
        x ++ (sep :: joinSep [sep] (y :: ys)) from by
          rw [List.append_assoc, List.singleton_append]]
      rw [splitCharAux_skip sep x _ [] hx, splitCharAux]
      rw [if_pos (beq_self_eq_true sep), List.append_nil, List.reverse_reverse]
      have := ih (List.cons_ne_nil y ys)
        (fun l hl => hno l (List.mem_cons_of_mem x hl))
      rw [splitChar] at this
      rw [this]

/-! ### Facts about the section-line index list -/

theorem secIdxs_mem {lines : List Str} {fm i : Nat} (h : i ∈ secIdxs lines fm) :
    i < lines.length ∧ isSecLine (lines.getD i []) = true := by
  rw [secIdxs] at h
  have h2 := List.mem_filter.mp h
  refine ⟨List.mem_range.mp h2.1, ?_⟩
  have h3 := h2.2
  rw [Bool.and_eq_true] at h3
  exact h3.2

theorem secIdxs_pairwise (lines : List Str) (fm : Nat) :
    (secIdxs lines fm).Pairwise (fun a b => a ≠ b) := by
  rw [secIdxs]
  exact (List.Pairwise.sublist (List.filter_sublist _)
    (List.pairwise_lt_range _)).imp Nat.ne_of_lt

theorem getD_map_str {l : List Nat} {f : Nat → Str} {n : Nat} (h : n < l.length) :
    (l.map f).getD n [] = f (l.getD n 0) := by
  rw [List.getD_eq_getElem _ _ (by simpa using h), List.getD_eq_getElem _ _ h,
    List.getElem_map]

theorem no_nl_getD (content : Str) (j : Nat) :
    ('\n' : Char) ∉ (splitChar '\n' content).getD j [] := by
  by_cases hj : j < (splitChar '\n' content).length
  · rw [List.getD_eq_getElem _ _ hj]
    exact not_mem_splitChar '\n' content _ (List.getElem_mem hj)
  · rw [List.getD_eq_default _ _ (by omega)]
    exact List.not_mem_nil _

/-! ### The output lines of normalize_headings -/

theorem normalizeHeadings_out (content : Str)
    (hne : (secIdxs (splitChar '\n' content)
      (frontmatterEnd (splitChar '\n' content))).isEmpty = false) :
    normalizeHeadings content =
      (joinSep ['\n'] (applyRepl
        (buildAux (splitChar '\n' content)
          (secIdxs (splitChar '\n' content)
            (frontmatterEnd (splitChar '\n' content))).length
          (secIdxs (splitChar '\n' content) (frontmatterEnd (splitChar '\n' content)))
          0 0).1
        (splitChar '\n' content)),
       (buildAux (splitChar '\n' content)
          (secIdxs (splitChar '\n' content)
            (frontmatterEnd (splitChar '\n' content))).length
          (secIdxs (splitChar '\n' content) (frontmatterEnd (splitChar '\n' content)))
          0 0).2) := by
  simp only [normalizeHeadings]
  rw [hne]
  simp only [Bool.false_eq_true, if_false]

theorem normalizeHeadings_out_lines (content : Str)
    (hne : (secIdxs (splitChar '\n' content)
      (frontmatterEnd (splitChar '\n' content))).isEmpty = false) :
    splitChar '\n' (normalizeHeadings content).1 =
      applyRepl
        (buildAux (splitChar '\n' content)
          (secIdxs (splitChar '\n' content)
            (frontmatterEnd (splitChar '\n' content))).length
          (secIdxs (splitChar '\n' content) (frontmatterEnd (splitChar '\n' content)))
          0 0).1
        (splitChar '\n' content) := by
  rw [normalizeHeadings_out content hne]
  apply splitChar_joinSep
  · intro hnil
    have hlen := applyRepl_length
      (buildAux (splitChar '\n' content)
        (secIdxs (splitChar '\n' content)
          (frontmatterEnd (splitChar '\n' content))).length
        (secIdxs (splitChar '\n' content) (frontmatterEnd (splitChar '\n' content)))
        0 0).1
      (splitChar '\n' content)
    rw [hnil] at hlen
    have h0 := splitChar_ne_nil '\n' content
    have h1 : (splitChar '\n' content).length = 0 := by
      rw [← hlen]
      rfl
    exact h0 (List.length_eq_zero.mp h1)
  · rw [applyRepl]
    apply applyReplFrom_forall
    · intro q hq
      obtain ⟨_, hnl⟩ := buildAux_entries (splitChar '\n' content) _ _ _ _ q hq
      exact hnl (no_nl_getD content q.1)
    · intro l hl
      exact not_mem_splitChar '\n' content l hl

set_option maxHeartbeats 1000000 in
theorem headLine_spec (content : Str) (n : Nat)
    (hn : n < (secIdxs (splitChar '\n' content)
      (frontmatterEnd (splitChar '\n' content))).length) :
    (splitChar '\n' (normalizeHeadings content).1).getD
      ((secIdxs (splitChar '\n' content)
        (frontmatterEnd (splitChar '\n' content))).getD n 0) [] =
    specHeadLine
      (secIdxs (splitChar '\n' content)
        (frontmatterEnd (splitChar '\n' content))).length
      ((secIdxs (splitChar '\n' content)
        (frontmatterEnd (splitChar '\n' content))).map
        (fun j => computeTitle ((splitChar '\n' content).getD j [])))
      n
      ((splitChar '\n' content).getD
        ((secIdxs (splitChar '\n' content)
          (frontmatterEnd (splitChar '\n' content))).getD n 0) []) := by
  have hne : (secIdxs (splitChar '\n' content)
      (frontmatterEnd (splitChar '\n' content))).isEmpty = false := by
    cases hi : secIdxs (splitChar '\n' content)
        (frontmatterEnd (splitChar '\n' content)) with
    | nil => rw [hi] at hn; cases hn
    | cons a l => rfl
  rw [normalizeHeadings_out_lines content hne]
  have hmem := getD_mem hn
  obtain ⟨hlt, hsecn⟩ := secIdxs_mem hmem
  rw [applyRepl_getD hlt]
  have hline := buildAux_line (splitChar '\n' content)
    (secIdxs (splitChar '\n' content)
      (frontmatterEnd (splitChar '\n' content))).length
    (secIdxs (splitChar '\n' content) (frontmatterEnd (splitChar '\n' content)))
    0 0 n hn
    (fun i hi => (secIdxs_mem hi).2)
    (secIdxs_pairwise _ _)
  simp only [Nat.zero_add] at hline
  rw [hline]
  have htit : ((secIdxs (splitChar '\n' content)
      (frontmatterEnd (splitChar '\n' content))).map
        (fun j => computeTitle ((splitChar '\n' content).getD j []))).getD n []
      = computeTitle ((splitChar '\n' content).getD
        ((secIdxs (splitChar '\n' content)
          (frontmatterEnd (splitChar '\n' content))).getD n 0) []) :=
    getD_map_str hn
  simp only [specHeadLine]
  rw [htit, bodyCountBefore, ← List.map_take]
  cases hk : headKind
      (secIdxs (splitChar '\n' content)
        (frontmatterEnd (splitChar '\n' content))).length n
      (computeTitle ((splitChar '\n' content).getD
        ((secIdxs (splitChar '\n' content)
          (frontmatterEnd (splitChar '\n' content))).getD n 0) [])) with
  | excluded => rfl
  | body => rfl
  | intro => rfl
  | concl => rfl

/-! ### Congruence of the heading loops in the line list -/

theorem lt_length_of_secLine {lines : List Str} {i : Nat}
    (h : isSecLine (lines.getD i []) = true) : i < lines.length := by
  by_contra hge
  rw [List.getD_eq_default _ _ (by omega)] at h
  cases h

theorem buildSubs_noh3_nil (lines : List Str) (kind : HKind) (bc : Nat) :
    ∀ (js : List Nat) (sc : Nat),
    (∀ j ∈ js, startsWithStr (lines.getD j []) h3Mark = false) →
    buildSubs lines kind bc js sc = ([], []) := by
  intro js
  induction js with
  | nil => intro sc _; rfl
  | cons j js ih =>
    intro sc h
    simp only [buildSubs]
    rw [h j (List.mem_cons_self j js)]
    simp only [Bool.false_eq_true, if_false]
    exact ih sc (fun x hx => h x (List.mem_cons_of_mem j hx))

theorem secEndOf_congr {l1 l2 : List Str} (hlen : l1.length = l2.length)
    (rest : List Nat) : secEndOf l1 rest = secEndOf l2 rest := by
  cases rest with
  | nil => rw [secEndOf, secEndOf, hlen]
  | cons j js => rfl

theorem buildSubs_congr (l1 l2 : List Str) (kind : HKind) (bc : Nat) :
    ∀ (js : List Nat), (∀ j ∈ js, l1.getD j [] = l2.getD j []) →
    ∀ sc, buildSubs l1 kind bc js sc = buildSubs l2 kind bc js sc := by
  intro js
  induction js with
  | nil => intro _ sc; rfl
  | cons j js ih =>
    intro h sc
    have hj : l1.getD j [] = l2.getD j [] := h j (List.mem_cons_self j js)
    have ih2 := ih (fun x hx => h x (List.mem_cons_of_mem j hx))
    simp only [buildSubs]
    rw [hj, ih2 (subScNew kind sc), ih2 sc]

theorem buildAux_congr (total : Nat) (l1 l2 : List Str)
    (hlen : l1.length = l2.length) :
    ∀ (suf : List Nat) (pos bc : Nat),
    (∀ j : Nat, (∃ i ∈ suf, i ≤ j) → l1.getD j [] = l2.getD j []) →
    buildAux l1 total suf pos bc = buildAux l2 total suf pos bc := by
  intro suf
  induction suf with
  | nil => intro pos bc _; rfl
  | cons i rest ih =>
    intro pos bc h
    have hi : l1.getD i [] = l2.getD i [] :=
      h i ⟨i, List.mem_cons_self i rest, le_rfl⟩
    have hrest : ∀ j : Nat, (∃ i2 ∈ rest, i2 ≤ j) → l1.getD j [] = l2.getD j [] :=
      fun j hj => h j (by
        obtain ⟨i2, hi2, hle⟩ := hj
        exact ⟨i2, List.mem_cons_of_mem i hi2, hle⟩)
    have hsubs := buildSubs_congr l1 l2
      (headKind total pos (computeTitle (l2.getD i [])))
      (bcStep (headKind total pos (computeTitle (l2.getD i []))) bc)
      (List.range' (i + 1) (secEndOf l2 rest - (i + 1)))
      (by
        intro j hjm
        have hr := List.mem_range'_1.mp hjm
        exact h j ⟨i, List.mem_cons_self i rest, by omega⟩)
      0
    simp only [buildAux]
    rw [hi, secEndOf_congr hlen rest, hsubs, ih (pos + 1) bc hrest,
      ih (pos + 1) (bcStep (headKind total pos (computeTitle (l2.getD i []))) bc) hrest]

/-! ### Intro/conclusion synonyms never parse as a Section label -/

theorem headKind_intro_contains {total pos : Nat} {T : Str}
    (h : headKind total pos T = HKind.intro) :
    introPatterns.contains (pstrip (lowerStr T)) = true := by
  simp only [headKind] at h
  split_ifs at h with h1 h2 h3
  exact ((Bool.and_eq_true _ _).mp h2).2

theorem headKind_concl_contains {total pos : Nat} {T : Str}
    (h : headKind total pos T = HKind.concl) :
    conclusionPatterns.contains (pstrip (lowerStr T)) = true := by
  simp only [headKind] at h
  split_ifs at h with h1 h2 h3
  exact ((Bool.and_eq_true _ _).mp h3).2

theorem parseSecLabel_none_of_pats {pats : List Str}
    (hw : ∀ w ∈ pats, startsWithStr w ("section".toList) = false) {T : Str}
    (hmem : pats.contains (pstrip (lowerStr T)) = true) :
    parseSecLabel T = none :=
  parseSecLabel_none_of_not_section (hw _ (by simpa using hmem))

theorem bcStep_le (kind : HKind) (bc : Nat) : bcStep kind bc ≤ bc + 1 := by
  cases kind with
  | body => exact le_rfl
  | intro => exact Nat.le_succ bc
  | concl => exact Nat.le_succ bc
  | excluded => exact Nat.le_succ bc

/-! ### Fixed points and character structure of the computed titles -/

theorem computeTitle_props {raw : Str} (hnod : emDash ∉ raw) :
    pstrip (computeTitle raw) = computeTitle raw ∧ emDash ∉ computeTitle raw := by
  rw [computeTitle]
  have hstr : emDash ∉ stripSecLabel (pstrip (raw.drop 3)) := by
    intro hx
    exact hnod ((List.drop_subset 3 raw) (mem_pstrip (mem_stripSecLabel hx)))
  rw [normEmDash_of_not_mem hstr]
  exact ⟨stripSecLabel_stripped (pstrip_pstrip _), hstr⟩

theorem computeTitle_headNewLine {total pos : Nat} {T : Str} {k : Nat}
    (hk : k ≤ 99) (hT : pstrip T = T) (hd : emDash ∉ T)
    (hex : ¬(headKind total pos T == HKind.excluded) = true) :
    computeTitle (headNewLine (headKind total pos T) k T) = T := by
  cases hkind : headKind total pos T with
  | body =>
    show computeTitle (h2Mark ++ secLabel k T) = T
    exact computeTitle_secLabel hk hT hd
  | intro =>
    show computeTitle (h2Mark ++ T) = T
    refine computeTitle_bare hT hd ?_
    exact parseSecLabel_none_of_pats (by decide) (headKind_intro_contains hkind)
  | concl =>
    show computeTitle (h2Mark ++ T) = T
    refine computeTitle_bare hT hd ?_
    exact parseSecLabel_none_of_pats (by decide) (headKind_concl_contains hkind)
  | excluded =>
    exfalso
    apply hex
    rw [hkind]
    rfl

/-! ### The second run of the heading loop writes nothing -/

set_option maxHeartbeats 4000000 in
theorem roundTwo (lines : List Str) (total : Nat)
    (hnoh3 : ∀ j : Nat, startsWithStr (lines.getD j []) h3Mark = false)
    (hnod : ∀ j : Nat, emDash ∉ lines.getD j []) :
    ∀ (suf : List Nat) (pos bc : Nat),
    suf.Pairwise (fun a b => a < b) →
    (∀ i ∈ suf, isSecLine (lines.getD i []) = true) →
    bc + suf.length ≤ 99 →
    buildAux (applyRepl (buildAux lines total suf pos bc).1 lines) total suf pos bc
      = ([], []) := by
  intro suf
  induction suf with
  | nil => intro pos bc _ _ _; rfl
  | cons i rest ih =>
    intro pos bc hpw hsec hbc
    obtain ⟨hpw1, hpw2⟩ := List.pairwise_cons.mp hpw
    have hseci := hsec i (List.mem_cons_self i rest)
    have hilt : i < lines.length := lt_length_of_secLine hseci
    have hnotmem : i ∉ rest := fun hmem => Nat.lt_irrefl i (hpw1 i hmem)
    have hsecr : ∀ j ∈ rest, isSecLine (lines.getD j []) = true :=
      fun j hj => hsec j (List.mem_cons_of_mem i hj)
    have hbcr : ∀ b2 : Nat, b2 ≤ bc + 1 → b2 + rest.length ≤ 99 := by
      intro b2 hb2
      simp only [List.length_cons] at hbc
      omega
    by_cases hex : (headKind total pos (computeTitle (lines.getD i [])) == HKind.excluded) = true
    · have h1 : buildAux lines total (i :: rest) pos bc =
          buildAux lines total rest (pos + 1) bc := by
        simp only [buildAux]
        rw [if_pos hex]
      rw [h1]
      have hgd : (applyRepl (buildAux lines total rest (pos + 1) bc).1 lines).getD i []
          = lines.getD i [] := by
        rw [applyRepl_getD hilt, lookupRepl_buildAux_none hseci hnotmem]
      simp only [buildAux]
      rw [hgd, if_pos hex]
      exact ih (pos + 1) bc hpw2 hsecr (hbcr bc (Nat.le_succ bc))
    · have htp := computeTitle_props (hnod i)
      have hbck : bcStep (headKind total pos (computeTitle (lines.getD i []))) bc ≤ bc + 1 := bcStep_le _ _
      have h1 : (buildAux lines total (i :: rest) pos bc).1 =
          (if (headNewLine (headKind total pos (computeTitle (lines.getD i []))) (bcStep (headKind total pos (computeTitle (lines.getD i []))) bc) (computeTitle (lines.getD i [])) == lines.getD i []) = true then ([] : List (Nat × Str)) else [(i, headNewLine (headKind total pos (computeTitle (lines.getD i []))) (bcStep (headKind total pos (computeTitle (lines.getD i []))) bc) (computeTitle (lines.getD i [])))]) ++ (buildAux lines total rest (pos + 1) (bcStep (headKind total pos (computeTitle (lines.getD i []))) bc)).1 := by
        simp only [buildAux]
        rw [if_neg hex, buildSubs_noh3_nil lines _ _ _ 0 (fun j _ => hnoh3 j)]
        by_cases hbq : (headNewLine (headKind total pos (computeTitle (lines.getD i []))) (bcStep (headKind total pos (computeTitle (lines.getD i []))) bc) (computeTitle (lines.getD i [])) == lines.getD i []) = true
        · rw [if_pos hbq, if_pos hbq]
          simp
        · rw [if_neg hbq, if_neg hbq]
          simp
      have hgd : (applyRepl ((if (headNewLine (headKind total pos (computeTitle (lines.getD i []))) (bcStep (headKind total pos (computeTitle (lines.getD i []))) bc) (computeTitle (lines.getD i [])) == lines.getD i []) = true then ([] : List (Nat × Str)) else [(i, headNewLine (headKind total pos (computeTitle (lines.getD i []))) (bcStep (headKind total pos (computeTitle (lines.getD i []))) bc) (computeTitle (lines.getD i [])))]) ++ (buildAux lines total rest (pos + 1) (bcStep (headKind total pos (computeTitle (lines.getD i []))) bc)).1) lines).getD i []
          = headNewLine (headKind total pos (computeTitle (lines.getD i []))) (bcStep (headKind total pos (computeTitle (lines.getD i []))) bc) (computeTitle (lines.getD i [])) := by
        rw [applyRepl_getD hilt, lookupRepl_append,
          lookupRepl_buildAux_none hseci hnotmem, Option.none_or]
        by_cases hbq : (headNewLine (headKind total pos (computeTitle (lines.getD i []))) (bcStep (headKind total pos (computeTitle (lines.getD i []))) bc) (computeTitle (lines.getD i [])) == lines.getD i []) = true
        · rw [if_pos hbq, lookupRepl_nil]
          exact (eq_of_beq hbq).symm
        · rw [if_neg hbq, lookupRepl_single_self]
      have hT2 : computeTitle (headNewLine (headKind total pos (computeTitle (lines.getD i []))) (bcStep (headKind total pos (computeTitle (lines.getD i []))) bc) (computeTitle (lines.getD i []))) = (computeTitle (lines.getD i [])) := by
        refine computeTitle_headNewLine ?_ htp.1 htp.2 hex
        simp only [List.length_cons] at hbc
        omega
      have hnoh3two : ∀ j : Nat, startsWithStr
          ((applyRepl ((if (headNewLine (headKind total pos (computeTitle (lines.getD i []))) (bcStep (headKind total pos (computeTitle (lines.getD i []))) bc) (computeTitle (lines.getD i [])) == lines.getD i []) = true then ([] : List (Nat × Str)) else [(i, headNewLine (headKind total pos (computeTitle (lines.getD i []))) (bcStep (headKind total pos (computeTitle (lines.getD i []))) bc) (computeTitle (lines.getD i [])))]) ++ (buildAux lines total rest (pos + 1) (bcStep (headKind total pos (computeTitle (lines.getD i []))) bc)).1) lines).getD j []) h3Mark = false := by
        intro j
        by_cases hj : j < lines.length
        · rw [applyRepl_getD hj]
          cases hlk : lookupRepl j ((if (headNewLine (headKind total pos (computeTitle (lines.getD i []))) (bcStep (headKind total pos (computeTitle (lines.getD i []))) bc) (computeTitle (lines.getD i [])) == lines.getD i []) = true then ([] : List (Nat × Str)) else [(i, headNewLine (headKind total pos (computeTitle (lines.getD i []))) (bcStep (headKind total pos (computeTitle (lines.getD i []))) bc) (computeTitle (lines.getD i [])))]) ++ (buildAux lines total rest (pos + 1) (bcStep (headKind total pos (computeTitle (lines.getD i []))) bc)).1) with
          | none => exact hnoh3 j
          | some v =>
            show startsWithStr v h3Mark = false
            have hmem := lookupRepl_mem hlk
            rcases List.mem_append.mp hmem with hm | hm
            · by_cases hbq : (headNewLine (headKind total pos (computeTitle (lines.getD i []))) (bcStep (headKind total pos (computeTitle (lines.getD i []))) bc) (computeTitle (lines.getD i [])) == lines.getD i []) = true
              · rw [if_pos hbq] at hm
                exact absurd hm (List.not_mem_nil _)
              · rw [if_neg hbq] at hm
                rcases List.mem_cons.mp hm with h | h
                · have hv : v = headNewLine (headKind total pos (computeTitle (lines.getD i []))) (bcStep (headKind total pos (computeTitle (lines.getD i []))) bc) (computeTitle (lines.getD i [])) := congrArg Prod.snd h
                  obtain ⟨t, ht⟩ := headNewLine_h2 (headKind total pos (computeTitle (lines.getD i []))) (bcStep (headKind total pos (computeTitle (lines.getD i []))) bc) (computeTitle (lines.getD i []))
                  rw [hv, ht]
                  exact h2_not_h3 t
                · exact absurd h (List.not_mem_nil _)
            · obtain ⟨hor, _⟩ := buildAux_entries lines total rest (pos + 1)
                (bcStep (headKind total pos (computeTitle (lines.getD i []))) bc) (j, v) hm
              rcases hor with ⟨_, ⟨t, ht⟩, _⟩ | hbad
              · have ht2 : v = h2Mark ++ t := ht
                rw [ht2]
                exact h2_not_h3 t
              · rw [hnoh3 j] at hbad
                cases hbad
        · rw [List.getD_eq_default _ _ (by rw [applyRepl_length]; omega)]
          rfl
      have hcong : buildAux
          (applyRepl ((if (headNewLine (headKind total pos (computeTitle (lines.getD i []))) (bcStep (headKind total pos (computeTitle (lines.getD i []))) bc) (computeTitle (lines.getD i [])) == lines.getD i []) = true then ([] : List (Nat × Str)) else [(i, headNewLine (headKind total pos (computeTitle (lines.getD i []))) (bcStep (headKind total pos (computeTitle (lines.getD i []))) bc) (computeTitle (lines.getD i [])))]) ++ (buildAux lines total rest (pos + 1) (bcStep (headKind total pos (computeTitle (lines.getD i []))) bc)).1) lines)
          total rest (pos + 1) (bcStep (headKind total pos (computeTitle (lines.getD i []))) bc) =
          buildAux (applyRepl (buildAux lines total rest (pos + 1) (bcStep (headKind total pos (computeTitle (lines.getD i []))) bc)).1 lines) total rest (pos + 1)
            (bcStep (headKind total pos (computeTitle (lines.getD i []))) bc) := by
        apply buildAux_congr
        · rw [applyRepl_length, applyRepl_length]
        · intro j hj
          obtain ⟨i2, hi2, hle⟩ := hj
          have hij : i < j := lt_of_lt_of_le (hpw1 i2 hi2) hle
          by_cases hjlen : j < lines.length
          · rw [applyRepl_getD hjlen, applyRepl_getD hjlen, lookupRepl_append]
            rw [show lookupRepl j (if (headNewLine (headKind total pos (computeTitle (lines.getD i []))) (bcStep (headKind total pos (computeTitle (lines.getD i []))) bc) (computeTitle (lines.getD i [])) == lines.getD i []) = true then ([] : List (Nat × Str)) else [(i, headNewLine (headKind total pos (computeTitle (lines.getD i []))) (bcStep (headKind total pos (computeTitle (lines.getD i []))) bc) (computeTitle (lines.getD i [])))]) = none from
              lookupRepl_eq_none (by
                intro q hq
                by_cases hbq : (headNewLine (headKind total pos (computeTitle (lines.getD i []))) (bcStep (headKind total pos (computeTitle (lines.getD i []))) bc) (computeTitle (lines.getD i [])) == lines.getD i []) = true
                · rw [if_pos hbq] at hq
                  exact absurd hq (List.not_mem_nil q)
                · rw [if_neg hbq] at hq
                  rcases List.mem_cons.mp hq with h | h
                  · rw [h]
                    show i ≠ j
                    omega
                  · exact absurd h (List.not_mem_nil q)), Option.or_none]
          · rw [List.getD_eq_default _ _ (by rw [applyRepl_length]; omega),
              List.getD_eq_default _ _ (by rw [applyRepl_length]; omega)]
      rw [h1]
      simp only [buildAux]
      rw [hgd, hT2, if_neg hex, if_pos (beq_self_eq_true _)]
      rw [buildSubs_noh3_nil _ _ _ _ 0 (fun j _ => hnoh3two j)]
      rw [hcong, ih (pos + 1) (bcStep (headKind total pos (computeTitle (lines.getD i []))) bc) hpw2 hsecr (hbcr _ hbck)]
      rfl

/-! ### Stability of frontmatter detection and section indices -/

theorem pstrip_h2_ne_dashes (t : Str) : pstrip (h2Mark ++ t) ≠ ['-', '-', '-'] := by
  show pstrip ('#' :: ('#' :: ' ' :: t)) ≠ _
  rw [pstrip_cons_of_neg _ (by decide)]
  intro h
  injection h with h1 _
  exact absurd h1 (by decide)

theorem findDashes_congr : ∀ (l1 l2 : List Str), l1.length = l2.length →
    (∀ j, j < l1.length →
      (pstrip (l1.getD j []) == ['-', '-', '-']) =
      (pstrip (l2.getD j []) == ['-', '-', '-'])) →
    findDashes l1 = findDashes l2 := by
  intro l1
  induction l1 with
  | nil =>
    intro l2 hlen _
    cases l2 with
    | nil => rfl
    | cons b m => cases hlen
  | cons a l ih =>
    intro l2 hlen h
    cases l2 with
    | nil => cases hlen
    | cons b m =>
      have h0 := h 0 (by simp)
      simp only [List.getD_cons_zero] at h0
      rw [findDashes, findDashes, h0]
      have hrest := ih m (by simpa using hlen) (by
        intro j hj
        have := h (j + 1) (by simpa using Nat.succ_lt_succ hj)
        simpa only [List.getD_cons_succ] using this)
      rw [hrest]

theorem frontmatterEnd_congr (l1 l2 : List Str) (hlen : l1.length = l2.length)
    (h : ∀ j, j < l1.length →
      (pstrip (l1.getD j []) == ['-', '-', '-']) =
      (pstrip (l2.getD j []) == ['-', '-', '-'])) :
    frontmatterEnd l1 = frontmatterEnd l2 := by
  cases l1 with
  | nil =>
    cases l2 with
    | nil => rfl
    | cons b m => cases hlen
  | cons a l =>
    cases l2 with
    | nil => cases hlen
    | cons b m =>
      have h0 := h 0 (by simp)
      simp only [List.getD_cons_zero] at h0
      rw [frontmatterEnd, frontmatterEnd, h0]
      have hrest := findDashes_congr l m (by simpa using hlen) (by
        intro j hj
        have := h (j + 1) (by simpa using Nat.succ_lt_succ hj)
        simpa only [List.getD_cons_succ] using this)
      rw [hrest]

/-! ### Joining the split lines back -/

theorem joinSep_splitCharAux (sep : Char) : ∀ (s acc : Str),
    joinSep [sep] (splitCharAux sep s acc) = acc.reverse ++ s := by
  intro s
  induction s with
  | nil =>
    intro acc
    rw [splitCharAux, joinSep, List.append_nil]
  | cons c cs ih =>
    intro acc
    rw [splitCharAux]
    by_cases hc : (c == sep) = true
    · rw [if_pos hc]
      cases hL : splitCharAux sep cs [] with
      | nil => exact absurd hL (splitCharAux_ne_nil sep cs [])
      | cons y ys =>
        rw [joinSep]
        have := ih []
        rw [hL] at this
        rw [this]
        rw [List.reverse_nil, List.nil_append, List.append_assoc,
          List.singleton_append, eq_of_beq hc]
    · rw [if_neg hc, ih (c :: acc), List.reverse_cons, List.append_assoc,
        List.singleton_append]

theorem joinSep_splitChar (sep : Char) (s : Str) :
    joinSep [sep] (splitChar sep s) = s := by
  rw [splitChar, joinSep_splitCharAux, List.reverse_nil, List.nil_append]

/-! ### Characters of the split lines come from the string -/

theorem splitCharAux_chars (sep : Char) : ∀ (s acc : Str),
    ∀ l ∈ splitCharAux sep s acc, ∀ c ∈ l, c ∈ s ∨ c ∈ acc := by
  intro s
  induction s with
  | nil =>
    intro acc l hl c hc
    rw [splitCharAux] at hl
    rcases List.mem_cons.mp hl with h | h
    · exact Or.inr (List.mem_reverse.mp (h ▸ hc))
    · exact absurd h (List.not_mem_nil l)
  | cons a as ih =>
    intro acc l hl c hc
    rw [splitCharAux] at hl
    by_cases ha : (a == sep) = true
    · rw [if_pos ha] at hl
      rcases List.mem_cons.mp hl with h | h
      · exact Or.inr (List.mem_reverse.mp (h ▸ hc))
      · rcases ih [] l h c hc with h2 | h2
        · exact Or.inl (List.mem_cons_of_mem a h2)
        · exact absurd h2 (List.not_mem_nil c)
    · rw [if_neg ha] at hl
      rcases ih (a :: acc) l hl c hc with h2 | h2
      · exact Or.inl (List.mem_cons_of_mem a h2)
      · rcases List.mem_cons.mp h2 with h3 | h3
        · exact Or.inl (h3 ▸ List.mem_cons_self a as)
        · exact Or.inr h3

theorem splitChar_chars {sep : Char} {s l : Str} (hl : l ∈ splitChar sep s)
    {c : Char} (hc : c ∈ l) : c ∈ s := by
  rcases splitCharAux_chars sep s [] l hl c hc with h | h
  · exact h
  · exact absurd h (List.not_mem_nil c)

/-! ### normalize_headings on an already-normalized document -/

theorem normalizeHeadings_empty (content : Str)
    (h : (secIdxs (splitChar '\n' content)
      (frontmatterEnd (splitChar '\n' content))).isEmpty = true) :
    normalizeHeadings content = (content, []) := by
  simp only [normalizeHeadings]
  rw [if_pos h]

theorem secIdxs_pairwise_lt (lines : List Str) (fm : Nat) :
    (secIdxs lines fm).Pairwise (fun a b => a < b) := by
  rw [secIdxs]
  exact List.Pairwise.sublist (List.filter_sublist _) (List.pairwise_lt_range _)

theorem normalizeHeadings_id_of (content : Str)
    (h : buildAux (splitChar '\n' content)
      (secIdxs (splitChar '\n' content)
        (frontmatterEnd (splitChar '\n' content))).length
      (secIdxs (splitChar '\n' content) (frontmatterEnd (splitChar '\n' content)))
      0 0 = ([], [])) :
    normalizeHeadings content = (content, []) := by
  by_cases hae : (secIdxs (splitChar '\n' content)
      (frontmatterEnd (splitChar '\n' content))).isEmpty = true
  · exact normalizeHeadings_empty content hae
  · rw [normalizeHeadings_out content (by
      cases hx : (secIdxs (splitChar '\n' content)
          (frontmatterEnd (splitChar '\n' content))).isEmpty with
      | false => rfl
      | true => exact absurd hx hae)]
    rw [h, applyRepl_nil, joinSep_splitChar]

/-! ### Conditional idempotence of normalize_headings -/

set_option maxHeartbeats 2000000 in
theorem normalizeHeadings_idem (content : Str)
    (hnoh3 : ∀ l ∈ splitChar '\n' content, startsWithStr l h3Mark = false)
    (hnod : emDash ∉ content)
    (hbc : (secIdxs (splitChar '\n' content) (frontmatterEnd (splitChar '\n' content))).length ≤ 99) :
    normalizeHeadings ((normalizeHeadings content).1) =
      ((normalizeHeadings content).1, []) := by
  by_cases hae : (secIdxs (splitChar '\n' content) (frontmatterEnd (splitChar '\n' content))).isEmpty = true
  · rw [normalizeHeadings_empty content hae]
    show normalizeHeadings content = (content, [])
    exact normalizeHeadings_empty content hae
  · have hne : (secIdxs (splitChar '\n' content) (frontmatterEnd (splitChar '\n' content))).isEmpty = false := by
      cases hx : (secIdxs (splitChar '\n' content) (frontmatterEnd (splitChar '\n' content))).isEmpty with
      | false => rfl
      | true => exact absurd hx hae
    have hnoh3g : ∀ j : Nat, startsWithStr ((splitChar '\n' content).getD j []) h3Mark = false := by
      intro j
      by_cases hj : j < (splitChar '\n' content).length
      · rw [List.getD_eq_getElem _ _ hj]
        exact hnoh3 _ (List.getElem_mem hj)
      · rw [List.getD_eq_default _ _ (by omega)]
        rfl
    have hnodg : ∀ j : Nat, emDash ∉ (splitChar '\n' content).getD j [] := by
      intro j
      by_cases hj : j < (splitChar '\n' content).length
      · rw [List.getD_eq_getElem _ _ hj]
        intro hx
        exact hnod (splitChar_chars (List.getElem_mem hj) hx)
      · rw [List.getD_eq_default _ _ (by omega)]
        exact List.not_mem_nil _
    have hsp2 : splitChar '\n' (normalizeHeadings content).1 = applyRepl (buildAux (splitChar '\n' content) (secIdxs (splitChar '\n' content) (frontmatterEnd (splitChar '\n' content))).length (secIdxs (splitChar '\n' content) (frontmatterEnd (splitChar '\n' content))) 0 0).1 (splitChar '\n' content) :=
      normalizeHeadings_out_lines content hne
    have hcases : ∀ j : Nat, j < (splitChar '\n' content).length →
        (applyRepl (buildAux (splitChar '\n' content) (secIdxs (splitChar '\n' content) (frontmatterEnd (splitChar '\n' content))).length (secIdxs (splitChar '\n' content) (frontmatterEnd (splitChar '\n' content))) 0 0).1 (splitChar '\n' content)).getD j [] = (splitChar '\n' content).getD j [] ∨
        ((∃ t, (applyRepl (buildAux (splitChar '\n' content) (secIdxs (splitChar '\n' content) (frontmatterEnd (splitChar '\n' content))).length (secIdxs (splitChar '\n' content) (frontmatterEnd (splitChar '\n' content))) 0 0).1 (splitChar '\n' content)).getD j [] = h2Mark ++ t) ∧
         (∃ t2, (splitChar '\n' content).getD j [] = h2Mark ++ t2)) := by
      intro j hj
      rw [applyRepl_getD hj]
      cases hlk : lookupRepl j (buildAux (splitChar '\n' content) (secIdxs (splitChar '\n' content) (frontmatterEnd (splitChar '\n' content))).length (secIdxs (splitChar '\n' content) (frontmatterEnd (splitChar '\n' content))) 0 0).1 with
      | none => exact Or.inl rfl
      | some v =>
        right
        obtain ⟨hor, _⟩ := buildAux_entries (splitChar '\n' content) (secIdxs (splitChar '\n' content) (frontmatterEnd (splitChar '\n' content))).length (secIdxs (splitChar '\n' content) (frontmatterEnd (splitChar '\n' content))) 0 0
          (j, v) (lookupRepl_mem hlk)
        rcases hor with ⟨hjm, ⟨t, ht⟩, _⟩ | hbad
        · constructor
          · have ht2 : v = h2Mark ++ t := ht
            exact ⟨t, ht2⟩
          · obtain ⟨_, hsec⟩ := secIdxs_mem hjm
            rw [isSecLine, Bool.and_eq_true] at hsec
            exact exists_of_startsWithStr hsec.1
        · rw [hnoh3g j] at hbad
          cases hbad
    have hfm2 : frontmatterEnd (applyRepl (buildAux (splitChar '\n' content) (secIdxs (splitChar '\n' content) (frontmatterEnd (splitChar '\n' content))).length (secIdxs (splitChar '\n' content) (frontmatterEnd (splitChar '\n' content))) 0 0).1 (splitChar '\n' content)) = frontmatterEnd (splitChar '\n' content) := by
      apply frontmatterEnd_congr
      · exact applyRepl_length _ _
      · intro j hj
        have hj2 : j < (splitChar '\n' content).length := by
          rw [applyRepl_length] at hj
          exact hj
        rcases hcases j hj2 with heq | ⟨⟨t, ht⟩, ⟨t2, ht2⟩⟩
        · rw [heq]
        · rw [ht, ht2, beq_eq_false_iff_ne.mpr (pstrip_h2_ne_dashes t),
            beq_eq_false_iff_ne.mpr (pstrip_h2_ne_dashes t2)]
    have hidx2 : secIdxs (applyRepl (buildAux (splitChar '\n' content) (secIdxs (splitChar '\n' content) (frontmatterEnd (splitChar '\n' content))).length (secIdxs (splitChar '\n' content) (frontmatterEnd (splitChar '\n' content))) 0 0).1 (splitChar '\n' content)) (frontmatterEnd (splitChar '\n' content)) = secIdxs (splitChar '\n' content) (frontmatterEnd (splitChar '\n' content)) := by
      rw [secIdxs, secIdxs, applyRepl_length]
      apply List.filter_congr
      intro x hx
      show (decide ((frontmatterEnd (splitChar '\n' content)) ≤ x) && isSecLine ((applyRepl (buildAux (splitChar '\n' content) (secIdxs (splitChar '\n' content) (frontmatterEnd (splitChar '\n' content))).length (secIdxs (splitChar '\n' content) (frontmatterEnd (splitChar '\n' content))) 0 0).1 (splitChar '\n' content)).getD x [])) =
        (decide ((frontmatterEnd (splitChar '\n' content)) ≤ x) && isSecLine ((splitChar '\n' content).getD x []))
      have hx2 : x < (splitChar '\n' content).length := List.mem_range.mp hx
      rcases hcases x hx2 with heq | ⟨⟨t, ht⟩, ⟨t2, ht2⟩⟩
      · rw [heq]
      · rw [ht, ht2, isSecLine_h2, isSecLine_h2]
    have hrt := roundTwo (splitChar '\n' content) (secIdxs (splitChar '\n' content) (frontmatterEnd (splitChar '\n' content))).length hnoh3g hnodg (secIdxs (splitChar '\n' content) (frontmatterEnd (splitChar '\n' content))) 0 0
      (secIdxs_pairwise_lt _ _)
      (fun i hi => (secIdxs_mem hi).2)
      (by omega)
    apply normalizeHeadings_id_of
    rw [hsp2, hfm2, hidx2]
    exact hrt

/-! ### Claims C1 and C5 -/

set_option maxHeartbeats 1000000 in
/-- C1 (counterexample to idempotence): on the document
`## Introduction` / `### 1.1 2.2 Legacy`, a second run of
`normalize_headings` reports further changes and alters the document again
(the first run strips only the first numeric prefix of the level-3 heading,
the second run strips the next one). -/
theorem c1_counterexample :
    (normalizeHeadings ((normalizeHeadings ("## Introduction\n### 1.1 2.2 Legacy".toList)).1)).2 ≠ ([] : List Str) ∧
    (normalizeHeadings ((normalizeHeadings ("## Introduction\n### 1.1 2.2 Legacy".toList)).1)).1 ≠
      (normalizeHeadings ("## Introduction\n### 1.1 2.2 Legacy".toList)).1 := by
  decide

set_option maxHeartbeats 1000000 in
/-- C1 (amended): (a) a level-2 heading whose computed title is an excluded
heading (references/bibliography) is returned unchanged by
`normalize_headings`, for every document; (b) `normalize_headings` is
idempotent on documents with no level-3 heading lines, no em-dash, and at
most 99 section headings: the second run returns the first run output with
an empty change list. -/
theorem c1_amended :
    (∀ (content : Str) (n : Nat),
      n < (secIdxs (splitChar '\n' content) (frontmatterEnd (splitChar '\n' content))).length →
      excludedHeadings.contains (pstrip (lowerStr (computeTitle
        ((splitChar '\n' content).getD ((secIdxs (splitChar '\n' content) (frontmatterEnd (splitChar '\n' content))).getD n 0) [])))) = true →
      (splitChar '\n' (normalizeHeadings content).1).getD
        ((secIdxs (splitChar '\n' content) (frontmatterEnd (splitChar '\n' content))).getD n 0) [] =
      (splitChar '\n' content).getD ((secIdxs (splitChar '\n' content) (frontmatterEnd (splitChar '\n' content))).getD n 0) []) ∧
    (∀ content : Str,
      (∀ l ∈ splitChar '\n' content, startsWithStr l h3Mark = false) →
      emDash ∉ content →
      (secIdxs (splitChar '\n' content) (frontmatterEnd (splitChar '\n' content))).length ≤ 99 →
      normalizeHeadings ((normalizeHeadings content).1) =
        ((normalizeHeadings content).1, [])) := by
  constructor
  · intro content n hn hcont
    rw [headLine_spec content n hn]
    simp only [specHeadLine]
    rw [getD_map_str hn]
    rw [contains_excluded hcont]
  · exact normalizeHeadings_idem

set_option maxHeartbeats 2000000 in
/-- Witness for C1 (amended): the `## References` heading of a concrete
three-heading document is output unchanged, and a concrete document
satisfying the restrictions is a fixed point of the second run. -/
theorem c1_amended_witness :
    ((splitChar '\n' (normalizeHeadings ("## Overview\n## References\n## Conclusion".toList)).1).getD
      ((secIdxs (splitChar '\n' ("## Overview\n## References\n## Conclusion".toList)) (frontmatterEnd (splitChar '\n' ("## Overview\n## References\n## Conclusion".toList)))).getD 1 0) [] =
      (splitChar '\n' ("## Overview\n## References\n## Conclusion".toList)).getD ((secIdxs (splitChar '\n' ("## Overview\n## References\n## Conclusion".toList)) (frontmatterEnd (splitChar '\n' ("## Overview\n## References\n## Conclusion".toList)))).getD 1 0) []) ∧
    normalizeHeadings ((normalizeHeadings ("## Introduction\n## Debates\n## Conclusion".toList)).1) =
      ((normalizeHeadings ("## Introduction\n## Debates\n## Conclusion".toList)).1, []) :=
  ⟨c1_amended.1 ("## Overview\n## References\n## Conclusion".toList) 1 (by decide) (by decide),
   c1_amended.2 ("## Introduction\n## Debates\n## Conclusion".toList) (by decide) (by decide) (by decide)⟩

set_option maxHeartbeats 1000000 in
/-- C5 (counterexample to bare-numeric-prefix stripping): the heading
`## 2. Background` keeps its numeric prefix: the code only strips
`Section N:` prefixes (RE_SECTION_PREFIX), not bare numeric ones, so the
output is `## Section 1: 2. Background`. -/
theorem c5_counterexample :
    (normalizeHeadings ("## 2. Background".toList)).1 =
      ("## Section 1: 2. Background".toList) ∧
    (normalizeHeadings ("## 2. Background".toList)).1 ≠
      ("## Section 1: Background".toList) := by
  decide

/-- C5 (amended): for every document, the `n`-th level-2 section heading of
the output of `normalize_headings` is exactly `specHeadLine`: an excluded
heading stays as the raw line; a first-position intro synonym or
last-position conclusion synonym becomes bare `## Title`; every other
heading becomes `## Section K: Title` where `K` counts earlier body
sections and `Title` is the em-dash-normalized, `Section N:`-stripped
title (bare numeric prefixes are not stripped). -/
theorem c5_amended (content : Str) (n : Nat)
    (hn : n < (secIdxs (splitChar '\n' content) (frontmatterEnd (splitChar '\n' content))).length) :
    (splitChar '\n' (normalizeHeadings content).1).getD
      ((secIdxs (splitChar '\n' content) (frontmatterEnd (splitChar '\n' content))).getD n 0) [] =
    specHeadLine
      (secIdxs (splitChar '\n' content) (frontmatterEnd (splitChar '\n' content))).length
      ((secIdxs (splitChar '\n' content) (frontmatterEnd (splitChar '\n' content))).map (fun j => computeTitle ((splitChar '\n' content).getD j [])))
      n
      ((splitChar '\n' content).getD ((secIdxs (splitChar '\n' content) (frontmatterEnd (splitChar '\n' content))).getD n 0) []) :=
  headLine_spec content n hn

set_option maxHeartbeats 2000000 in
/-- Witness for C5 (amended): position 1 (the `## Debates` heading) of the
concrete five-heading document with frontmatter and numbered subsections. -/
theorem c5_amended_witness :
    1 < (secIdxs (splitChar '\n' ("---\ntitle: X\n---\n\n## Introduction\n### 9.9 Legacy\n## Debates\n### Subsection 2.3 Prior Work\n## Conclusion".toList)) (frontmatterEnd (splitChar '\n' ("---\ntitle: X\n---\n\n## Introduction\n### 9.9 Legacy\n## Debates\n### Subsection 2.3 Prior Work\n## Conclusion".toList)))).length ∧
    (splitChar '\n' (normalizeHeadings ("---\ntitle: X\n---\n\n## Introduction\n### 9.9 Legacy\n## Debates\n### Subsection 2.3 Prior Work\n## Conclusion".toList)).1).getD
      ((secIdxs (splitChar '\n' ("---\ntitle: X\n---\n\n## Introduction\n### 9.9 Legacy\n## Debates\n### Subsection 2.3 Prior Work\n## Conclusion".toList)) (frontmatterEnd (splitChar '\n' ("---\ntitle: X\n---\n\n## Introduction\n### 9.9 Legacy\n## Debates\n### Subsection 2.3 Prior Work\n## Conclusion".toList)))).getD 1 0) [] =
    specHeadLine
      (secIdxs (splitChar '\n' ("---\ntitle: X\n---\n\n## Introduction\n### 9.9 Legacy\n## Debates\n### Subsection 2.3 Prior Work\n## Conclusion".toList)) (frontmatterEnd (splitChar '\n' ("---\ntitle: X\n---\n\n## Introduction\n### 9.9 Legacy\n## Debates\n### Subsection 2.3 Prior Work\n## Conclusion".toList)))).length
      ((secIdxs (splitChar '\n' ("---\ntitle: X\n---\n\n## Introduction\n### 9.9 Legacy\n## Debates\n### Subsection 2.3 Prior Work\n## Conclusion".toList)) (frontmatterEnd (splitChar '\n' ("---\ntitle: X\n---\n\n## Introduction\n### 9.9 Legacy\n## Debates\n### Subsection 2.3 Prior Work\n## Conclusion".toList)))).map (fun j => computeTitle ((splitChar '\n' ("---\ntitle: X\n---\n\n## Introduction\n### 9.9 Legacy\n## Debates\n### Subsection 2.3 Prior Work\n## Conclusion".toList)).getD j [])))
      1
      ((splitChar '\n' ("---\ntitle: X\n---\n\n## Introduction\n### 9.9 Legacy\n## Debates\n### Subsection 2.3 Prior Work\n## Conclusion".toList)).getD ((secIdxs (splitChar '\n' ("---\ntitle: X\n---\n\n## Introduction\n### 9.9 Legacy\n## Debates\n### Subsection 2.3 Prior Work\n## Conclusion".toList)) (frontmatterEnd (splitChar '\n' ("---\ntitle: X\n---\n\n## Introduction\n### 9.9 Legacy\n## Debates\n### Subsection 2.3 Prior Work\n## Conclusion".toList)))).getD 1 0) []) :=
  ⟨by decide, c5_amended ("---\ntitle: X\n---\n\n## Introduction\n### 9.9 Legacy\n## Debates\n### Subsection 2.3 Prior Work\n## Conclusion".toList) 1 (by decide)⟩

end Mgmt
